/-
Verification of the pyrad RADIUS library core (packet codec, authenticators,
password obfuscation, client retry loop) against its specification.

The development shallowly embeds the Python sources:
  * bytes are `List Nat` (each element a byte value < 256 on the Python side;
    boundedness appears as explicit hypotheses where it matters),
  * Python `OrderedDict` attribute stores are association lists,
  * fallible code returns `Except`,
  * `hashlib.md5` and `hmac.new(key, digestmod=md5)` are given concrete
    executable definitions (RFC 1321 / RFC 2104), since the library's
    behaviour under scrutiny depends on actual digest values,
  * loops whose progress depends on data (attribute scanning) use explicit
    fuel; every call site passes fuel that provably suffices on the inputs
    the theorems speak about.  A `.fuel` error models Python code that
    loops forever (no exception, no return).
-/
import Mathlib

set_option maxRecDepth 10000

namespace Pyrad

/-- Decidable equality on `Except`, so that witnesses can be checked by
`decide`. -/
instance {ε α : Type _} [DecidableEq ε] [DecidableEq α] : DecidableEq (Except ε α) :=
  fun x y =>
    match x, y with
    | .ok a, .ok b =>
      if h : a = b then .isTrue (by rw [h])
      else .isFalse (by intro hh; injection hh; exact h (by assumption))
    | .error a, .error b =>
      if h : a = b then .isTrue (by rw [h])
      else .isFalse (by intro hh; injection hh; exact h (by assumption))
    | .ok _, .error _ => .isFalse (by intro hh; exact Except.noConfusion hh)
    | .error _, .ok _ => .isFalse (by intro hh; exact Except.noConfusion hh)

/-- Byte strings, as in Python `bytes`: a list of small naturals. -/
abbrev Bytes := List Nat

/-- Python slice `b[i:j]` (clamped, empty when `j ≤ i`). -/
def sl (b : Bytes) (i j : Nat) : Bytes := (b.drop i).take (j - i)

/-- `struct.pack('!H', n)`: 16-bit big-endian. -/
def pack16 (n : Nat) : Bytes := [n / 256 % 256, n % 256]

/-- `struct.pack('!L', n)` / `'!I'`: 32-bit big-endian. -/
def pack32 (n : Nat) : Bytes := [n / 16777216 % 256, n / 65536 % 256, n / 256 % 256, n % 256]

/-- `struct.unpack('!L', b)[0]` on a 4-byte string. -/
def unpack32 (b : Bytes) : Nat :=
  b.getD 0 0 * 16777216 + b.getD 1 0 * 65536 + b.getD 2 0 * 256 + b.getD 3 0

/-! ## MD5 (RFC 1321), executable -/

/-- 2^32. -/
def m32 : Nat := 4294967296

/-- Addition modulo 2^32. -/
def madd (a b : Nat) : Nat := (a + b) % m32

/-- Left-rotate a 32-bit value by `n` bits. -/
def rotl32 (x n : Nat) : Nat := (x * 2 ^ n + x / 2 ^ (32 - n)) % m32

/-- Bitwise NOT on 32 bits. -/
def bnot32 (x : Nat) : Nat := Nat.xor x 4294967295

/-- The MD5 sine-derived constant table. -/
def md5K : List Nat :=
  [0xd76aa478, 0xe8c7b756, 0x242070db, 0xc1bdceee,
   0xf57c0faf, 0x4787c62a, 0xa8304613, 0xfd469501,
   0x698098d8, 0x8b44f7af, 0xffff5bb1, 0x895cd7be,
   0x6b901122, 0xfd987193, 0xa679438e, 0x49b40821,
   0xf61e2562, 0xc040b340, 0x265e5a51, 0xe9b6c7aa,
   0xd62f105d, 0x02441453, 0xd8a1e681, 0xe7d3fbc8,
   0x21e1cde6, 0xc33707d6, 0xf4d50d87, 0x455a14ed,
   0xa9e3e905, 0xfcefa3f8, 0x676f02d9, 0x8d2a4c8a,
   0xfffa3942, 0x8771f681, 0x6d9d6122, 0xfde5380c,
   0xa4beea44, 0x4bdecfa9, 0xf6bb4b60, 0xbebfbc70,
   0x289b7ec6, 0xeaa127fa, 0xd4ef3085, 0x04881d05,
   0xd9d4d039, 0xe6db99e5, 0x1fa27cf8, 0xc4ac5665,
   0xf4292244, 0x432aff97, 0xab9423a7, 0xfc93a039,
   0x655b59c3, 0x8f0ccc92, 0xffeff47d, 0x85845dd1,
   0x6fa87e4f, 0xfe2ce6e0, 0xa3014314, 0x4e0811a1,
   0xf7537e82, 0xbd3af235, 0x2ad7d2bb, 0xeb86d391]

/-- The MD5 per-round left-rotation amounts. -/
def md5S : List Nat :=
  [7, 12, 17, 22, 7, 12, 17, 22, 7, 12, 17, 22, 7, 12, 17, 22,
   5, 9, 14, 20, 5, 9, 14, 20, 5, 9, 14, 20, 5, 9, 14, 20,
   4, 11, 16, 23, 4, 11, 16, 23, 4, 11, 16, 23, 4, 11, 16, 23,
   6, 10, 15, 21, 6, 10, 15, 21, 6, 10, 15, 21, 6, 10, 15, 21]

/-- One MD5 round operation at round index `i` on state `(a, b, c, d)`,
given the 16 message words `M`. -/
def md5Step (M : List Nat) (i : Nat) : Nat × Nat × Nat × Nat → Nat × Nat × Nat × Nat :=
  fun st =>
    let a := st.1; let b := st.2.1; let c := st.2.2.1; let d := st.2.2.2
    let f :=
      if i < 16 then Nat.lor (Nat.land b c) (Nat.land (bnot32 b) d)
      else if i < 32 then Nat.lor (Nat.land d b) (Nat.land (bnot32 d) c)
      else if i < 48 then Nat.xor b (Nat.xor c d)
      else Nat.xor c (Nat.lor b (bnot32 d))
    let g :=
      if i < 16 then i
      else if i < 32 then (5 * i + 1) % 16
      else if i < 48 then (3 * i + 5) % 16
      else (7 * i) % 16
    let tmp := madd (madd (madd a f) (md5K.getD i 0)) (M.getD g 0)
    (d, madd b (rotl32 tmp (md5S.getD i 0)), b, c)

/-- Run MD5 rounds `64 - fuel, …, 63`; call with fuel 64 for a full block. -/
def md5Rounds (M : List Nat) : Nat → Nat × Nat × Nat × Nat → Nat × Nat × Nat × Nat
  | 0, st => st
  | n + 1, st => md5Rounds M n (md5Step M (64 - (n + 1)) st)

/-- Split a 64-byte chunk into 16 little-endian 32-bit words. -/
def leWords : Bytes → List Nat
  | b0 :: b1 :: b2 :: b3 :: rest =>
      (b0 + 256 * b1 + 65536 * b2 + 16777216 * b3) :: leWords rest
  | _ => []

/-- MD5 compression of one 64-byte chunk into the running state. -/
def md5Compress (st : Nat × Nat × Nat × Nat) (chunk : Bytes) : Nat × Nat × Nat × Nat :=
  let M := leWords chunk
  let r := md5Rounds M 64 st
  (madd st.1 r.1, madd st.2.1 r.2.1, madd st.2.2.1 r.2.2.1, madd st.2.2.2 r.2.2.2)

/-- 64-bit little-endian encoding (for the MD5 length trailer). -/
def le64 (n : Nat) : Bytes :=
  [n % 256, n / 256 % 256, n / 65536 % 256, n / 16777216 % 256,
   n / 4294967296 % 256, n / 1099511627776 % 256,
   n / 281474976710656 % 256, n / 72057594037927936 % 256]

/-- 32-bit little-endian encoding (for the MD5 output words). -/
def le32 (n : Nat) : Bytes := [n % 256, n / 256 % 256, n / 65536 % 256, n / 16777216 % 256]

/-- MD5 padding: append `0x80`, zero-fill to 56 mod 64, append bit length. -/
def md5Pad (msg : Bytes) : Bytes :=
  let l := msg.length
  let k := (120 - (l + 1) % 64) % 64
  msg ++ [128] ++ List.replicate k 0 ++ le64 (8 * l % 18446744073709551616)

/-- Fold the compression function over consecutive 64-byte chunks. -/
def md5Chunks : Nat → Nat × Nat × Nat × Nat → Bytes → Nat × Nat × Nat × Nat
  | _, st, [] => st
  | 0, st, _ => st
  | fuel + 1, st, bs => md5Chunks fuel (md5Compress st (bs.take 64)) (bs.drop 64)

/-- `hashlib.md5(msg).digest()`. -/
def md5bytes (msg : Bytes) : Bytes :=
  let p := md5Pad msg
  let r := md5Chunks p.length (0x67452301, 0xefcdab89, 0x98badcfe, 0x10325476) p
  le32 r.1 ++ le32 r.2.1 ++ le32 r.2.2.1 ++ le32 r.2.2.2

theorem md5bytes_length (msg : Bytes) : (md5bytes msg).length = 16 := by
  simp [md5bytes, le32]

/-- `hmac.new(key, msg, digestmod=md5).digest()` (RFC 2104 with MD5). -/
def hmacMd5 (key msg : Bytes) : Bytes :=
  let k0 := if 64 < key.length then md5bytes key else key
  let kp := k0 ++ List.replicate (64 - k0.length) 0
  md5bytes ((kp.map (Nat.xor 92)) ++ md5bytes ((kp.map (Nat.xor 54)) ++ msg))

/-! ## Python values and exceptions -/

/-- The Python exception kinds the embedded code can raise.  `.fuel` models a
Python loop that never terminates (it neither returns nor raises). -/
inductive PyErr
  | valueError
  | typeError
  | keyError
  | indexError
  | structError
  | unicodeError
  | binasciiError
  | packetError (msg : String)
  | exceptionErr (msg : String)
  | attributeError
  | fuel
  deriving DecidableEq, Repr

/-- Python values as passed to the codec and constructors.  `pystr` uses the
Lean `String` type; `pyint` covers the non-negative integers the claims use. -/
inductive PyVal
  | pybytes (b : Bytes)
  | pystr (s : String)
  | pyint (n : Nat)
  | pynone
  deriving DecidableEq, Repr

/-- A decoded attribute value as returned by `Packet.__getitem__`:
either a value-table name, a str, raw bytes, or an integer. -/
inductive DecVal
  | dname (s : String)
  | dstr (cps : List Nat)
  | dbytes (b : Bytes)
  | dint (n : Nat)
  deriving DecidableEq, Repr

/-! ## UTF-8 -/

/-- UTF-8 encoding of one Unicode code point. -/
def utf8Char (c : Nat) : Bytes :=
  if c < 128 then [c]
  else if c < 2048 then [192 + c / 64, 128 + c % 64]
  else if c < 65536 then [224 + c / 4096, 128 + c / 64 % 64, 128 + c % 64]
  else [240 + c / 262144, 128 + c / 4096 % 64, 128 + c / 64 % 64, 128 + c % 64]

/-- UTF-8 encoding of a code-point sequence (`str.encode('utf-8')`). -/
def utf8Encode (s : List Nat) : Bytes := (s.map utf8Char).flatten

/-- `s.encode('utf-8')` for a Lean-level string. -/
def strUtf8 (s : String) : Bytes := utf8Encode (s.data.map Char.toNat)

/-- Is `b` a UTF-8 continuation byte? -/
def utf8Cont (b : Nat) : Bool := 128 ≤ b && b < 192

/-- Strict UTF-8 decoding (`bytes.decode('utf-8')`); `none` models
`UnicodeDecodeError`.  Overlong encodings and surrogates are rejected. -/
def utf8Decode : Bytes → Option (List Nat)
  | [] => some []
  | b :: rest =>
    if b < 128 then (utf8Decode rest).map (b :: ·)
    else if b < 192 then none
    else if b < 224 then
      match rest with
      | b1 :: r =>
        if utf8Cont b1 then
          let c := (b - 192) * 64 + (b1 - 128)
          if 128 ≤ c then (utf8Decode r).map (c :: ·) else none
        else none
      | _ => none
    else if b < 240 then
      match rest with
      | b1 :: b2 :: r =>
        if utf8Cont b1 && utf8Cont b2 then
          let c := (b - 224) * 4096 + (b1 - 128) * 64 + (b2 - 128)
          if 2048 ≤ c && (c < 55296 || 57343 < c) then (utf8Decode r).map (c :: ·) else none
        else none
      | _ => none
    else if b < 245 then
      match rest with
      | b1 :: b2 :: b3 :: r =>
        if utf8Cont b1 && utf8Cont b2 && utf8Cont b3 then
          let c := (b - 240) * 262144 + (b1 - 128) * 4096 + (b2 - 128) * 64 + (b3 - 128)
          if 65536 ≤ c && c ≤ 1114111 then (utf8Decode r).map (c :: ·) else none
        else none
      | _ => none
    else none

/-! ## Codec primitives (pyrad/tools.py, identical to the `encoding` module) -/

/-- `tools.encode_string`.  NOTE the source checks `len(string)`, the number
of *characters* of the str (or bytes length for bytes), not the length of the
UTF-8 encoding. -/
def encode_string (v : PyVal) : Except PyErr Bytes :=
  match v with
  | .pystr s => if 253 < s.length then .error .valueError else .ok (strUtf8 s)
  | .pybytes b => if 253 < b.length then .error .valueError else .ok b
  | _ => .error .typeError  -- len() of an int/None raises TypeError

/-- One hexadecimal digit value. -/
def unhexDigit (c : Nat) : Option Nat :=
  if 48 ≤ c && c ≤ 57 then some (c - 48)
  else if 97 ≤ c && c ≤ 102 then some (c - 87)
  else if 65 ≤ c && c ≤ 70 then some (c - 55)
  else none

/-- `binascii.unhexlify`. -/
def unhexlify : Bytes → Except PyErr Bytes
  | [] => .ok []
  | [_] => .error .binasciiError
  | a :: b :: r =>
    match unhexDigit a, unhexDigit b with
    | some x, some y => (unhexlify r).map (fun t => (16 * x + y) :: t)
    | _, _ => .error .binasciiError

/-- The bytes before the next occurrence of `0x` (used to model
`string.split(b'0x')[1]` on an input that starts with `0x`). -/
def takeUntil0x : Bytes → Bytes
  | [] => []
  | [a] => [a]
  | a :: b :: r => if a = 48 ∧ b = 120 then [] else a :: takeUntil0x (b :: r)

/-- `tools.encode_octets`: raw bytes, with a `0x`-prefixed hex form accepted. -/
def encode_octets (v : PyVal) : Except PyErr Bytes :=
  match v with
  | .pybytes b =>
    if 253 < b.length then .error .valueError
    else if b.take 2 = [48, 120] then unhexlify (takeUntil0x (b.drop 2))
    else .ok b
  | .pystr s =>
    -- str input: the length check passes/fails on characters, then
    -- `string.startswith(b'0x')` raises TypeError (str vs bytes).
    if 253 < s.length then .error .valueError else .error .typeError
  | _ => .error .typeError

/-- `int(s)` for a decimal string; `none` models ValueError. -/
def parseDecimal (s : List Char) : Option Nat :=
  if s.isEmpty then none
  else if s.all (fun c => 48 ≤ c.toNat && c.toNat ≤ 57) then
    some (s.foldl (fun a c => a * 10 + (c.toNat - 48)) 0)
  else none

/-- `tools.encode_integer` with format `'!I'`: 32-bit big-endian.
`int()` coercion of decimal strings is modelled; a failed coercion is the
source's `TypeError('Can not encode non-integer as integer')`, and an
out-of-range value is `struct.error`. -/
def encode_integer (v : PyVal) : Except PyErr Bytes :=
  match v with
  | .pyint n => if n < 4294967296 then .ok (pack32 n) else .error .structError
  | .pystr s =>
    match parseDecimal s.data with
    | some n => if n < 4294967296 then .ok (pack32 n) else .error .structError
    | none => .error .typeError
  | _ => .error .typeError

/-- `tools.encode_attr` restricted to the attribute types exercised by the
claims (`string`, `octets`, `integer`).  The remaining known type tags of
ENCODE_MAP (ipaddr, ipv6addr, …) are not needed by any claim and are not
modelled; an unknown tag raises ValueError as in the source. -/
def encode_attr (datatype : String) (v : PyVal) : Except PyErr Bytes :=
  if datatype = "string" then encode_string v
  else if datatype = "octets" then encode_octets v
  else if datatype = "integer" then encode_integer v
  else .error .valueError

/-- `tools.decode_string`: try UTF-8, fall back to the raw bytes. -/
def decode_string (b : Bytes) : DecVal :=
  match utf8Decode b with
  | some cps => .dstr cps
  | none => .dbytes b

/-- `tools.decode_integer` (`struct.unpack('!I', b)` needs exactly 4 bytes). -/
def decode_integer (b : Bytes) : Except PyErr DecVal :=
  if b.length = 4 then .ok (.dint (unpack32 b)) else .error .structError

/-- `tools.decode_attr`, same restriction as `encode_attr`. -/
def decode_attr (datatype : String) (b : Bytes) : Except PyErr DecVal :=
  if datatype = "string" then .ok (decode_string b)
  else if datatype = "octets" then .ok (.dbytes b)
  else if datatype = "integer" then decode_integer b
  else .error .valueError

/-! ## Dictionary model

The dictionary module itself is not part of the sources under scrutiny; the
packet code consults it through the interface below (per spec §3/§4.2): a
name → attribute-definition table, the backward direction of the wire-key
index, and per-attribute value tables.  Vendor names are pre-resolved to
vendor codes (`dict.vendors.get_forward` composed away). -/

/-- The internal attribute key: a numeric code, or a `(vendor, code)` pair for
vendor-specific attributes. -/
inductive AttrKey
  | num (c : Nat)
  | vsa (vendor : Nat) (c : Nat)
  deriving DecidableEq, Repr

/-- One dictionary attribute definition. -/
structure AttrDef where
  code : Nat
  type : String
  vendor : Option Nat := none
  hasTag : Bool := false
  encrypt : Nat := 0
  values : List (String × Bytes) := []
  isSub : Bool := false
  parentName : Option String := none
  deriving DecidableEq, Repr

/-- The dictionary: `attributes` (name → definition) and the backward
direction of `attrindex` (wire key → name). -/
structure RDict where
  attributes : List (String × AttrDef)
  attrindex : List (AttrKey × String) := []
  deriving DecidableEq, Repr

/-- `self.dict.attributes[name]` as an `Option`. -/
def RDict.lookupAttr (D : RDict) (name : String) : Option AttrDef :=
  D.attributes.lookup name

/-- `Packet._decode_key`: wire key → name when indexed, otherwise the key. -/
def RDict.decodeKey (D : RDict) (k : AttrKey) : Option String :=
  D.attrindex.lookup k

/-- `self.dict.attributes.get(self._decode_key(key))`. -/
def RDict.attrOfKey (D : RDict) (k : AttrKey) : Option AttrDef :=
  (D.decodeKey k).bind D.lookupAttr

/-- Does the wire key denote a `tlv`-typed attribute
(`attribute and attribute.type == 'tlv'`)? -/
def RDict.isTlvKey (D : RDict) (k : AttrKey) : Bool :=
  (D.attrOfKey k).any (fun a => a.type == "tlv")

/-- `attr.values.get_forward(value)`: value tables are keyed by str names. -/
def valuesForward (values : List (String × Bytes)) (v : PyVal) : Option Bytes :=
  match v with
  | .pystr s => values.lookup s
  | _ => none

/-- `attr.values.get_backward(octets)`: first name bound to these octets. -/
def valuesBackward (values : List (String × Bytes)) (b : Bytes) : Option String :=
  match values.find? (fun p => p.2 = b) with
  | some p => some p.1
  | none => none

/-! ## The attribute store (the `OrderedDict` base of `Packet`) -/

/-- A stored value: a list of raw octet strings for ordinary attributes, a
sub-code → raw-values map for `tlv` attributes. -/
inductive AttrVal
  | vals (l : List Bytes)
  | tlvm (m : List (Nat × List Bytes))
  deriving DecidableEq, Repr

/-- The ordered attribute map. -/
abbrev Store := List (AttrKey × AttrVal)

/-- Association lookup (`OrderedDict.__getitem__` for non-str keys). -/
def storeFind : Store → AttrKey → Option AttrVal
  | [], _ => none
  | (k', w) :: rest, k => if k' = k then some w else storeFind rest k

/-- `self.setdefault(key, []).append(value)`: append in place, creating the
entry at the end when absent.  Appending to a `tlv` entry would crash in
Python (`dict.append`); it is unreachable in the proved theorems and keeps
the store unchanged here. -/
def storeAppend : Store → AttrKey → Bytes → Store
  | [], k, v => [(k, .vals [v])]
  | (k', w) :: rest, k, v =>
    if k' = k then
      match w with
      | .vals l => (k', .vals (l ++ [v])) :: rest
      | .tlvm m => (k', .tlvm m) :: rest
    else (k', w) :: storeAppend rest k v

/-- `OrderedDict.__setitem__` for non-str keys: replace in place, else append
at the end. -/
def storeSet : Store → AttrKey → AttrVal → Store
  | [], k, w => [(k, w)]
  | (k', w') :: rest, k, w =>
    if k' = k then (k', w) :: rest else (k', w') :: storeSet rest k w

/-- `sub_attributes.setdefault(atype, []).append(value)` inside a tlv map. -/
def subAppend : List (Nat × List Bytes) → Nat → Bytes → List (Nat × List Bytes)
  | [], c, v => [(c, [v])]
  | (c', l) :: rest, c, v =>
    if c' = c then (c', l ++ [v]) :: rest else (c', l) :: subAppend rest c v

/-- `self.setdefault(code, {})` for a tlv attribute: the current sub-map
(`some []` when absent); `none` when the key holds a plain value list, in
which case Python would raise AttributeError. -/
def getTlvSub : Store → AttrKey → Option (List (Nat × List Bytes))
  | [], _ => some []
  | (k', w) :: rest, k =>
    if k' = k then
      match w with
      | .tlvm m => some m
      | .vals _ => none
    else getTlvSub rest k

/-- Write back a tlv sub-map (the in-place mutation of the dict obtained from
`setdefault(code, {})`). -/
def setTlvSub : Store → AttrKey → List (Nat × List Bytes) → Store
  | [], k, m => [(k, .tlvm m)]
  | (k', w) :: rest, k, m =>
    if k' = k then (k', .tlvm m) :: rest else (k', w) :: setTlvSub rest k m

/-- `sub.setdefault(c, []).extend(vs)`. -/
def subExtend (m : List (Nat × List Bytes)) (c : Nat) (vs : List Bytes) :
    List (Nat × List Bytes) :=
  vs.foldl (fun m v => subAppend m c v) m

/-- `self.setdefault(key, []).extend(vs)`. -/
def storeAppendList (st : Store) (k : AttrKey) (vs : List Bytes) : Store :=
  vs.foldl (fun s v => storeAppend s k v) st

/-! ## Packet value encoding (pyrad/packet.py) -/

/-- `bytes([b ^ h for b, h in zip(xs, ys)])`. -/
def xorZip (xs ys : Bytes) : Bytes := (xs.zip ys).map (fun p => Nat.xor p.1 p.2)

/-- The XOR-chaining loop of `Packet.salt_crypt` (`last = result[-16:]`). -/
def saltLoop (secret : Bytes) : Nat → Bytes → Bytes → Bytes → Bytes
  | 0, result, _, _ => result
  | fuel + 1, result, last, buf =>
    match buf with
    | [] => result
    | _ =>
      let result2 := result ++ xorZip buf (md5bytes (secret ++ last))
      saltLoop secret fuel result2 (result2.drop (result2.length - 16)) (buf.drop 16)

/-- `Packet.salt_crypt`.  The 15-bit random salt is an explicit parameter;
when the authenticator is unset the source substitutes 16 zero octets (the
accompanying in-place assignment to `self.authenticator` is not modelled).
The input is the already-encoded octet value (< 256 octets). -/
def saltCrypt (secret : Bytes) (auth0 : Option Bytes) (saltRand : Nat) (value : Bytes) : Bytes :=
  let auth := match auth0 with | some a => a | none => List.replicate 16 0
  let salt := pack16 (32768 + saltRand % 32767)
  let buf0 := value.length :: value
  let buf := if buf0.length % 16 ≠ 0 then buf0 ++ List.replicate (16 - buf0.length % 16) 0 else buf0
  saltLoop secret (buf.length + 1) salt (auth ++ salt) buf

/-- `Packet._encode_value`: value-table lookup, else the codec, then salt
encryption when `attr.encrypt == 2`. -/
def encodeValue (attr : AttrDef) (secret : Bytes) (auth : Option Bytes) (saltRand : Nat)
    (v : PyVal) : Except PyErr Bytes :=
  let base :=
    match valuesForward attr.values v with
    | some r => Except.ok r
    | none => encode_attr attr.type v
  match base with
  | .error e => .error e
  | .ok r => if attr.encrypt = 2 then .ok (saltCrypt secret auth saltRand r) else .ok r

/-- `Packet._encode_key` on a str key. -/
def encodeKeyName (D : RDict) (name : String) : Except PyErr AttrKey :=
  match D.lookupAttr name with
  | none => .error .keyError
  | some attr =>
    match attr.vendor with
    | some v => if attr.isSub then .ok (.num attr.code) else .ok (.vsa v attr.code)
    | none => .ok (.num attr.code)

/-- `[self._encode_value(attr, v) for v in values]` with Python's
fail-on-first-error semantics. -/
def encodeValuesList (attr : AttrDef) (secret : Bytes) (auth : Option Bytes)
    (saltRand : Nat) : List PyVal → Except PyErr (List Bytes)
  | [] => .ok []
  | v :: rest =>
    match encodeValue attr secret auth saltRand v with
    | .error e => .error e
    | .ok r =>
      match encodeValuesList attr secret auth saltRand rest with
      | .error e => .error e
      | .ok l => .ok (r :: l)

/-- `Packet._encode_key_values` on a str key.  The source carries the tag as
a `":tag"` suffix of the key; here the name and the (textual) tag suffix are
separate parameters, `none` meaning no suffix (`partition` yields `''`,
which becomes `'0'`). -/
def encodeKeyValues (D : RDict) (secret : Bytes) (auth : Option Bytes) (saltRand : Nat)
    (name : String) (tag : Option String) (values : List PyVal) :
    Except PyErr (AttrKey × List Bytes) :=
  match D.lookupAttr name with
  | none => .error .keyError
  | some attr =>
    match encodeKeyName D name with
    | .error e => .error e
    | .ok key =>
      if attr.hasTag then
        -- a missing suffix is `''` from `partition`; `'0' if tag == '' else tag`
        let tagStr := match tag with | none => "0" | some t => if t = "" then "0" else t
        match parseDecimal tagStr.data with
        | none => .error .valueError       -- int(tag) fails
        | some t =>
          if 256 ≤ t then .error .structError  -- struct.pack('B', tag)
          else
            match encodeValuesList attr secret auth saltRand values with
            | .error e => .error e
            | .ok rs =>
              if attr.type = "integer" then
                -- the tag replaces the high octet: tag + encoded[1:]
                .ok (key, rs.map (fun r => t :: r.drop 1))
              else
                .ok (key, rs.map (fun r => t :: r))
      else
        match encodeValuesList attr secret auth saltRand values with
        | .error e => .error e
        | .ok rs => .ok (key, rs)

/-- `Packet._decode_value`. -/
def decodeValue (attr : AttrDef) (v : Bytes) : Except PyErr DecVal :=
  match valuesBackward attr.values v with
  | some name => .ok (.dname name)
  | none => decode_attr attr.type v

/-- `Packet.__setitem__` with a str key (scalar values are wrapped in a
one-element list by `_encode_key_values`; call sites pass the list). -/
def setItemStr (D : RDict) (secret : Bytes) (auth : Option Bytes) (saltRand : Nat)
    (st : Store) (name : String) (tag : Option String) (values : List PyVal) :
    Except PyErr Store :=
  match encodeKeyValues D secret auth saltRand name tag values with
  | .error e => .error e
  | .ok kl => .ok (storeSet st kl.1 (.vals kl.2))

/-- `[self._decode_value(attr, v) for v in l]`. -/
def decodeValuesList (attr : AttrDef) : List Bytes → Except PyErr (List DecVal)
  | [] => .ok []
  | v :: rest =>
    match decodeValue attr v with
    | .error e => .error e
    | .ok d =>
      match decodeValuesList attr rest with
      | .error e => .error e
      | .ok l => .ok (d :: l)

/-- `Packet.__getitem__` with a str key, for non-tlv attributes.  The tlv
branch returns a name → decoded-values dict; no claim exercises it and it is
not modelled. -/
def getItemStr (D : RDict) (st : Store) (name : String) : Except PyErr (List DecVal) :=
  match D.lookupAttr name with
  | none => .error .keyError
  | some attr =>
    match encodeKeyName D name with
    | .error e => .error e
    | .ok key =>
      match storeFind st key with
      | none => .error .keyError
      | some (.vals l) => decodeValuesList attr l
      | some (.tlvm _) => .error (.exceptionErr "tlv getitem not modelled")

/-- `Packet.__contains__` with a str key (`except KeyError: return False`). -/
def containsStr (D : RDict) (st : Store) (name : String) : Bool :=
  match encodeKeyName D name with
  | .ok k => (storeFind st k).isSome
  | .error _ => false

/-- `Packet.add_attribute`. -/
def addAttribute (D : RDict) (secret : Bytes) (auth : Option Bytes) (saltRand : Nat)
    (st : Store) (name : String) (tag : Option String) (values : List PyVal) :
    Except PyErr Store :=
  match D.lookupAttr name with
  | none => .error .keyError   -- self.dict.attributes[...] raises KeyError
  | some attr =>
    match encodeKeyValues D secret auth saltRand name tag values with
    | .error e => .error e
    | .ok kl =>
    if attr.isSub then
      match attr.parentName with
      | none => .error .attributeError
      | some pn =>
        match encodeKeyName D pn with
        | .error e => .error e
        | .ok parentKey =>
          match kl.1 with
          | .num c =>
            match getTlvSub st parentKey with
            | none => .error .attributeError
            | some m => .ok (setTlvSub st parentKey (subExtend m c kl.2))
          | .vsa _ _ => .error .attributeError  -- unreachable: sub-attribute keys are plain codes
    else
      .ok (storeAppendList st kl.1 kl.2)

/-! ## The packet record and constructor -/

/-- The state of a `Packet` object (the `OrderedDict` content plus the named
instance attributes the claims are about). -/
structure RPacket where
  code : Nat
  id : Nat
  secret : Bytes
  authenticator : Option Bytes
  attrs : Store
  messageAuth : Bool
  deriving DecidableEq, Repr

/-- `key.replace('_', '-')` for keyword attribute names. -/
def dashName (s : String) : String :=
  ⟨s.data.map (fun c => if c = '_' then '-' else c)⟩

/-- `Packet.__init__` (shared by all packet classes): `id=None` draws
`create_id()` (the process-wide counter, passed here as `nextId`), the secret
must be bytes, the authenticator must be None or bytes, and only then are the
keyword attributes encoded and stored.  The `dict`/`packet`/
`message_authenticator` keywords are handled by the specialised entry points
and do not appear here. -/
def packetInit (D : RDict) (code : Nat) (id : Option Nat) (nextId : Nat)
    (secret authenticator : PyVal) (attrs : List (String × PyVal)) (saltRand : Nat) :
    Except PyErr RPacket :=
  let theId := match id with | some i => i | none => nextId
  match secret with
  | .pybytes sec =>
    -- 'authenticator must be a binary string' after the secret check
    match authenticator with
    | .pynone =>
      (attrs.foldlM (fun st kv =>
        addAttribute D sec none saltRand st (dashName kv.1) none [kv.2]) ([] : Store)).map
          fun st => ⟨code, theId, sec, none, st, false⟩
    | .pybytes a =>
      (attrs.foldlM (fun st kv =>
        addAttribute D sec (some a) saltRand st (dashName kv.1) none [kv.2]) ([] : Store)).map
          fun st => ⟨code, theId, sec, some a, st, false⟩
    | _ => .error .typeError
  | _ => .error .typeError         -- 'secret must be a binary string'

/-- The packet classes; each constructor delegates to `Packet.__init__` with
its own default code. -/
inductive PKind
  | base
  | auth
  | acct
  | coa
  deriving DecidableEq, Repr

/-- The default `code` argument of each class constructor. -/
def defaultCode : PKind → Nat
  | .base => 0
  | .auth => 1
  | .acct => 4
  | .coa => 43

/-- The constructor of each packet class with its default code
(`Packet`, `AuthPacket`, `AcctPacket`, `CoAPacket`). -/
def packetInitK (kind : PKind) (D : RDict) (id : Option Nat) (nextId : Nat)
    (secret authenticator : PyVal) (attrs : List (String × PyVal)) (saltRand : Nat) :
    Except PyErr RPacket :=
  packetInit D (defaultCode kind) id nextId secret authenticator attrs saltRand

/-! ## Wire encoding of attributes (`_pkt_encode_attribute(s)`, `_pkt_encode_tlv`) -/

/-- `Packet._pkt_encode_attribute`: `Type | Length | Value`, with the
vendor wrapping for `(vendor, code)` keys.  `struct.pack('!BB', …)` bounds
(key < 256, value ≤ 253 octets, ≤ 247 inside a VSA) are mirrored by the
well-formedness hypotheses of the theorems. -/
def pktEncodeAttribute : AttrKey → Bytes → Bytes
  | .num k, v => k :: (v.length + 2) :: v
  | .vsa vend c, v => 26 :: (v.length + 8) :: (pack32 vend ++ c :: (v.length + 2) :: v)

/-- The encoding of instance `i` of a tlv sub-attribute map: one record per
sub-code whose value list has more than `i` entries, in map order. -/
def instEnc (m : List (Nat × List Bytes)) (i : Nat) : Bytes :=
  (m.map (fun p =>
    match p.2[i]? with
    | some d => pktEncodeAttribute (.num p.1) d
    | none => [])).flatten

/-- The greedy packing loop of `_pkt_encode_tlv`: accumulate instance
encodings into parent AVP bodies of < 245 octets. -/
def tlvSplit : List Bytes → List Bytes → Bytes → List Bytes
  | [], avps, curr => avps ++ [curr]
  | inst :: rest, avps, curr =>
    if inst.length + curr.length < 245 then tlvSplit rest avps (curr ++ inst)
    else tlvSplit rest (avps ++ [curr]) inst

/-- `Packet._pkt_encode_tlv`.  The source reads code and vendor from the
dictionary entry of the key; with a consistent dictionary these coincide with
the key itself, which is what is used here.  `max()` over an empty sub-map
raises ValueError in Python; the model returns the empty-instance encoding,
unreachable under the well-formedness hypotheses. -/
def pktEncodeTlv (key : AttrKey) (m : List (Nat × List Bytes)) : Bytes :=
  let maxLen := (m.map (fun p => p.2.length)).foldl max 0
  let insts := (List.range maxLen).map (instEnc m)
  let avps := tlvSplit insts [] []
  match key with
  | .num c => (avps.map (fun avp => c :: (avp.length + 2) :: avp)).flatten
  | .vsa vend c =>
      (avps.map (fun avp =>
        26 :: (avp.length + 8) :: (pack32 vend ++ c :: (avp.length + 2) :: avp))).flatten

/-- `Packet._pkt_encode_attributes`: iterate the store in order; tlv-typed
keys (per the dictionary) use the tlv packer, every other key emits one
record per stored value.  A store value whose shape disagrees with the
dictionary would crash Python; those branches encode nothing here and are
unreachable under the well-formedness hypotheses. -/
def pktEncodeAttributes (D : RDict) (st : Store) : Bytes :=
  (st.map (fun e =>
    if D.isTlvKey e.1 then
      match e.2 with
      | .tlvm m => pktEncodeTlv e.1 m
      | .vals _ => []
    else
      match e.2 with
      | .vals l => (l.map (pktEncodeAttribute e.1)).flatten
      | .tlvm _ => [])).flatten

/-- `Packet._encode_header`: `struct.pack('!BBH', code, id, 20 + len(attr))`. -/
def encodeHeader (code id attrLen : Nat) : Bytes :=
  code :: id :: pack16 (20 + attrLen)

/-- The serialized RADIUS frame with an explicitly given authenticator field:
header, 16 authenticator octets, encoded attributes.  This is the frame
written by `AuthPacket.create_raw_request` (and, with the respective
authenticator octets, by the other `create_raw_request`/`create_raw_reply`
methods). -/
def encodeRawPacket (D : RDict) (code id : Nat) (auth : Bytes) (st : Store) : Bytes :=
  let attr := pktEncodeAttributes D st
  encodeHeader code id attr.length ++ auth ++ attr

/-! ## Message-Authenticator (attribute 80) -/

/-- `Packet._refresh_message_authenticator`: zero the attribute, encode,
HMAC-MD5 over header, authenticator input, attributes, then substitute the
digest.  Returns the packet with its mutated store. -/
def refreshMessageAuthenticator (D : RDict) (p : RPacket) : Except PyErr RPacket :=
  match setItemStr D p.secret p.authenticator 0 p.attrs
      "Message-Authenticator" none [.pybytes (List.replicate 16 0)] with
  | .error e => .error e
  | .ok st1 =>
    let attr := pktEncodeAttributes D st1
    let header := encodeHeader p.code p.id attr.length
    let mid : Except PyErr Bytes :=
      if p.code = 4 ∨ p.code = 40 ∨ p.code = 43 ∨ p.code = 5 then
        .ok (List.replicate 16 0)
      else
        match p.authenticator with
        | none => .error (.exceptionErr "No authenticator found")
        | some a => .ok a
    match mid with
    | .error e => .error e
    | .ok mid =>
      let digest := hmacMd5 p.secret (header ++ mid ++ attr)
      match setItemStr D p.secret p.authenticator 0 st1
          "Message-Authenticator" none [.pybytes digest] with
      | .error e => .error e
      | .ok st2 => .ok { p with attrs := st2 }

/-- `Packet.verify_message_authenticator`.  NOTE the branch for
Access-Accept/Challenge/Reject: when no `original_authenticator` argument is
supplied, the source's None-check is inverted — an *available*
`self.authenticator` raises `Exception('Missing original authenticator')`,
while an unset one flows `None` into `hmac.update` (TypeError). -/
def verifyMessageAuthenticator (D : RDict) (p : RPacket) (secretArg : Option Bytes)
    (originalAuth : Option Bytes) (originalCode : Option Nat) :
    Except PyErr (Bool × RPacket) :=
  if p.messageAuth = false then
    .error (.exceptionErr "No Message-Authenticator AVP present")
  else
    match getItemStr D p.attrs "Message-Authenticator" with
    | .error e => .error e
    | .ok prevMa =>
      let key := match secretArg with
        | some s => if s.isEmpty then p.secret else s   -- `if secret:` — b'' is falsy
        | none => p.secret
      match setItemStr D p.secret p.authenticator 0 p.attrs
          "Message-Authenticator" none [.pybytes (List.replicate 16 0)] with
      | .error e => .error e
      | .ok st1 =>
        let attr := pktEncodeAttributes D st1
        let header := encodeHeader p.code p.id attr.length
        let mid : Except PyErr Bytes :=
          if p.code = 4 ∨ p.code = 40 ∨ p.code = 43 ∨ p.code = 5 then
            .ok (if originalCode = some 12 then ([] : Bytes) else List.replicate 16 0)
          else if p.code = 2 ∨ p.code = 11 ∨ p.code = 3 then
            match originalAuth with
            | some o => .ok o
            | none =>
              match p.authenticator with
              | none => .error .typeError
                  -- original_authenticator stays None; hmac.update(None)
              | some _ => .error (.exceptionErr "Missing original authenticator")
          else
            match p.authenticator with
            | none => .error .typeError    -- hmac.update(None)
            | some a => .ok a
        match mid with
        | .error e => .error e
        | .ok mid =>
          let digest := hmacMd5 key (header ++ mid ++ attr)
          match prevMa.head? with
          | none => .error .indexError     -- prev_ma[0] on an empty value list
          | some d0 =>
            let restoreVal : PyVal :=
              match d0 with
              | .dbytes b => .pybytes b
              | .dname s => .pystr s
              | .dstr cps => .pystr ⟨cps.map Char.ofNat⟩
              | .dint n => .pyint n
            match setItemStr D p.secret p.authenticator 0 st1
                "Message-Authenticator" none [restoreVal] with
            | .error e => .error e
            | .ok st2 => .ok (decide (d0 = DecVal.dbytes digest), { p with attrs := st2 })

/-! ## Reply serialization and verification -/

/-- `Packet.create_reply` as specialised by each class: the reply code of the
class, the request's id, secret and authenticator; keyword attributes give
the reply's store. -/
def createReplyWith (replyCode : Nat) (q : RPacket) (st : Store) : RPacket :=
  ⟨replyCode, q.id, q.secret, q.authenticator, st, false⟩

/-- `Packet.create_raw_reply`: header, `MD5(header || authenticator ||
attributes || secret)` as the authenticator field, attributes.  Returns the
raw packet and the (possibly refresh-mutated) packet. -/
def createRawReply (D : RDict) (p : RPacket) : Except PyErr (Bytes × RPacket) :=
  match p.authenticator with
  | none => .error .valueError         -- 'Authenticator not initialized'
  | some a =>
    match (if p.messageAuth then refreshMessageAuthenticator D p else .ok p :
        Except PyErr RPacket) with
    | .error e => .error e
    | .ok p2 =>
      let attr := pktEncodeAttributes D p2.attrs
      let header := encodeHeader p2.code p2.id attr.length
      .ok (header ++ md5bytes (header ++ a ++ attr ++ p2.secret) ++ attr, p2)

/-- `Packet.verify_reply` with the raw reply given (as the client calls it):
id match, then compare `MD5(rawreply[0:4] || self.authenticator ||
reply-attributes || secret)` with `rawreply[4:20]`.  An unset request
authenticator would make the bytes concatenation raise TypeError. -/
def verifyReply (D : RDict) (q : RPacket) (reply : RPacket) (rawreply : Bytes) :
    Except PyErr Bool :=
  if reply.id ≠ q.id then .ok false
  else
    match q.authenticator with
    | none => .error .typeError
    | some qa =>
      let attr := pktEncodeAttributes D reply.attrs
      let h := md5bytes (sl rawreply 0 4 ++ qa ++ attr ++ q.secret)
      if h ≠ sl rawreply 4 20 then .ok false else .ok true

/-! ## User-Password obfuscation (`AuthPacket`) -/

/-- The XOR-chaining loop of `AuthPacket.radius_password_pseudo_hash`.
NOTE the source's `(last, buf) = (buf[:16], buf[16:])`: the chain value for
the next block is the previous *input* block, not the previous output
block. -/
def pseudoHashLoop (secret : Bytes) : Nat → Bytes → Bytes → Bytes → Bytes
  | 0, result, _, _ => result
  | fuel + 1, result, last, buf =>
    match buf with
    | [] => result
    | _ =>
      pseudoHashLoop secret fuel (result ++ xorZip buf (md5bytes (secret ++ last)))
        (buf.take 16) (buf.drop 16)

/-- `AuthPacket.radius_password_pseudo_hash`. -/
def radiusPasswordPseudoHash (secret auth : Bytes) (password : Bytes) : Bytes :=
  pseudoHashLoop secret (password.length + 1) [] auth password

/-- `AuthPacket.pw_crypt`.  The authenticator is an explicit parameter (the
source would draw a random one when unset). -/
def pwCrypt (secret auth : Bytes) (password : PyVal) : Except PyErr Bytes :=
  match (match password with
    | .pystr s => .ok (strUtf8 s)
    | .pybytes b => .ok b
    | _ => .error .typeError : Except PyErr Bytes) with
  | .error e => .error e
  | .ok pb =>
    let buf := if pb.length % 16 ≠ 0 then pb ++ List.replicate (16 - pb.length % 16) 0 else pb
    .ok (radiusPasswordPseudoHash secret auth buf)

/-- `bytes.rstrip(b'\x00')`. -/
def dropTrailingZeros (b : Bytes) : Bytes :=
  (b.reverse.dropWhile (fun x => x = 0)).reverse

/-- `AuthPacket.pw_decrypt`: pseudo-hash, strip trailing zero octets, decode
UTF-8 (the result is the code-point sequence of the str). -/
def pwDecrypt (secret auth : Bytes) (password : Bytes) : Except PyErr (List Nat) :=
  match utf8Decode (dropTrailingZeros (radiusPasswordPseudoHash secret auth password)) with
  | some cps => .ok cps
  | none => .error .unicodeError

/-! ## Wire decoding (`decode_packet` and helpers) -/

/-- `Packet._pkt_decode_tlv_attribute`: scan `T|L|V` records of the value
field, appending each into the sub-map.  Fewer than two bytes at the cursor
raise `struct.error` (uncaught); a zero length byte never advances the
cursor — Python loops forever, modelled by fuel exhaustion. -/
def pktDecodeTlvAttr : Nat → List (Nat × List Bytes) → Bytes →
    List (Nat × List Bytes) × Option PyErr
  | 0, sub, _ => (sub, some .fuel)
  | _ + 1, sub, [] => (sub, none)
  | _ + 1, sub, [_] => (sub, some .structError)
  | fuel + 1, sub, a :: l :: rest =>
    pktDecodeTlvAttr fuel (subAppend sub a (rest.take (l - 2))) ((a :: l :: rest).drop l)

/-- The `while len(data) > sumlength` loop of `_pkt_decode_vendor_attribute`:
further VSAs concatenated after the first.  An unparsable 2-byte header is
caught and degrades the whole value to a single opaque attribute 26; a zero
length byte never advances — fuel exhaustion models the hang. -/
def vsaLoop (vendor : Nat) (data : Bytes) : Nat → Nat → List (AttrKey × Bytes) →
    List (AttrKey × Bytes) × Option PyErr
  | 0, _, tlvs => (tlvs, some .fuel)
  | fuel + 1, sumlength, tlvs =>
    if data.length ≤ sumlength then (tlvs, none)
    else if (data.drop sumlength).length < 2 then ([(.num 26, data)], none)
    else
      let atype := data.getD sumlength 0
      let length := data.getD (sumlength + 1) 0
      vsaLoop vendor data fuel (sumlength + length)
        (tlvs ++ [(.vsa vendor atype, sl data (sumlength + 2) (sumlength + length))])

/-- `Packet._pkt_decode_vendor_attribute`.  Returns the (possibly mutated)
store, the key/value pairs the caller appends, and an error only for the
non-terminating Python loops.  A short value (< 6 octets) is kept as opaque
attribute 26; exceptions while decoding a tlv-typed first VSA are swallowed
by the bare `except`, keeping any partially-added sub-attributes. -/
def pktDecodeVendorAttr (D : RDict) (fuel : Nat) (st : Store) (data : Bytes) :
    Store × List (AttrKey × Bytes) × Option PyErr :=
  if data.length < 6 then (st, [(.num 26, data)], none)
  else
    let vendor := unpack32 (data.take 4)
    let atype := data.getD 4 0
    let length := data.getD 5 0
    if D.isTlvKey (.vsa vendor atype) then
      match getTlvSub st (.vsa vendor atype) with
      | none => (st, [(.num 26, data)], none)
        -- `setdefault` returned a plain list: AttributeError, caught
      | some sub =>
        match pktDecodeTlvAttr fuel sub (sl data 6 (length + 4)) with
        | (sub2, none) =>
          match vsaLoop vendor data fuel (4 + length) [] with
          | (tlvs, none) => (setTlvSub st (.vsa vendor atype) sub2, tlvs, none)
          | (_, some e) => (setTlvSub st (.vsa vendor atype) sub2, [], some e)
        | (sub2, some .fuel) => (setTlvSub st (.vsa vendor atype) sub2, [], some .fuel)
        | (sub2, some _) => (setTlvSub st (.vsa vendor atype) sub2, [(.num 26, data)], none)
    else
      match vsaLoop vendor data fuel (4 + length) [(.vsa vendor atype, sl data 6 (length + 4))] with
      | (tlvs, none) => (st, tlvs, none)
      | (_, some e) => (st, [], some e)

/-- `for (key, value) in …: self.setdefault(key, []).append(value)`. -/
def appendPairs (st : Store) (ps : List (AttrKey × Bytes)) : Store :=
  ps.foldl (fun s p => storeAppend s p.1 p.2) st

/-- The same caller loop, but faithful to Python when `setdefault` returns a
tlv sub-dict: `dict.append` raises AttributeError, uncaught in
`decode_packet`. -/
def appendPairsChk : Store → List (AttrKey × Bytes) → Except PyErr Store
  | st, [] => .ok st
  | st, p :: rest =>
    match storeFind st p.1 with
    | some (.tlvm _) => .error .attributeError
    | some (.vals _) => appendPairsChk (storeAppend st p.1 p.2) rest
    | none => appendPairsChk (storeAppend st p.1 p.2) rest

/-- The attribute loop of `Packet.decode_packet`: `Type | Length | Value`
records, dispatching on key 26 (vendor), key 80 (Message-Authenticator flag)
and tlv-typed keys.  Slices clamp, so an over-long length byte silently
swallows the rest, as in Python. -/
def decodeAttrsLoop (D : RDict) : Nat → Store → Bool → Bytes → Except PyErr (Store × Bool)
  | _, st, ma, [] => .ok (st, ma)
  | 0, _, _, _ :: _ => .error .fuel
  | _ + 1, _, _, [_] => .error (.packetError "Attribute header is corrupt")
  | fuel + 1, st, ma, key :: attrlen :: rest =>
    if attrlen < 2 then .error (.packetError "Attribute length is too small")
    else
      let value := rest.take (attrlen - 2)
      let rest2 := (key :: attrlen :: rest).drop attrlen
      if key = 26 then
        match pktDecodeVendorAttr D (value.length + 1) st value with
        | (st2, pairs, none) =>
          match appendPairsChk st2 pairs with
          | .error e => .error e
          | .ok st3 => decodeAttrsLoop D fuel st3 ma rest2
        | (_, _, some e) => .error e
      else if key = 80 then
        decodeAttrsLoop D fuel (storeAppend st (.num 80) value) true rest2
      else if D.isTlvKey (.num key) then
        match getTlvSub st (.num key) with
        | none => .error .attributeError  -- existing plain list at a tlv key
        | some sub =>
          match pktDecodeTlvAttr (value.length + 1) sub value with
          | (sub2, none) => decodeAttrsLoop D fuel (setTlvSub st (.num key) sub2) ma rest2
          | (_, some e) => .error e
      else decodeAttrsLoop D fuel (storeAppend st (.num key) value) ma rest2

/-- The result of `Packet.decode_packet`: the fields it (re)assigns. -/
structure DecodedPkt where
  code : Nat
  id : Nat
  authenticator : Bytes
  attrs : Store
  messageAuth : Bool
  deriving DecidableEq, Repr

/-- `Packet.decode_packet`: header checks, then the attribute loop on a
cleared store. -/
def decodePacket (D : RDict) (pkt : Bytes) : Except PyErr DecodedPkt :=
  if pkt.length < 20 then .error (.packetError "Packet header is corrupt")
  else
    let code := pkt.getD 0 0
    let id := pkt.getD 1 0
    let length := pkt.getD 2 0 * 256 + pkt.getD 3 0
    let auth := sl pkt 4 20
    if pkt.length ≠ length then .error (.packetError "Packet has invalid length")
    else if 4096 < length then .error (.packetError "Packet length is too long")
    else
      match decodeAttrsLoop D pkt.length [] false (pkt.drop 20) with
      | .ok (st, ma) => .ok ⟨code, id, auth, st, ma⟩
      | .error e => .error e

/-! ## Control-flow scan of an attribute region (for the error-behaviour
claim).  `scanRegion` follows exactly the record traversal of
`decodeAttrsLoop`, classifying the input: `.short` when a record with length
byte < 2 is reached, `.ok` when the scan runs off the end with every
traversed record benign (no uncaught `struct.error`, no infinite loop), and
`.hazard` otherwise. -/

/-- Outcome of scanning tlv sub-data the way `_pkt_decode_tlv_attribute`
does: clean end, `struct.error`, or a hang on a zero length byte. -/
inductive SubChk
  | done
  | crash
  | hang
  deriving DecidableEq, Repr

/-- Control-flow of `pktDecodeTlvAttr` on the same fuel. -/
def subCheck : Nat → Bytes → SubChk
  | 0, _ => .hang
  | _ + 1, [] => .done
  | _ + 1, [_] => .crash
  | fuel + 1, a :: l :: rest => subCheck fuel ((a :: l :: rest).drop l)

/-- Does the continuation loop of `_pkt_decode_vendor_attribute` terminate
(normally or through its caught unpack failure)? -/
def vsaLoopEnds (data : Bytes) : Nat → Nat → Bool
  | 0, _ => false
  | fuel + 1, sumlength =>
    if data.length ≤ sumlength then true
    else if (data.drop sumlength).length < 2 then true
    else vsaLoopEnds data fuel (sumlength + data.getD (sumlength + 1) 0)

/-- Is a type-26 value benign (its processing cannot hang)?  A crash inside
the tlv-typed first VSA is caught by the bare `except` and skips the
continuation loop. -/
def vsaBenign (D : RDict) (data : Bytes) : Bool :=
  if data.length < 6 then true
  else
    let f := data.length + 1
    let vendor := unpack32 (data.take 4)
    let atype := data.getD 4 0
    let length := data.getD 5 0
    if D.isTlvKey (.vsa vendor atype) then
      match subCheck f (sl data 6 (length + 4)) with
      | .hang => false
      | .crash => true
      | .done => vsaLoopEnds data f (4 + length)
    else vsaLoopEnds data f (4 + length)

/-- Are all vendor keys the continuation loop emits untyped or non-tlv in the
dictionary?  (Appending a pair at a tlv-typed vendor key may hit the sub-dict
the first VSA installed, where Python's `list.append` call raises.) -/
def vsaKeysOk (D : RDict) (vendor : Nat) (data : Bytes) : Nat → Nat → Bool
  | 0, _ => false
  | fuel + 1, s =>
    if data.length ≤ s then true
    else if (data.drop s).length < 2 then true
    else (!(D.isTlvKey (.vsa vendor (data.getD s 0)))) &&
      vsaKeysOk D vendor data fuel (s + data.getD (s + 1) 0)

/-- Pair keys a type-26 value can emit are safe to append. -/
def vsaSafe (D : RDict) (data : Bytes) : Bool :=
  if data.length < 6 then true
  else vsaKeysOk D (unpack32 (data.take 4)) data (data.length + 1) (4 + data.getD 5 0)

/-- Classification of an attribute region (see above). -/
inductive ScanR
  | ok
  | short
  | hazard
  deriving DecidableEq, Repr

/-- The record scan mirroring `decodeAttrsLoop`'s traversal. -/
def scanRegion (D : RDict) : Nat → Bytes → ScanR
  | _, [] => .ok
  | 0, _ :: _ => .hazard
  | _ + 1, [_] => .hazard
  | fuel + 1, key :: attrlen :: rest =>
    if attrlen < 2 then .short
    else
      let value := rest.take (attrlen - 2)
      let rest2 := (key :: attrlen :: rest).drop attrlen
      if key = 26 then
        if vsaBenign D value && vsaSafe D value then scanRegion D fuel rest2
        else .hazard
      else if key = 80 then scanRegion D fuel rest2
      else if D.isTlvKey (.num key) then
        match subCheck (value.length + 1) value with
        | .done => scanRegion D fuel rest2
        | _ => .hazard
      else scanRegion D fuel rest2

/-! ## Client retry loop (`Client._send_packet` / `send_packet`) -/

/-- `Client._send_packet`: per-attempt Acct-Delay-Time adjustment
(`attempt and pkt.code == ACCOUNTING_REQUEST`). -/
def acctDelayAdjust (D : RDict) (t : Nat) (p : RPacket) : Except PyErr RPacket :=
  if containsStr D p.attrs "Acct-Delay-Time" then
    match getItemStr D p.attrs "Acct-Delay-Time" with
    | .error e => .error e
    | .ok cur =>
      match cur.head? with
      | none => .error .indexError
      | some (.dint n) =>
        match setItemStr D p.secret p.authenticator 0 p.attrs
            "Acct-Delay-Time" none [.pyint (n + t)] with
        | .error e => .error e
        | .ok st => .ok { p with attrs := st }
      | some _ => .error .typeError    -- non-int first value + int
  else
    match setItemStr D p.secret p.authenticator 0 p.attrs
        "Acct-Delay-Time" none [.pyint t] with
    | .error e => .error e
    | .ok st => .ok { p with attrs := st }

/-- `pkt.create_reply(packet=rawreply)`: a fresh reply object whose code,
id, authenticator and store are overwritten by `decode_packet`. -/
def replyPacketOf (q : RPacket) (r : DecodedPkt) : RPacket :=
  ⟨r.code, r.id, q.secret, some r.authenticator, r.attrs, r.messageAuth⟩

/-- Processing of one received datagram inside the wait loop.  NOTE the
source's handler reads `except PacketCode.PacketError:` — `PacketCode` is the
`IntEnum` of packet codes and has no such member, so when the try body raises,
evaluating the except clause raises AttributeError, which escapes
`_send_packet`.  `.ok none` is an invalid reply, silently dropped. -/
def tryDatagram (D : RDict) (q : RPacket) (raw : Bytes) : Except PyErr (Option DecodedPkt) :=
  match decodePacket D raw with
  | .error _ => .error .attributeError
  | .ok r =>
    match verifyReply D q (replyPacketOf q r) raw with
    | .error _ => .error .attributeError
    | .ok true => .ok (some r)
    | .ok false => .ok none

/-- The inner wait loop of one attempt over the datagrams received in its
window. -/
def recvLoop (D : RDict) (q : RPacket) : List Bytes → Except PyErr (Option DecodedPkt)
  | [] => .ok none
  | raw :: rest =>
    match tryDatagram D q raw with
    | .error e => .error e
    | .ok (some r) => .ok (some r)
    | .ok none => recvLoop D q rest

/-- Outcome of `Client._send_packet`. -/
inductive SendResult
  | reply (r : DecodedPkt)
  | timeout
  deriving DecidableEq, Repr

/-- The attempt loop of `Client._send_packet` over the per-window received
datagrams; besides the outcome it returns the attribute store transmitted in
each attempt (the real-time wait window is abstracted into the list of
datagrams that arrive during it). -/
def sendLoopAux (D : RDict) (t : Nat) : Nat → RPacket → List (List Bytes) →
    Except PyErr (SendResult × List Store)
  | _, _, [] => .ok (.timeout, [])       -- `raise Timeout` after all attempts
  | i, q, win :: rest =>
    match (if i ≠ 0 ∧ q.code = 4 then acctDelayAdjust D t q else .ok q :
        Except PyErr RPacket) with
    | .error e => .error e
    | .ok q2 =>
      match recvLoop D q2 win with
      | .error e => .error e
      | .ok (some r) => .ok (.reply r, [q2.attrs])
      | .ok none =>
        match sendLoopAux D t (i + 1) q2 rest with
        | .error e => .error e
        | .ok (res, stores) => .ok (res, q2.attrs :: stores)

/-- `Client._send_packet` with timeout `t`; `attempts` has one entry per
retry, listing the datagrams received within that attempt's window. -/
def sendPacketModel (D : RDict) (t : Nat) (q : RPacket) (attempts : List (List Bytes)) :
    Except PyErr (SendResult × List Store) :=
  sendLoopAux D t 0 q attempts

/-! ## Well-formed attribute stores

A store is well formed (for a dictionary) when it is what `add_attribute`
builds from dictionary-described attributes: unique keys, byte-valued wire
codes, values within the octet bounds that `struct.pack` enforces during
encoding, value shapes agreeing with the dictionary's tlv typing, and no
plain attribute stored under the structural codes 26. -/

/-- Every element is a byte value. -/
def allBytes (b : Bytes) : Bool := b.all (fun x => x < 256)

/-- Keys occur at most once (an `OrderedDict` invariant). -/
def nodupKeys : Store → Bool
  | [] => true
  | (k, _) :: rest => !(rest.any (fun e => e.1 == k)) && nodupKeys rest

/-- Sub-codes occur at most once in a tlv map. -/
def nodupSubKeys : List (Nat × List Bytes) → Bool
  | [] => true
  | (c, _) :: rest => !(rest.any (fun e => e.1 == c)) && nodupSubKeys rest

/-- A plain value list: nonempty, every value within `maxlen` octets. -/
def wfVals (maxlen : Nat) (l : List Bytes) : Bool :=
  !l.isEmpty && l.all (fun v => v.length ≤ maxlen && allBytes v)

/-- `max(len(datalst) for datalst in m.values())`. -/
def tlvMaxLen (m : List (Nat × List Bytes)) : Nat :=
  (m.map (fun p => p.2.length)).foldl max 0

/-- A tlv sub-map: nonempty, unique byte-valued sub-codes, nonempty value
lists, and every per-index instance encoding below the 245-octet packing
threshold (which bounds every record and parent AVP below the length-byte
limits). -/
def wfSub (m : List (Nat × List Bytes)) : Bool :=
  !m.isEmpty && nodupSubKeys m &&
  m.all (fun p => p.1 < 256 && !p.2.isEmpty && p.2.all allBytes) &&
  (List.range (tlvMaxLen m)).all (fun i => (instEnc m i).length < 245)

/-- Well-formedness of one store entry. -/
def wfEntry (D : RDict) : AttrKey × AttrVal → Bool
  | (.num c, .vals l) => c < 256 && c != 26 && !D.isTlvKey (.num c) && wfVals 253 l
  | (.num c, .tlvm m) => c < 256 && c != 26 && c != 80 && D.isTlvKey (.num c) && wfSub m
  | (.vsa v c, .vals l) =>
      v < 4294967296 && c < 256 && !D.isTlvKey (.vsa v c) && wfVals 247 l
  | (.vsa v c, .tlvm m) => v < 4294967296 && c < 256 && D.isTlvKey (.vsa v c) && wfSub m

/-- Well-formedness of a store. -/
def wfStore (D : RDict) (st : Store) : Bool := nodupKeys st && st.all (wfEntry D)

/-! ## A concrete dictionary (for the witness instances) -/

/-- Standard Message-Authenticator definition (code 80, octets). -/
def maDef : AttrDef := { code := 80, type := "octets" }

/-- User-Name (code 1, string). -/
def userNameDef : AttrDef := { code := 1, type := "string" }

/-- Acct-Delay-Time (code 45, integer). -/
def acctDelayDef : AttrDef := { code := 45, type := "integer" }

/-- Tunnel-Type (code 64, tagged integer, RFC 2868). -/
def tunnelTypeDef : AttrDef :=
  { code := 64, type := "integer", hasTag := true, values := [("PPTP", pack32 1)] }

/-- Tunnel-Client-Endpoint (code 66, tagged string). -/
def tunnelClientDef : AttrDef := { code := 66, type := "string", hasTag := true }

/-- A top-level tlv-typed attribute. -/
def testTlvDef : AttrDef := { code := 200, type := "tlv" }

/-- A vendor string attribute (vendor 9, code 1). -/
def vendorStrDef : AttrDef := { code := 1, type := "string", vendor := some 9 }

/-- A vendor tlv attribute (vendor 311, code 5). -/
def vendorTlvDef : AttrDef := { code := 5, type := "tlv", vendor := some 311 }

/-- The concrete dictionary used by the witnesses. -/
def Dtest : RDict :=
  { attributes := [
      ("User-Name", userNameDef),
      ("Acct-Delay-Time", acctDelayDef),
      ("Message-Authenticator", maDef),
      ("Tunnel-Type", tunnelTypeDef),
      ("Tunnel-Client-Endpoint", tunnelClientDef),
      ("Test-TLV", testTlvDef),
      ("Vendor-Str", vendorStrDef),
      ("Vendor-TLV", vendorTlvDef)],
    attrindex := [
      (.num 1, "User-Name"),
      (.num 45, "Acct-Delay-Time"),
      (.num 80, "Message-Authenticator"),
      (.num 64, "Tunnel-Type"),
      (.num 66, "Tunnel-Client-Endpoint"),
      (.num 200, "Test-TLV"),
      (.vsa 9 1, "Vendor-Str"),
      (.vsa 311 5, "Vendor-TLV")] }

/-- A string of 85 `€` characters: 85 characters, 255 UTF-8 octets. -/
def euroStr : String := ⟨List.replicate 85 '€'⟩

/-! # Theorems -/

/-! ## Helper lemmas -/

/-- The wire key `_encode_key` produces for an attribute definition. -/
def keyOfAttr (attr : AttrDef) : AttrKey :=
  match attr.vendor with
  | some v => if attr.isSub then .num attr.code else .vsa v attr.code
  | none => .num attr.code

theorem encodeKeyName_eq (D : RDict) (name : String) (attr : AttrDef)
    (h : D.lookupAttr name = some attr) :
    encodeKeyName D name = .ok (keyOfAttr attr) := by
  unfold encodeKeyName keyOfAttr
  rw [h]
  cases hv : attr.vendor with
  | none => simp [hv]
  | some v => by_cases hs : attr.isSub <;> simp [hv, hs]

theorem encodeValuesList_singleton (attr : AttrDef) (secret : Bytes) (auth : Option Bytes)
    (saltRand : Nat) (v : PyVal) (r : Bytes)
    (h : encodeValue attr secret auth saltRand v = .ok r) :
    encodeValuesList attr secret auth saltRand [v] = .ok [r] := by
  simp [encodeValuesList, h]

/-! ## C8 — tagged attributes -/

/-- C8: for an attribute definition with `has_tag` set, the encoded value is
prefixed by a 1-octet tag, 0 when no tag suffix is given; and for
`integer`-typed tagged attributes the tag octet replaces the high octet of
the 4-octet big-endian integer encoding, so the encoded value is
`tag || integer[1..3]`, 4 octets in total — not `tag || integer[0..3]`. -/
theorem c8_tagged_attributes (D : RDict) (secret : Bytes) (auth : Option Bytes)
    (saltRand : Nat) (name : String) (attr : AttrDef) (tagS : String) (t : Nat)
    (hname : D.lookupAttr name = some attr) (htag : attr.hasTag = true)
    (hts : parseDecimal tagS.data = some t) (ht : t < 256) :
    (∀ v r, encodeValue attr secret auth saltRand v = .ok r → attr.type ≠ "integer" →
      encodeKeyValues D secret auth saltRand name (some tagS) [v] =
        .ok (keyOfAttr attr, [t :: r])) ∧
    (∀ v r, encodeValue attr secret auth saltRand v = .ok r → attr.type ≠ "integer" →
      encodeKeyValues D secret auth saltRand name none [v] =
        .ok (keyOfAttr attr, [0 :: r])) ∧
    (∀ n, attr.type = "integer" → attr.encrypt ≠ 2 → n < 4294967296 →
      encodeKeyValues D secret auth saltRand name (some tagS) [.pyint n] =
        .ok (keyOfAttr attr, [t :: (pack32 n).drop 1]) ∧
      (t :: (pack32 n).drop 1).length = 4) := by
  have hne : tagS ≠ "" := by
    intro h
    subst h
    simp [parseDecimal] at hts
  have hint : ∀ n : Nat, n < 4294967296 → attr.type = "integer" → attr.encrypt ≠ 2 →
      encodeValue attr secret auth saltRand (.pyint n) = .ok (pack32 n) := by
    intro n hn hty henc
    simp [encodeValue, valuesForward, hty, encode_attr, encode_integer, hn, henc]
  refine ⟨fun v r hv hty => ?_, fun v r hv hty => ?_, fun n hty henc hn => ⟨?_, by simp [pack32]⟩⟩
  · simp [encodeKeyValues, hname, encodeKeyName_eq D name attr hname, htag, hne, hts,
      Nat.not_le.mpr ht, encodeValuesList_singleton attr secret auth saltRand v r hv, hty]
  · simp [encodeKeyValues, hname, encodeKeyName_eq D name attr hname, htag,
      (by decide : parseDecimal "0".data = some 0),
      encodeValuesList_singleton attr secret auth saltRand v r hv, hty]
  · simp [encodeKeyValues, hname, encodeKeyName_eq D name attr hname, htag, hne, hts,
      Nat.not_le.mpr ht,
      encodeValuesList_singleton attr secret auth saltRand (.pyint n) (pack32 n)
        (hint n hn hty henc), hty]

/-- Witness for `c8_tagged_attributes`: Tunnel-Type (tagged integer) with tag
`"3"` and value `0x01020304` encodes to `03 02 03 04`; Tunnel-Client-Endpoint
(tagged string) with no tag gets a zero tag octet. -/
theorem c8_tagged_attributes_witness :
    encodeKeyValues Dtest [] none 0 "Tunnel-Type" (some "3") [.pyint 16909060] =
      .ok (.num 64, [[3, 2, 3, 4]]) ∧
    encodeKeyValues Dtest [] none 0 "Tunnel-Client-Endpoint" none [.pystr "h"] =
      .ok (.num 66, [[0, 104]]) := by
  constructor
  · have h := ((c8_tagged_attributes Dtest [] none 0 "Tunnel-Type" tunnelTypeDef "3" 3
      (by decide) (by decide) (by decide) (by decide)).2.2 16909060
      (by decide) (by decide) (by decide)).1
    rw [h]
    decide
  · have h := (c8_tagged_attributes Dtest [] none 0 "Tunnel-Client-Endpoint" tunnelClientDef
      "1" 1 (by decide) (by decide) (by decide) (by decide)).2.1
      (.pystr "h") [104] (by decide) (by decide)
    rw [h]
    decide

/-! ## C2 — User-Password obfuscation (code bug) -/

/-- The shared secret `b"secret"` of the password counterexample. -/
def c2secret : Bytes := [115, 101, 99, 114, 101, 116]

/-- A fixed all-zero request authenticator. -/
def c2auth : Bytes := List.replicate 16 0

/-- A 17-character password (two 16-octet blocks after padding). -/
def c2pw : String := "AAAAAAAAAAAAAAAAA"

/-- C2 (code bug): for the 17-character UTF-8 password `c2pw` (length < 128)
with fixed authenticator and secret, `pw_decrypt(pw_crypt(p))` does not give
back `p` — decryption even fails with UnicodeDecodeError here.  The cause:
`radius_password_pseudo_hash` sets `last = buf[:16]`, so encryption chains
block 2 on the previous *plaintext* block (`MD5(secret || b1)`) instead of
the previous ciphertext block required by RFC 2865 §5.2 and the spec; the
last two conjuncts exhibit exactly that on the ciphertext. -/
theorem c2_password_involution_fails :
    c2pw.length < 128 ∧
    (pwCrypt c2secret c2auth (.pystr c2pw)).bind (pwDecrypt c2secret c2auth) =
      .error .unicodeError ∧
    (pwCrypt c2secret c2auth (.pystr c2pw)).bind (pwDecrypt c2secret c2auth) ≠
      .ok (c2pw.data.map Char.toNat) ∧
    sl ((pwCrypt c2secret c2auth (.pystr c2pw)).toOption.getD []) 16 32 =
      xorZip (65 :: List.replicate 15 0)
        (md5bytes (c2secret ++ List.replicate 16 65)) ∧
    sl ((pwCrypt c2secret c2auth (.pystr c2pw)).toOption.getD []) 16 32 ≠
      xorZip (65 :: List.replicate 15 0)
        (md5bytes (c2secret ++ sl ((pwCrypt c2secret c2auth (.pystr c2pw)).toOption.getD []) 0 16)) := by
  refine ⟨by decide, by decide, by decide, by decide, by decide⟩

/-! ## C6 — client wait loop (code bug) -/

/-- A minimal outstanding request for the client-loop theorems. -/
def c6req : RPacket := ⟨1, 1, [115], some (List.replicate 16 0), [], false⟩

/-- C6 (code bug): a received datagram that fails to decode is *not*
discarded silently — `except PacketCode.PacketError:` names a nonexistent
member of the `PacketCode` enum, so an AttributeError escapes the send loop
(first conjunct, with a truncated 19-octet datagram).  A datagram that
decodes but fails id/authenticator verification *is* dropped silently and
the retries then end in Timeout (second conjunct), as is a fully silent
server (third conjunct). -/
theorem c6_wait_loop_behaviour :
    sendPacketModel Dtest 1 c6req [[List.replicate 19 0]] = .error .attributeError ∧
    sendPacketModel Dtest 1 c6req [[[2, 99, 0, 20] ++ List.replicate 16 0]] =
      .ok (.timeout, [[]]) ∧
    sendPacketModel Dtest 1 c6req [[], [], []] = .ok (.timeout, [[], [], []]) := by
  refine ⟨by decide, by decide, by decide⟩

/-! ## C4 — Message-Authenticator verification (code bug) -/

theorem decodeValuesList_octets (attr : AttrDef) (hty : attr.type = "octets")
    (hv : attr.values = []) (l : List Bytes) :
    decodeValuesList attr l = .ok (l.map DecVal.dbytes) := by
  induction l with
  | nil => rfl
  | cons v rest ih =>
    simp [decodeValuesList, decodeValue, valuesBackward, hv, decode_attr, hty, ih]

theorem getItemStr_vals (D : RDict) (name : String) (attr : AttrDef)
    (hd : D.lookupAttr name = some attr) (st : Store) (l : List Bytes)
    (hfind : storeFind st (keyOfAttr attr) = some (AttrVal.vals l)) :
    getItemStr D st name = decodeValuesList attr l := by
  simp [getItemStr, hd, encodeKeyName_eq D _ _ hd, hfind]

theorem setItemStr_octets (D : RDict) (name : String) (attr : AttrDef)
    (hd : D.lookupAttr name = some attr) (hty : attr.type = "octets")
    (htag : attr.hasTag = false) (henc : attr.encrypt ≠ 2)
    (secret : Bytes) (auth : Option Bytes) (st : Store) (b : Bytes) (hb : b.length ≤ 253)
    (h0x : b.take 2 ≠ [48, 120]) :
    setItemStr D secret auth 0 st name none [.pybytes b] =
      .ok (storeSet st (keyOfAttr attr) (.vals [b])) := by
  simp [setItemStr, encodeKeyValues, hd, encodeKeyName_eq D _ _ hd, htag,
    encodeValuesList, encodeValue, valuesForward, encode_attr, hty, encode_octets,
    Nat.not_lt.mpr hb, h0x, henc]

/-- C4 (code bug): the claim promises `verify_message_authenticator` returns
True for any packet with a correct Message-Authenticator, but for the reply
codes Access-Accept/Reject/Challenge the source's None-check on
`original_authenticator` is inverted: with `self.authenticator` available
(as its own comment says is the design) it raises
`Exception('Missing original authenticator')` instead of verifying. -/
theorem c4_verify_message_authenticator_raises (D : RDict) (p : RPacket) (a v : Bytes)
    (vs : List Bytes)
    (hd : D.lookupAttr "Message-Authenticator" = some maDef)
    (hma : p.messageAuth = true)
    (hcode : p.code = 2 ∨ p.code = 3 ∨ p.code = 11)
    (hauth : p.authenticator = some a)
    (hfind : storeFind p.attrs (.num 80) = some (.vals (v :: vs))) :
    verifyMessageAuthenticator D p none none none =
      .error (.exceptionErr "Missing original authenticator") := by
  have hk : keyOfAttr maDef = .num 80 := by decide
  have hgi : getItemStr D p.attrs "Message-Authenticator" =
      .ok ((v :: vs).map DecVal.dbytes) := by
    rw [getItemStr_vals D _ maDef hd p.attrs (v :: vs) (by rw [hk]; exact hfind)]
    exact decodeValuesList_octets maDef rfl rfl (v :: vs)
  have hsi := setItemStr_octets D _ maDef hd rfl rfl (by decide)
    p.secret p.authenticator p.attrs (List.replicate 16 0) (by decide) (by decide)
  rw [hk, hauth] at hsi
  simp only [List.replicate_succ, List.replicate_zero] at hsi
  rcases hcode with h | h | h <;>
    simp [verifyMessageAuthenticator, hma, hgi, h, hauth, hsi]

/-- A concrete Access-Accept with Message-Authenticator present. -/
def c4pkt : RPacket :=
  ⟨2, 5, [115], some (List.replicate 16 0),
    [(.num 80, .vals [List.replicate 16 1])], true⟩

/-- Witness for `c4_verify_message_authenticator_raises` at `c4pkt`. -/
theorem c4_verify_message_authenticator_raises_witness :
    verifyMessageAuthenticator Dtest c4pkt none none none =
      .error (.exceptionErr "Missing original authenticator") :=
  c4_verify_message_authenticator_raises Dtest c4pkt (List.replicate 16 0)
    (List.replicate 16 1) [] (by decide) (by decide) (Or.inl rfl) (by decide) (by decide)

/-! ## C7 — per-attempt Acct-Delay-Time adjustment -/

theorem unpack32_pack32 (n : Nat) (h : n < 4294967296) : unpack32 (pack32 n) = n := by
  simp [pack32, unpack32]
  omega

theorem storeFind_append_last (st : Store) (k : AttrKey) (w : AttrVal)
    (h : storeFind st k = none) : storeFind (st ++ [(k, w)]) k = some w := by
  induction st with
  | nil => simp [storeFind]
  | cons e rest ih =>
    by_cases hk : e.1 = k
    · simp [storeFind, hk] at h
    · simp only [storeFind, List.cons_append] at h ⊢
      rw [if_neg hk] at h ⊢
      exact ih h

theorem storeSet_absent (st : Store) (k : AttrKey) (w : AttrVal)
    (h : storeFind st k = none) : storeSet st k w = st ++ [(k, w)] := by
  induction st with
  | nil => rfl
  | cons e rest ih =>
    by_cases hk : e.1 = k
    · simp [storeFind, hk] at h
    · simp only [storeFind] at h
      rw [if_neg hk] at h
      cases e with
      | mk k' w' =>
        simp only [storeSet, List.cons_append, List.append_eq]
        rw [if_neg hk]
        rw [ih h]

theorem storeSet_append_last (st : Store) (k : AttrKey) (w0 w : AttrVal)
    (h : storeFind st k = none) :
    storeSet (st ++ [(k, w0)]) k w = st ++ [(k, w)] := by
  induction st with
  | nil => simp [storeSet]
  | cons e rest ih =>
    by_cases hk : e.1 = k
    · simp [storeFind, hk] at h
    · simp only [storeFind] at h
      rw [if_neg hk] at h
      cases e with
      | mk k' w' =>
        simp only [storeSet, List.cons_append, List.append_eq]
        rw [if_neg hk]
        rw [ih h]

theorem containsStr_eq (D : RDict) (name : String) (attr : AttrDef)
    (hd : D.lookupAttr name = some attr) (st : Store) :
    containsStr D st name = (storeFind st (keyOfAttr attr)).isSome := by
  simp [containsStr, encodeKeyName_eq D _ _ hd]

theorem setItemStr_int (D : RDict) (name : String) (attr : AttrDef)
    (hd : D.lookupAttr name = some attr) (hty : attr.type = "integer")
    (htag : attr.hasTag = false) (henc : attr.encrypt ≠ 2)
    (secret : Bytes) (auth : Option Bytes) (st : Store) (n : Nat) (hn : n < 4294967296) :
    setItemStr D secret auth 0 st name none [.pyint n] =
      .ok (storeSet st (keyOfAttr attr) (.vals [pack32 n])) := by
  simp [setItemStr, encodeKeyValues, hd, encodeKeyName_eq D _ _ hd, htag,
    encodeValuesList, encodeValue, valuesForward, encode_attr, hty, encode_integer,
    hn, henc]

theorem pack32_length (n : Nat) : (pack32 n).length = 4 := rfl

theorem decodeValuesList_int (attr : AttrDef) (hty : attr.type = "integer")
    (hv : attr.values = []) (v : Nat) (hvb : v < 4294967296) :
    decodeValuesList attr [pack32 v] = .ok [.dint v] := by
  simp [decodeValuesList, decodeValue, valuesBackward, hv, decode_attr, hty,
    decode_integer, pack32_length, unpack32_pack32 v hvb]

/-- One adjust step when the attribute is already present at the end. -/
theorem acctDelayAdjust_present (D : RDict) (t : Nat) (p : RPacket) (base : Store) (v : Nat)
    (hd : D.lookupAttr "Acct-Delay-Time" = some acctDelayDef)
    (hattrs : p.attrs = base ++ [(.num 45, .vals [pack32 v])])
    (habs : storeFind base (.num 45) = none)
    (hb : v + t < 4294967296) :
    acctDelayAdjust D t p =
      .ok { p with attrs := base ++ [(.num 45, .vals [pack32 (v + t)])] } := by
  have hk : keyOfAttr acctDelayDef = .num 45 := by decide
  have hfind : storeFind p.attrs (.num 45) = some (.vals [pack32 v]) := by
    rw [hattrs]
    exact storeFind_append_last base _ _ habs
  have hcont : containsStr D p.attrs "Acct-Delay-Time" = true := by
    rw [containsStr_eq D _ acctDelayDef hd, hk, hfind]
    rfl
  have hgi : getItemStr D p.attrs "Acct-Delay-Time" = .ok [.dint v] := by
    rw [getItemStr_vals D _ acctDelayDef hd p.attrs [pack32 v] (by rw [hk]; exact hfind)]
    exact decodeValuesList_int acctDelayDef rfl rfl v (by omega)
  have hsi := setItemStr_int D _ acctDelayDef hd rfl rfl (by decide)
    p.secret p.authenticator p.attrs (v + t) hb
  rw [hk, hattrs, storeSet_append_last base _ _ _ habs] at hsi
  rw [hattrs] at hcont hgi
  simp only [acctDelayAdjust, hattrs, hcont, if_true, hgi, List.head?, hsi]

/-- One adjust step when the attribute is absent. -/
theorem acctDelayAdjust_absent (D : RDict) (t : Nat) (p : RPacket)
    (hd : D.lookupAttr "Acct-Delay-Time" = some acctDelayDef)
    (habs : storeFind p.attrs (.num 45) = none)
    (hb : t < 4294967296) :
    acctDelayAdjust D t p =
      .ok { p with attrs := p.attrs ++ [(.num 45, .vals [pack32 t])] } := by
  have hk : keyOfAttr acctDelayDef = .num 45 := by decide
  have hcont : containsStr D p.attrs "Acct-Delay-Time" = false := by
    rw [containsStr_eq D _ acctDelayDef hd, hk, habs]
    rfl
  have hsi := setItemStr_int D _ acctDelayDef hd rfl rfl (by decide)
    p.secret p.authenticator p.attrs t hb
  rw [hk, storeSet_absent p.attrs _ _ habs] at hsi
  rw [acctDelayAdjust, hcont]
  simp only [Bool.false_eq_true, if_false]
  rw [hsi]

/-- The retry loop from attempt index `i ≥ 1` with Acct-Delay-Time present
(value `v`) and a silent server. -/
theorem sendLoop_present (D : RDict) (t : Nat) (q : RPacket)
    (hd : D.lookupAttr "Acct-Delay-Time" = some acctDelayDef)
    (habs : storeFind q.attrs (.num 45) = none) :
    ∀ (m : Nat) (i : Nat) (p : RPacket) (v : Nat), i ≠ 0 → p.code = 4 →
    p.attrs = q.attrs ++ [(.num 45, .vals [pack32 v])] →
    v + m * t < 4294967296 →
    sendLoopAux D t i p (List.replicate m []) =
      .ok (.timeout, (List.range m).map (fun j =>
        q.attrs ++ [(.num 45, .vals [pack32 (v + (j + 1) * t)])])) := by
  intro m
  induction m with
  | zero => intro i p v _ _ _ _; simp [sendLoopAux]
  | succ m ih =>
    intro i p v hi hcode hattrs hb
    have hb1 : v + t < 4294967296 := by nlinarith
    have hb2 : v + t + m * t < 4294967296 := by nlinarith
    have hadj := acctDelayAdjust_present D t p q.attrs v hd hattrs habs hb1
    have ih2 := ih (i + 1)
      { p with attrs := q.attrs ++ [(.num 45, .vals [pack32 (v + t)])] }
      (v + t) (by omega) hcode rfl hb2
    rw [hcode] at ih2
    have hlist : (List.range (m + 1)).map (fun j =>
        q.attrs ++ [(AttrKey.num 45, AttrVal.vals [pack32 (v + (j + 1) * t)])]) =
      (q.attrs ++ [(AttrKey.num 45, AttrVal.vals [pack32 (v + t)])]) ::
        (List.range m).map (fun j =>
          q.attrs ++ [(AttrKey.num 45, AttrVal.vals [pack32 (v + t + (j + 1) * t)])]) := by
      rw [List.range_succ_eq_map, List.map_cons, List.map_map]
      congr 1
      · simp
      · apply List.map_congr_left
        intro j _
        simp only [Function.comp]
        have : v + t + (j + 1) * t = v + (j + 1 + 1) * t := by ring
        rw [this]
    rw [List.replicate_succ]
    simp only [sendLoopAux, hi, hcode, ne_eq, not_false_eq_true, and_self, if_true,
      hadj, recvLoop, ih2, hlist]

/-- The retry loop from attempt index `i ≥ 1` with Acct-Delay-Time initially
absent and a silent server. -/
theorem sendLoop_absent (D : RDict) (t : Nat) (q : RPacket)
    (hd : D.lookupAttr "Acct-Delay-Time" = some acctDelayDef)
    (habs : storeFind q.attrs (.num 45) = none) :
    ∀ (m i : Nat) (p : RPacket), i ≠ 0 → p.code = 4 → p.attrs = q.attrs →
    m * t < 4294967296 →
    sendLoopAux D t i p (List.replicate m []) =
      .ok (.timeout, (List.range m).map (fun j =>
        q.attrs ++ [(.num 45, .vals [pack32 ((j + 1) * t)])])) := by
  intro m i p hi hcode hattrs hb
  cases m with
  | zero => simp [sendLoopAux]
  | succ m =>
    have hb1 : t < 4294967296 := by nlinarith
    have hadj := acctDelayAdjust_absent D t p hd (hattrs ▸ habs) hb1
    rw [hattrs] at hadj
    have hrec := sendLoop_present D t q hd habs m (i + 1)
      { p with attrs := q.attrs ++ [(.num 45, .vals [pack32 t])] } t
      (by omega) hcode rfl (by nlinarith)
    rw [hcode] at hrec
    have hlist : (List.range (m + 1)).map (fun j =>
        q.attrs ++ [(AttrKey.num 45, AttrVal.vals [pack32 ((j + 1) * t)])]) =
      (q.attrs ++ [(AttrKey.num 45, AttrVal.vals [pack32 t])]) ::
        (List.range m).map (fun j =>
          q.attrs ++ [(AttrKey.num 45, AttrVal.vals [pack32 (t + (j + 1) * t)])]) := by
      rw [List.range_succ_eq_map, List.map_cons, List.map_map]
      congr 1
      · simp
      · apply List.map_congr_left
        intro j _
        simp only [Function.comp]
        have : t + (j + 1) * t = (j + 1 + 1) * t := by ring
        rw [this]
    rw [List.replicate_succ]
    simp only [sendLoopAux, hi, hcode, ne_eq, not_false_eq_true, and_self, if_true,
      hadj, recvLoop, hrec, hlist]

/-- C7: for every Accounting-Request sent with timeout `t` and a silent
server, the first attempt transmits the packet unchanged; each later attempt
sets Acct-Delay-Time to `t` when absent, otherwise increments it by `t`, so
attempt `n` (1-based) carries Acct-Delay-Time `(n-1)*t`; and no other
attribute of the packet changes between attempts (each transmitted store is
the original store plus, at most, the trailing Acct-Delay-Time entry). -/
theorem c7_acct_delay_time (D : RDict) (t : Nat) (q : RPacket) (n : Nat)
    (hd : D.lookupAttr "Acct-Delay-Time" = some acctDelayDef)
    (hcode : q.code = 4)
    (hpos : 1 ≤ n)
    (habs : storeFind q.attrs (.num 45) = none)
    (hb : n * t < 4294967296) :
    sendPacketModel D t q (List.replicate n []) =
      .ok (.timeout, q.attrs :: (List.range (n - 1)).map (fun j =>
        q.attrs ++ [(.num 45, .vals [pack32 ((j + 1) * t)])])) := by
  cases n with
  | zero => omega
  | succ m =>
    have hrec := sendLoop_absent D t q hd habs m 1 q (by omega) hcode rfl (by nlinarith)
    rw [List.replicate_succ]
    simp only [sendPacketModel, sendLoopAux, recvLoop, ne_eq, eq_self_iff_true,
      not_true_eq_false, false_and, if_false, Nat.zero_add]
    rw [hrec]
    simp

/-- A concrete Accounting-Request with one User-Name attribute. -/
def c7req : RPacket :=
  ⟨4, 9, [115], some (List.replicate 16 0), [(.num 1, .vals [[119]])], false⟩

/-- Witness for `c7_acct_delay_time`: retries 3, timeout 1, silent server —
attempts 2 and 3 carry Acct-Delay-Time 1 and 2. -/
theorem c7_acct_delay_time_witness :
    sendPacketModel Dtest 1 c7req (List.replicate 3 []) =
      .ok (.timeout, [c7req.attrs,
        c7req.attrs ++ [(.num 45, .vals [pack32 1])],
        c7req.attrs ++ [(.num 45, .vals [pack32 2])]]) := by
  rw [c7_acct_delay_time Dtest 1 c7req 3 (by decide) rfl (by decide) (by decide) (by decide)]
  decide

/-! ## C3 — Response-Authenticator and reply verification -/

theorem encodeHeader_length (code id attrLen : Nat) :
    (encodeHeader code id attrLen).length = 4 := rfl

theorem sl_mid (x m y : Bytes) (hx : x.length = 4) (hm : m.length = 16) :
    sl (x ++ m ++ y) 4 20 = m := by
  have hdrop : (x ++ m ++ y).drop 4 = m ++ y := by
    rw [show x ++ m ++ y = x ++ (m ++ y) from by simp, ← hx, List.drop_left]
  simp only [sl, hdrop, show (20 : Nat) - 4 = 16 from rfl]
  rw [← hm, List.take_left]

theorem sl_head (x y : Bytes) (hx : x.length = 4) : sl (x ++ y) 0 4 = x := by
  simp only [sl, List.drop_zero, Nat.sub_zero]
  rw [← hx, List.take_left]

theorem sl_head3 (x m y : Bytes) (hx : x.length = 4) : sl (x ++ m ++ y) 0 4 = x := by
  rw [show x ++ m ++ y = x ++ (m ++ y) from by simp]
  exact sl_head x (m ++ y) hx

/-- C3: a reply `R` built from request `Q` inherits `Q`'s id, secret and
authenticator; serializing `R` writes `MD5(code || id || length ||
Q.authenticator || attributes || secret)` into octets 4..20 of the raw
packet; `verify_reply` accepts a raw reply iff the reply packet's id equals
the request's id and the raw packet's 16-octet authenticator field equals
the MD5 computed over its own first 4 octets, `Q`'s authenticator, the
reply's attributes and the secret; in particular the serialized reply is
accepted. -/
theorem c3_response_authenticator (D : RDict) (q : RPacket) (code : Nat) (st : Store)
    (a : Bytes) (hqa : q.authenticator = some a) (_ha : a.length = 16) :
    createRawReply D (createReplyWith code q st) =
      .ok (encodeHeader code q.id (pktEncodeAttributes D st).length ++
           md5bytes (encodeHeader code q.id (pktEncodeAttributes D st).length ++ a ++
             pktEncodeAttributes D st ++ q.secret) ++ pktEncodeAttributes D st,
           createReplyWith code q st) ∧
    sl (encodeHeader code q.id (pktEncodeAttributes D st).length ++
        md5bytes (encodeHeader code q.id (pktEncodeAttributes D st).length ++ a ++
          pktEncodeAttributes D st ++ q.secret) ++ pktEncodeAttributes D st) 4 20 =
      md5bytes (encodeHeader code q.id (pktEncodeAttributes D st).length ++ a ++
        pktEncodeAttributes D st ++ q.secret) ∧
    (∀ (rp : RPacket) (raw : Bytes), verifyReply D q rp raw = .ok true ↔
      (rp.id = q.id ∧ sl raw 4 20 =
        md5bytes (sl raw 0 4 ++ a ++ pktEncodeAttributes D rp.attrs ++ q.secret))) ∧
    verifyReply D q (createReplyWith code q st)
      (encodeHeader code q.id (pktEncodeAttributes D st).length ++
       md5bytes (encodeHeader code q.id (pktEncodeAttributes D st).length ++ a ++
         pktEncodeAttributes D st ++ q.secret) ++ pktEncodeAttributes D st) = .ok true := by
  have hver : ∀ (rp : RPacket) (raw : Bytes), verifyReply D q rp raw = .ok true ↔
      (rp.id = q.id ∧ sl raw 4 20 =
        md5bytes (sl raw 0 4 ++ a ++ pktEncodeAttributes D rp.attrs ++ q.secret)) := by
    intro rp raw
    by_cases hid : rp.id = q.id
    · by_cases hh :
        md5bytes (sl raw 0 4 ++ a ++ pktEncodeAttributes D rp.attrs ++ q.secret) =
          sl raw 4 20
      · simp [verifyReply, hid, hqa, hh, hh.symm]
      · constructor
        · intro h
          simp only [List.append_assoc] at hh
          simp [verifyReply, hid, hqa, hh] at h
        · rintro ⟨-, h2⟩
          exact absurd h2.symm hh
    · simp [verifyReply, hid]
  have hcrr : createRawReply D (createReplyWith code q st) =
      .ok (encodeHeader code q.id (pktEncodeAttributes D st).length ++
           md5bytes (encodeHeader code q.id (pktEncodeAttributes D st).length ++ a ++
             pktEncodeAttributes D st ++ q.secret) ++ pktEncodeAttributes D st,
           createReplyWith code q st) := by
    simp [createRawReply, createReplyWith, hqa]
  have hslice := sl_mid (encodeHeader code q.id (pktEncodeAttributes D st).length)
    (md5bytes (encodeHeader code q.id (pktEncodeAttributes D st).length ++ a ++
      pktEncodeAttributes D st ++ q.secret)) (pktEncodeAttributes D st)
    (encodeHeader_length _ _ _) (md5bytes_length _)
  refine ⟨hcrr, hslice, hver, ?_⟩
  rw [hver]
  refine ⟨rfl, ?_⟩
  rw [hslice, sl_head3 _ _ _ (encodeHeader_length _ _ _)]
  rfl

/-- A concrete request for the reply-verification witness. -/
def c3q : RPacket := ⟨4, 9, [115, 101], some (List.replicate 16 0), [], false⟩

/-- A concrete reply store. -/
def c3st : Store := [(.num 1, .vals [[119, 120]])]

/-- Witness for `c3_response_authenticator`: the serialized Accounting
reply to `c3q` passes `verify_reply`. -/
theorem c3_response_authenticator_witness :
    verifyReply Dtest c3q (createReplyWith 5 c3q c3st)
      (encodeHeader 5 c3q.id (pktEncodeAttributes Dtest c3st).length ++
       md5bytes (encodeHeader 5 c3q.id (pktEncodeAttributes Dtest c3st).length ++
         List.replicate 16 0 ++ pktEncodeAttributes Dtest c3st ++ c3q.secret) ++
       pktEncodeAttributes Dtest c3st) = .ok true :=
  (c3_response_authenticator Dtest c3q 5 c3st (List.replicate 16 0) rfl (by decide)).2.2.2

/-! ## C5 — decode error behaviour -/

/-- The tlv sub-decoder's outcome matches its control-flow scan. -/
theorem pktDecodeTlvAttr_chk : ∀ (fuel : Nat) (data : Bytes)
    (sub : List (Nat × List Bytes)),
    ∃ sub2, pktDecodeTlvAttr fuel sub data = (sub2,
      match subCheck fuel data with
      | .done => none
      | .crash => some .structError
      | .hang => some .fuel) := by
  intro fuel
  induction fuel with
  | zero => intro data sub; exact ⟨sub, rfl⟩
  | succ fuel ih =>
    intro data sub
    match data with
    | [] => exact ⟨sub, rfl⟩
    | [x] => exact ⟨sub, rfl⟩
    | a :: l :: rest =>
      obtain ⟨sub2, h⟩ := ih ((a :: l :: rest).drop l) (subAppend sub a (rest.take (l - 2)))
      exact ⟨sub2, by simp only [pktDecodeTlvAttr, subCheck, h]⟩

/-- The vendor continuation loop terminates without error exactly when its
scan says so. -/
theorem vsaLoop_chk : ∀ (fuel : Nat) (vendor : Nat) (data : Bytes) (sumlength : Nat)
    (tlvs : List (AttrKey × Bytes)),
    ∃ tlvs2, vsaLoop vendor data fuel sumlength tlvs = (tlvs2,
      if vsaLoopEnds data fuel sumlength then none else some .fuel) := by
  intro fuel
  induction fuel with
  | zero => intro vendor data sumlength tlvs; exact ⟨tlvs, rfl⟩
  | succ fuel ih =>
    intro vendor data sumlength tlvs
    by_cases h1 : data.length ≤ sumlength
    · exact ⟨tlvs, by simp only [vsaLoop, vsaLoopEnds, if_pos h1, eq_self_iff_true, if_true]⟩
    · by_cases h2 : (data.drop sumlength).length < 2
      · exact ⟨[(.num 26, data)], by
          simp only [vsaLoop, vsaLoopEnds, if_neg h1, if_pos h2, eq_self_iff_true, if_true]⟩
      · obtain ⟨tlvs2, h⟩ := ih vendor data (sumlength + data.getD (sumlength + 1) 0)
          (tlvs ++ [(.vsa vendor (data.getD sumlength 0),
            sl data (sumlength + 2) (sumlength + data.getD (sumlength + 1) 0))])
        exact ⟨tlvs2, by simp only [vsaLoop, vsaLoopEnds, if_neg h1, if_neg h2, h]⟩

theorem pktDecodeTlvAttr_done (fuel : Nat) (data : Bytes)
    (sub : List (Nat × List Bytes)) (h : subCheck fuel data = .done) :
    ∃ sub2, pktDecodeTlvAttr fuel sub data = (sub2, none) := by
  obtain ⟨sub2, h2⟩ := pktDecodeTlvAttr_chk fuel data sub
  rw [h] at h2
  exact ⟨sub2, h2⟩

theorem pktDecodeTlvAttr_crash (fuel : Nat) (data : Bytes)
    (sub : List (Nat × List Bytes)) (h : subCheck fuel data = .crash) :
    ∃ sub2, pktDecodeTlvAttr fuel sub data = (sub2, some .structError) := by
  obtain ⟨sub2, h2⟩ := pktDecodeTlvAttr_chk fuel data sub
  rw [h] at h2
  exact ⟨sub2, h2⟩

theorem vsaLoop_ends (fuel : Nat) (vendor : Nat) (data : Bytes) (sumlength : Nat)
    (tlvs : List (AttrKey × Bytes)) (h : vsaLoopEnds data fuel sumlength = true) :
    ∃ tlvs2, vsaLoop vendor data fuel sumlength tlvs = (tlvs2, none) := by
  obtain ⟨tlvs2, h2⟩ := vsaLoop_chk fuel vendor data sumlength tlvs
  rw [h] at h2
  exact ⟨tlvs2, h2⟩

/-- A benign type-26 value decodes without error. -/
theorem pktDecodeVendorAttr_benign (D : RDict) (st : Store) (data : Bytes)
    (hb : vsaBenign D data = true) :
    ∃ st2 pairs, pktDecodeVendorAttr D (data.length + 1) st data = (st2, pairs, none) := by
  by_cases h6 : data.length < 6
  · exact ⟨st, [(.num 26, data)], by simp [pktDecodeVendorAttr, h6]⟩
  · simp only [vsaBenign, if_neg h6] at hb
    by_cases htlv : D.isTlvKey (.vsa (unpack32 (data.take 4)) (data.getD 4 0)) = true
    · rw [if_pos htlv] at hb
      match hgts : getTlvSub st (.vsa (unpack32 (data.take 4)) (data.getD 4 0)) with
      | none =>
        exact ⟨st, [(.num 26, data)], by
          simp only [pktDecodeVendorAttr, if_neg h6, htlv, if_true, hgts]⟩
      | some sub =>
        match hchk : subCheck (data.length + 1) (sl data 6 (data.getD 5 0 + 4)) with
        | .hang =>
          rw [hchk] at hb
          simp at hb
        | .crash =>
          obtain ⟨sub2, hsub⟩ := pktDecodeTlvAttr_crash (data.length + 1)
            (sl data 6 (data.getD 5 0 + 4)) sub hchk
          exact ⟨setTlvSub st (.vsa (unpack32 (data.take 4)) (data.getD 4 0)) sub2,
            [(.num 26, data)], by
              simp only [pktDecodeVendorAttr, if_neg h6, htlv, if_true, hgts, hsub]⟩
        | .done =>
          obtain ⟨sub2, hsub⟩ := pktDecodeTlvAttr_done (data.length + 1)
            (sl data 6 (data.getD 5 0 + 4)) sub hchk
          have hb2 : vsaLoopEnds data (data.length + 1) (4 + data.getD 5 0) = true := by
            rw [hchk] at hb
            exact hb
          obtain ⟨tlvs2, hloop⟩ := vsaLoop_ends (data.length + 1)
            (unpack32 (data.take 4)) data (4 + data.getD 5 0) [] hb2
          exact ⟨setTlvSub st (.vsa (unpack32 (data.take 4)) (data.getD 4 0)) sub2, tlvs2, by
            simp only [pktDecodeVendorAttr, if_neg h6, htlv, if_true, hgts, hsub, hloop]⟩
    · rw [if_neg htlv] at hb
      obtain ⟨tlvs2, hloop⟩ := vsaLoop_ends (data.length + 1)
        (unpack32 (data.take 4)) data (4 + data.getD 5 0)
        [(.vsa (unpack32 (data.take 4)) (data.getD 4 0), sl data 6 (data.getD 5 0 + 4))] hb
      exact ⟨st, tlvs2, by
        simp only [pktDecodeVendorAttr, if_neg h6, htlv, Bool.false_eq_true, if_false, hloop]⟩

/-! The store invariant for the decode loop: tlv-typed plain keys (other than
26 and 80) never hold a plain value list, so the tlv branch's `setdefault`
cannot crash. -/

/-- The invariant. -/
def TlvInv (D : RDict) (st : Store) : Prop :=
  ∀ c : Nat, c ≠ 26 → c ≠ 80 → D.isTlvKey (.num c) = true →
    getTlvSub st (.num c) ≠ none

theorem getTlvSub_storeAppend_ne (st : Store) (k k2 : AttrKey) (v : Bytes) (h : k2 ≠ k) :
    getTlvSub (storeAppend st k v) k2 = getTlvSub st k2 := by
  induction st with
  | nil =>
    simp only [storeAppend, getTlvSub]
    rw [if_neg (fun hh => h hh.symm)]
  | cons e rest ih =>
    cases e with
    | mk k' w' =>
      by_cases he : k' = k
      · subst he
        cases w' with
        | vals l =>
          simp only [storeAppend, if_pos rfl, getTlvSub]
        | tlvm m =>
          simp only [storeAppend, if_pos rfl, getTlvSub]
      · simp only [storeAppend, if_neg he, getTlvSub]
        by_cases he2 : k' = k2
        · rw [if_pos he2, if_pos he2]
        · rw [if_neg he2, if_neg he2, ih]

theorem getTlvSub_setTlvSub_ne (st : Store) (k k2 : AttrKey)
    (m : List (Nat × List Bytes)) (h : k2 ≠ k) :
    getTlvSub (setTlvSub st k m) k2 = getTlvSub st k2 := by
  induction st with
  | nil =>
    simp only [setTlvSub, getTlvSub]
    rw [if_neg (fun hh => h hh.symm)]
  | cons e rest ih =>
    cases e with
    | mk k' w' =>
      by_cases he : k' = k
      · subst he
        simp only [setTlvSub, if_pos rfl, getTlvSub]
        rw [if_neg (fun hh => h hh.symm), if_neg (fun hh => h hh.symm)]
      · simp only [setTlvSub, if_neg he, getTlvSub]
        by_cases he2 : k' = k2
        · rw [if_pos he2, if_pos he2]
        · rw [if_neg he2, if_neg he2, ih]

theorem getTlvSub_setTlvSub_self (st : Store) (k : AttrKey)
    (m : List (Nat × List Bytes)) :
    getTlvSub (setTlvSub st k m) k = some m := by
  induction st with
  | nil => simp [setTlvSub, getTlvSub]
  | cons e rest ih =>
    cases e with
    | mk k' w' =>
      by_cases he : k' = k
      · subst he
        simp [setTlvSub, getTlvSub]
      · simp only [setTlvSub, if_neg he, getTlvSub]
        exact ih

theorem tlvInv_storeAppend_num (D : RDict) (st : Store) (c : Nat) (v : Bytes)
    (hinv : TlvInv D st)
    (hc : c = 80 ∨ D.isTlvKey (.num c) = false) :
    TlvInv D (storeAppend st (.num c) v) := by
  intro c2 h26 h80 htlv
  have hne : AttrKey.num c2 ≠ AttrKey.num c := by
    intro h
    injection h with h
    subst h
    rcases hc with rfl | hc
    · exact h80 rfl
    · rw [htlv] at hc; cases hc
  rw [getTlvSub_storeAppend_ne st _ _ v hne]
  exact hinv c2 h26 h80 htlv

theorem tlvInv_storeAppend_nonnum (D : RDict) (st : Store) (k : AttrKey) (v : Bytes)
    (hinv : TlvInv D st)
    (hk : (∀ c, k ≠ .num c) ∨ k = .num 26) :
    TlvInv D (storeAppend st k v) := by
  intro c2 h26 h80 htlv
  have hne : AttrKey.num c2 ≠ k := by
    rcases hk with hk | rfl
    · intro h; exact hk c2 h.symm
    · intro h; injection h with h; exact h26 h
  rw [getTlvSub_storeAppend_ne st _ _ v hne]
  exact hinv c2 h26 h80 htlv

theorem tlvInv_setTlvSub (D : RDict) (st : Store) (k : AttrKey)
    (m : List (Nat × List Bytes)) (hinv : TlvInv D st) :
    TlvInv D (setTlvSub st k m) := by
  intro c2 h26 h80 htlv
  by_cases he : AttrKey.num c2 = k
  · rw [← he, getTlvSub_setTlvSub_self]
    simp
  · rw [getTlvSub_setTlvSub_ne st _ _ m he]
    exact hinv c2 h26 h80 htlv

theorem tlvInv_appendPairs (D : RDict) (st : Store) (ps : List (AttrKey × Bytes))
    (hinv : TlvInv D st)
    (hps : ∀ p ∈ ps, p.1 = .num 26 ∨ ∀ c, p.1 ≠ AttrKey.num c) :
    TlvInv D (appendPairs st ps) := by
  induction ps generalizing st with
  | nil => exact hinv
  | cons p rest ih =>
    simp only [appendPairs, List.foldl_cons]
    apply ih (storeAppend st p.1 p.2)
    · apply tlvInv_storeAppend_nonnum D st p.1 p.2 hinv
      rcases hps p (by simp) with h | h
      · exact Or.inr h
      · exact Or.inl h
    · intro p2 hp2
      exact hps p2 (by simp [hp2])

/-- Keys accumulated by the VSA continuation loop are key 26 or vendor keys,
provided the initial accumulator satisfies the same. -/
theorem vsaLoop_keys (vendor : Nat) (data : Bytes) (f : Nat) :
    ∀ (s : Nat) (tlvs tlvs2 : List (AttrKey × Bytes)) (r : Option PyErr),
    vsaLoop vendor data f s tlvs = (tlvs2, r) →
    (∀ p ∈ tlvs, p.1 = AttrKey.num 26 ∨ ∀ c, p.1 ≠ AttrKey.num c) →
    ∀ p ∈ tlvs2, p.1 = AttrKey.num 26 ∨ ∀ c, p.1 ≠ AttrKey.num c := by
  induction f with
  | zero =>
    intro s tlvs tlvs2 r heq hinit
    simp only [vsaLoop] at heq
    injection heq with h1 h2
    subst h1
    exact hinit
  | succ f ih =>
    intro s tlvs tlvs2 r heq hinit
    simp only [vsaLoop] at heq
    by_cases h1 : data.length ≤ s
    · rw [if_pos h1] at heq
      injection heq with h1 h2
      subst h1
      exact hinit
    · rw [if_neg h1] at heq
      by_cases h2 : (data.drop s).length < 2
      · rw [if_pos h2] at heq
        injection heq with h1 h2
        subst h1
        intro p hp
        simp at hp
        simp [hp]
      · rw [if_neg h2] at heq
        refine ih _ _ _ _ heq ?_
        intro p hp
        rcases List.mem_append.mp hp with hp | hp
        · exact hinit p hp
        · simp at hp
          simp [hp]

/-- The pairs produced by the vendor decoder are key 26 or vendor pairs. -/
theorem pktDecodeVendorAttr_pairs (D : RDict) (fuel : Nat) (st : Store) (data : Bytes) :
    ∀ p ∈ (pktDecodeVendorAttr D fuel st data).2.1,
      p.1 = AttrKey.num 26 ∨ ∀ c, p.1 ≠ AttrKey.num c := by
  intro p hp
  simp only [pktDecodeVendorAttr] at hp
  split at hp
  · simp at hp
    simp [hp]
  · split at hp
    · split at hp
      · simp at hp
        simp [hp]
      · split at hp
        · split at hp
          · rename_i tlvs heq
            simp at hp
            refine vsaLoop_keys _ data _ _ _ _ _ heq ?_ p hp
            intro q hq
            cases hq
          · simp at hp
        all_goals (simp at hp; try simp [hp])
    · split at hp
      · rename_i tlvs heq
        simp at hp
        refine vsaLoop_keys _ data _ _ _ _ _ heq ?_ p hp
        intro q hq
        simp at hq
        simp [hq]
      · simp at hp

/-- A pair key the caller loop of `decode_packet` can always append to:
key 26 (always a plain list, see `VsaInv`) or a vendor key the dictionary
does not type `tlv`. -/
def SafeKey (D : RDict) (k : AttrKey) : Prop :=
  k = AttrKey.num 26 ∨
    ∃ vendor c, k = AttrKey.vsa vendor c ∧ D.isTlvKey (AttrKey.vsa vendor c) = false

/-- Under `vsaKeysOk`, every key the continuation loop accumulates is safe. -/
theorem vsaLoop_keys_safe (D : RDict) (vendor : Nat) (data : Bytes) (f : Nat) :
    ∀ (s : Nat) (tlvs tlvs2 : List (AttrKey × Bytes)) (r : Option PyErr),
    vsaLoop vendor data f s tlvs = (tlvs2, r) →
    vsaKeysOk D vendor data f s = true →
    (∀ p ∈ tlvs, SafeKey D p.1) →
    ∀ p ∈ tlvs2, SafeKey D p.1 := by
  induction f with
  | zero =>
    intro s tlvs tlvs2 r heq hko hinit
    simp [vsaKeysOk] at hko
  | succ f ih =>
    intro s tlvs tlvs2 r heq hko hinit
    simp only [vsaLoop] at heq
    simp only [vsaKeysOk] at hko
    by_cases h1 : data.length ≤ s
    · rw [if_pos h1] at heq
      injection heq with ha hb
      subst ha
      exact hinit
    · rw [if_neg h1] at heq
      rw [if_neg h1] at hko
      by_cases h2 : (data.drop s).length < 2
      · rw [if_pos h2] at heq
        injection heq with ha hb
        subst ha
        intro p hp
        rw [List.mem_singleton] at hp
        subst hp
        exact Or.inl rfl
      · rw [if_neg h2] at heq
        rw [if_neg h2] at hko
        rw [Bool.and_eq_true] at hko
        refine ih _ _ _ _ heq hko.2 ?_
        intro p hp
        rcases List.mem_append.mp hp with hp | hp
        · exact hinit p hp
        · rw [List.mem_singleton] at hp
          subst hp
          refine Or.inr ⟨vendor, data.getD s 0, rfl, ?_⟩
          have h3 := hko.1
          rw [Bool.not_eq_true'] at h3
          exact h3

/-- Under `vsaSafe`, every pair the vendor decoder emits has a safe key. -/
theorem pktDecodeVendorAttr_safe (D : RDict) (st : Store) (data : Bytes)
    (hs : vsaSafe D data = true) :
    ∀ p ∈ (pktDecodeVendorAttr D (data.length + 1) st data).2.1, SafeKey D p.1 := by
  intro p hp
  simp only [pktDecodeVendorAttr] at hp
  split at hp
  · rw [List.mem_singleton] at hp
    subst hp
    exact Or.inl rfl
  · rename_i h6
    have hko : vsaKeysOk D (unpack32 (data.take 4)) data (data.length + 1)
        (4 + data.getD 5 0) = true := by
      simpa only [vsaSafe, if_neg h6] using hs
    split at hp
    · split at hp
      · rw [List.mem_singleton] at hp
        subst hp
        exact Or.inl rfl
      · split at hp
        · split at hp
          · rename_i tlvs heq
            simp at hp
            exact vsaLoop_keys_safe D _ data _ _ _ _ _ heq hko
              (fun q hq => by cases hq) p hp
          · simp at hp
        all_goals
          (simp at hp
           try (rw [hp]; exact Or.inl rfl))
    · rename_i htlv
      split at hp
      · rename_i tlvs heq
        simp at hp
        refine vsaLoop_keys_safe D _ data _ _ _ _ _ heq hko ?_ p hp
        intro q hq
        rw [List.mem_singleton] at hq
        subst hq
        refine Or.inr ⟨unpack32 (data.take 4), data.getD 4 0, rfl, ?_⟩
        rw [Bool.eq_false_iff]
        exact htlv
      · simp at hp

/-- The store component of the vendor decoder keeps the tlv invariant. -/
theorem tlvInv_pktDecodeVendorAttr (D : RDict) (f : Nat) (st : Store) (data : Bytes)
    (hinv : TlvInv D st) : TlvInv D (pktDecodeVendorAttr D f st data).1 := by
  simp only [pktDecodeVendorAttr]
  repeat' split
  all_goals first
    | exact hinv
    | exact tlvInv_setTlvSub D st _ _ hinv

/-- The other store invariant of the decode loop: a tlv sub-map sits only at
vendor keys the dictionary types `tlv`, and never at plain key 26. -/
def VsaInv (D : RDict) (st : Store) : Prop :=
  (∀ m, storeFind st (AttrKey.num 26) ≠ some (AttrVal.tlvm m)) ∧
  (∀ vendor c m, storeFind st (AttrKey.vsa vendor c) = some (AttrVal.tlvm m) →
    D.isTlvKey (AttrKey.vsa vendor c) = true)

theorem storeFind_storeAppend_tlvm (st : Store) (k k2 : AttrKey) (v : Bytes)
    (m : List (Nat × List Bytes))
    (h : storeFind (storeAppend st k v) k2 = some (AttrVal.tlvm m)) :
    storeFind st k2 = some (AttrVal.tlvm m) := by
  induction st with
  | nil =>
    simp only [storeAppend, storeFind] at h
    by_cases he : k = k2
    · rw [if_pos he] at h
      simp at h
    · rw [if_neg he] at h
      cases h
  | cons e rest ih =>
    cases e with
    | mk k' w' =>
      by_cases hk : k' = k
      · subst hk
        cases w' with
        | vals l =>
          simp only [storeAppend, if_pos rfl, storeFind] at h ⊢
          by_cases he2 : k' = k2
          · rw [if_pos he2] at h ⊢
            simp at h
          · rw [if_neg he2] at h ⊢
            exact h
        | tlvm mm =>
          simp only [storeAppend, if_pos rfl, storeFind] at h ⊢
          by_cases he2 : k' = k2
          · rw [if_pos he2] at h ⊢
            exact h
          · rw [if_neg he2] at h ⊢
            exact h
      · simp only [storeAppend, if_neg hk, storeFind] at h ⊢
        by_cases he2 : k' = k2
        · rw [if_pos he2] at h ⊢
          exact h
        · rw [if_neg he2] at h ⊢
          exact ih h

theorem storeFind_setTlvSub_self (st : Store) (k : AttrKey)
    (m : List (Nat × List Bytes)) :
    storeFind (setTlvSub st k m) k = some (AttrVal.tlvm m) := by
  induction st with
  | nil => simp [setTlvSub, storeFind]
  | cons e rest ih =>
    cases e with
    | mk k' w' =>
      by_cases he : k' = k
      · subst he
        simp [setTlvSub, storeFind]
      · simp only [setTlvSub, if_neg he, storeFind]
        exact ih

theorem storeFind_setTlvSub_ne (st : Store) (k k2 : AttrKey)
    (m : List (Nat × List Bytes)) (h : k2 ≠ k) :
    storeFind (setTlvSub st k m) k2 = storeFind st k2 := by
  induction st with
  | nil =>
    simp only [setTlvSub, storeFind]
    rw [if_neg (fun hh => h hh.symm)]
  | cons e rest ih =>
    cases e with
    | mk k' w' =>
      by_cases he : k' = k
      · subst he
        simp only [setTlvSub, if_pos rfl, storeFind]
        rw [if_neg (fun hh => h hh.symm), if_neg (fun hh => h hh.symm)]
      · simp only [setTlvSub, if_neg he, storeFind]
        by_cases he2 : k' = k2
        · rw [if_pos he2, if_pos he2]
        · rw [if_neg he2, if_neg he2, ih]

theorem vsaInv_storeAppend (D : RDict) (st : Store) (k : AttrKey) (v : Bytes)
    (hinv : VsaInv D st) : VsaInv D (storeAppend st k v) := by
  constructor
  · intro m hm
    exact hinv.1 m (storeFind_storeAppend_tlvm st k _ v m hm)
  · intro vendor c m hm
    exact hinv.2 vendor c m (storeFind_storeAppend_tlvm st k _ v m hm)

theorem vsaInv_setTlvSub (D : RDict) (st : Store) (k : AttrKey)
    (m : List (Nat × List Bytes)) (hinv : VsaInv D st)
    (h26 : k ≠ AttrKey.num 26)
    (hok : ∀ vendor c, k = AttrKey.vsa vendor c →
      D.isTlvKey (AttrKey.vsa vendor c) = true) :
    VsaInv D (setTlvSub st k m) := by
  constructor
  · intro m2 hm
    rw [storeFind_setTlvSub_ne st k (AttrKey.num 26) m (fun hh => h26 hh.symm)] at hm
    exact hinv.1 m2 hm
  · intro vendor c m2 hm
    by_cases he : AttrKey.vsa vendor c = k
    · exact hok vendor c he.symm
    · rw [storeFind_setTlvSub_ne st k (AttrKey.vsa vendor c) m he] at hm
      exact hinv.2 vendor c m2 hm

theorem vsaInv_appendPairs (D : RDict) (st : Store) (ps : List (AttrKey × Bytes))
    (hinv : VsaInv D st) : VsaInv D (appendPairs st ps) := by
  induction ps generalizing st with
  | nil => exact hinv
  | cons p rest ih =>
    simp only [appendPairs, List.foldl_cons]
    exact ih (storeAppend st p.1 p.2) (vsaInv_storeAppend D st p.1 p.2 hinv)

/-- The store component of the vendor decoder keeps `VsaInv`. -/
theorem vsaInv_pktDecodeVendorAttr (D : RDict) (f : Nat) (st : Store) (data : Bytes)
    (hinv : VsaInv D st) : VsaInv D (pktDecodeVendorAttr D f st data).1 := by
  simp only [pktDecodeVendorAttr]
  by_cases h6 : data.length < 6
  · rw [if_pos h6]
    exact hinv
  · rw [if_neg h6]
    by_cases htlv : D.isTlvKey (.vsa (unpack32 (data.take 4)) (data.getD 4 0)) = true
    · rw [if_pos htlv]
      have hset : ∀ sub2, VsaInv D
          (setTlvSub st (.vsa (unpack32 (data.take 4)) (data.getD 4 0)) sub2) := by
        intro sub2
        refine vsaInv_setTlvSub D st _ sub2 hinv (by simp) ?_
        intro vendor c hk
        rw [← hk]
        exact htlv
      repeat' split
      all_goals first | exact hinv | exact hset _
    · rw [if_neg htlv]
      repeat' split
      all_goals exact hinv

/-- When every pair key is safe for the current store, the checked append
succeeds and equals the unchecked fold. -/
theorem appendPairsChk_eq (D : RDict) :
    ∀ (ps : List (AttrKey × Bytes)) (st : Store),
    VsaInv D st →
    (∀ p ∈ ps, SafeKey D p.1) →
    appendPairsChk st ps = .ok (appendPairs st ps) := by
  intro ps
  induction ps with
  | nil =>
    intro st hinv hps
    rfl
  | cons p rest ih =>
    intro st hinv hps
    have hnext : appendPairsChk (storeAppend st p.1 p.2) rest =
        .ok (appendPairs (storeAppend st p.1 p.2) rest) :=
      ih (storeAppend st p.1 p.2) (vsaInv_storeAppend D st p.1 p.2 hinv)
        (fun q hq => hps q (by simp [hq]))
    have hfold : appendPairs st (p :: rest) = appendPairs (storeAppend st p.1 p.2) rest := by
      simp [appendPairs]
    rw [hfold]
    simp only [appendPairsChk]
    match hf : storeFind st p.1 with
    | none => exact hnext
    | some (.vals l) => exact hnext
    | some (.tlvm mm) =>
      exfalso
      rcases hps p (by simp) with h26 | ⟨vendor, c, hk, htlv⟩
      · rw [h26] at hf
        exact hinv.1 mm hf
      · rw [hk] at hf
        rw [hinv.2 vendor c mm hf] at htlv
        cases htlv

/-- Main correspondence: on a `.short` region the attribute loop raises the
too-small error; on an `.ok` region it returns without raising. -/
theorem decodeAttrsLoop_scan (D : RDict) (fuel : Nat) :
    ∀ (st : Store) (ma : Bool) (bytes : Bytes),
      TlvInv D st → VsaInv D st →
      (scanRegion D fuel bytes = ScanR.short →
        decodeAttrsLoop D fuel st ma bytes =
          .error (.packetError "Attribute length is too small")) ∧
      (scanRegion D fuel bytes = ScanR.ok →
        ∃ st2 ma2, decodeAttrsLoop D fuel st ma bytes = .ok (st2, ma2)) := by
  induction fuel with
  | zero =>
    intro st ma bytes ht hv
    match bytes with
    | [] =>
      refine ⟨fun h => ?_, fun _ => ⟨st, ma, rfl⟩⟩
      simp [scanRegion] at h
    | b :: rest =>
      refine ⟨fun h => ?_, fun h => ?_⟩ <;> simp [scanRegion] at h
  | succ fuel ih =>
    intro st ma bytes ht hv
    match bytes with
    | [] =>
      refine ⟨fun h => ?_, fun _ => ⟨st, ma, rfl⟩⟩
      simp [scanRegion] at h
    | [x] =>
      refine ⟨fun h => ?_, fun h => ?_⟩ <;> simp [scanRegion] at h
    | key :: attrlen :: rest =>
      by_cases hlen : attrlen < 2
      · refine ⟨fun h => ?_, fun h => ?_⟩
        · simp [decodeAttrsLoop, hlen]
        · simp [scanRegion, hlen] at h
      · by_cases h26 : key = 26
        · by_cases hben : (vsaBenign D (rest.take (attrlen - 2)) &&
              vsaSafe D (rest.take (attrlen - 2))) = true
          · have hb := hben
            rw [Bool.and_eq_true] at hb
            have hb1 := hb.1
            have hb2 := hb.2
            obtain ⟨st2, pairs, hvsa⟩ :=
              pktDecodeVendorAttr_benign D st (rest.take (attrlen - 2)) hb1
            have hsafe := pktDecodeVendorAttr_safe D st (rest.take (attrlen - 2)) hb2
            rw [hvsa] at hsafe
            have ht2 : TlvInv D st2 := by
              have h0 := tlvInv_pktDecodeVendorAttr D
                ((rest.take (attrlen - 2)).length + 1) st (rest.take (attrlen - 2)) ht
              rw [hvsa] at h0
              exact h0
            have hv2 : VsaInv D st2 := by
              have h0 := vsaInv_pktDecodeVendorAttr D
                ((rest.take (attrlen - 2)).length + 1) st (rest.take (attrlen - 2)) hv
              rw [hvsa] at h0
              exact h0
            have hps2 : ∀ p ∈ pairs, p.1 = AttrKey.num 26 ∨ ∀ c, p.1 ≠ AttrKey.num c := by
              intro q hq
              rcases hsafe q hq with hk | ⟨vendor, c, hk, -⟩
              · exact Or.inl hk
              · refine Or.inr fun c2 hc => ?_
                rw [hk] at hc
                cases hc
            have hchk : appendPairsChk st2 pairs = .ok (appendPairs st2 pairs) :=
              appendPairsChk_eq D pairs st2 hv2 hsafe
            have ht3 : TlvInv D (appendPairs st2 pairs) :=
              tlvInv_appendPairs D st2 pairs ht2 hps2
            have hv3 : VsaInv D (appendPairs st2 pairs) :=
              vsaInv_appendPairs D st2 pairs hv2
            obtain ⟨hshort, hok⟩ := ih (appendPairs st2 pairs) ma
              ((key :: attrlen :: rest).drop attrlen) ht3 hv3
            refine ⟨fun h => ?_, fun h => ?_⟩
            · have h2 : scanRegion D fuel ((key :: attrlen :: rest).drop attrlen) =
                  ScanR.short := by
                simp only [scanRegion, if_neg hlen] at h
                rw [if_pos h26, if_pos hben] at h
                exact h
              simp only [decodeAttrsLoop, if_neg hlen, if_pos h26, hvsa, hchk]
              exact hshort h2
            · have h2 : scanRegion D fuel ((key :: attrlen :: rest).drop attrlen) =
                  ScanR.ok := by
                simp only [scanRegion, if_neg hlen] at h
                rw [if_pos h26, if_pos hben] at h
                exact h
              obtain ⟨st4, ma4, hd⟩ := hok h2
              refine ⟨st4, ma4, ?_⟩
              simp only [decodeAttrsLoop, if_neg hlen, if_pos h26, hvsa, hchk]
              exact hd
          · refine ⟨fun h => ?_, fun h => ?_⟩ <;>
              · simp only [scanRegion, if_neg hlen] at h
                rw [if_pos h26, if_neg hben] at h
                cases h
        · by_cases h80 : key = 80
          · have ht2 : TlvInv D (storeAppend st (.num 80) (rest.take (attrlen - 2))) :=
              tlvInv_storeAppend_num D st 80 _ ht (Or.inl rfl)
            have hv2 : VsaInv D (storeAppend st (.num 80) (rest.take (attrlen - 2))) :=
              vsaInv_storeAppend D st _ _ hv
            obtain ⟨hshort, hok⟩ := ih _ true
              ((key :: attrlen :: rest).drop attrlen) ht2 hv2
            refine ⟨fun h => ?_, fun h => ?_⟩
            · have h2 : scanRegion D fuel ((key :: attrlen :: rest).drop attrlen) =
                  ScanR.short := by
                simp only [scanRegion, if_neg hlen] at h
                rw [if_neg h26, if_pos h80] at h
                exact h
              simp only [decodeAttrsLoop, if_neg hlen]
              rw [if_neg h26, if_pos h80]
              exact hshort h2
            · have h2 : scanRegion D fuel ((key :: attrlen :: rest).drop attrlen) =
                  ScanR.ok := by
                simp only [scanRegion, if_neg hlen] at h
                rw [if_neg h26, if_pos h80] at h
                exact h
              obtain ⟨st4, ma4, hd⟩ := hok h2
              refine ⟨st4, ma4, ?_⟩
              simp only [decodeAttrsLoop, if_neg hlen]
              rw [if_neg h26, if_pos h80]
              exact hd
          · by_cases htlv : D.isTlvKey (.num key) = true
            · have hne := ht key h26 h80 htlv
              match hgts : getTlvSub st (.num key) with
              | none => exact absurd hgts hne
              | some sub =>
                match hchk2 : subCheck ((rest.take (attrlen - 2)).length + 1)
                    (rest.take (attrlen - 2)) with
                | .done =>
                  obtain ⟨sub2, hsub⟩ := pktDecodeTlvAttr_done
                    ((rest.take (attrlen - 2)).length + 1) (rest.take (attrlen - 2))
                    sub hchk2
                  have ht2 : TlvInv D (setTlvSub st (.num key) sub2) :=
                    tlvInv_setTlvSub D st _ _ ht
                  have hv2 : VsaInv D (setTlvSub st (.num key) sub2) := by
                    refine vsaInv_setTlvSub D st _ sub2 hv ?_ ?_
                    · intro hk
                      injection hk with hk
                      exact h26 hk
                    · intro vendor c hk
                      cases hk
                  obtain ⟨hshort, hok⟩ := ih (setTlvSub st (.num key) sub2) ma
                    ((key :: attrlen :: rest).drop attrlen) ht2 hv2
                  refine ⟨fun h => ?_, fun h => ?_⟩
                  · have h2 : scanRegion D fuel ((key :: attrlen :: rest).drop attrlen) =
                        ScanR.short := by
                      simp only [scanRegion, if_neg hlen] at h
                      rw [if_neg h26, if_neg h80, if_pos htlv, hchk2] at h
                      exact h
                    simp only [decodeAttrsLoop, if_neg hlen]
                    rw [if_neg h26, if_neg h80, if_pos htlv, hgts]
                    simp only [hsub]
                    exact hshort h2
                  · have h2 : scanRegion D fuel ((key :: attrlen :: rest).drop attrlen) =
                        ScanR.ok := by
                      simp only [scanRegion, if_neg hlen] at h
                      rw [if_neg h26, if_neg h80, if_pos htlv, hchk2] at h
                      exact h
                    obtain ⟨st4, ma4, hd⟩ := hok h2
                    refine ⟨st4, ma4, ?_⟩
                    simp only [decodeAttrsLoop, if_neg hlen]
                    rw [if_neg h26, if_neg h80, if_pos htlv, hgts]
                    simp only [hsub]
                    exact hd
                | .crash =>
                  refine ⟨fun h => ?_, fun h => ?_⟩ <;>
                    · simp only [scanRegion, if_neg hlen] at h
                      rw [if_neg h26, if_neg h80, if_pos htlv, hchk2] at h
                      simp at h
                | .hang =>
                  refine ⟨fun h => ?_, fun h => ?_⟩ <;>
                    · simp only [scanRegion, if_neg hlen] at h
                      rw [if_neg h26, if_neg h80, if_pos htlv, hchk2] at h
                      simp at h
            · have ht2 : TlvInv D (storeAppend st (.num key) (rest.take (attrlen - 2))) :=
                tlvInv_storeAppend_num D st key _ ht (Or.inr (Bool.eq_false_iff.mpr htlv))
              have hv2 : VsaInv D (storeAppend st (.num key) (rest.take (attrlen - 2))) :=
                vsaInv_storeAppend D st _ _ hv
              obtain ⟨hshort, hok⟩ := ih _ ma
                ((key :: attrlen :: rest).drop attrlen) ht2 hv2
              refine ⟨fun h => ?_, fun h => ?_⟩
              · have h2 : scanRegion D fuel ((key :: attrlen :: rest).drop attrlen) =
                    ScanR.short := by
                  simp only [scanRegion, if_neg hlen] at h
                  rw [if_neg h26, if_neg h80, if_neg htlv] at h
                  exact h
                simp only [decodeAttrsLoop, if_neg hlen]
                rw [if_neg h26, if_neg h80, if_neg htlv]
                exact hshort h2
              · have h2 : scanRegion D fuel ((key :: attrlen :: rest).drop attrlen) =
                    ScanR.ok := by
                  simp only [scanRegion, if_neg hlen] at h
                  rw [if_neg h26, if_neg h80, if_neg htlv] at h
                  exact h
                obtain ⟨st4, ma4, hd⟩ := hok h2
                refine ⟨st4, ma4, ?_⟩
                simp only [decodeAttrsLoop, if_neg hlen]
                rw [if_neg h26, if_neg h80, if_neg htlv]
                exact hd

/-- C5: `decode_packet` raises `PacketError('Packet header is corrupt')` on a
datagram shorter than 20 octets, `PacketError('Packet has invalid length')`
when the declared length differs from the actual octet count,
`PacketError('Packet length is too long')` when the length exceeds 4096, and
`PacketError('Attribute length is too small')` when the record traversal
reaches an attribute whose length byte is below 2; when the record region
scans as benign (`ScanR.ok`) it returns without raising. -/
theorem c5_decode_errors (D : RDict) (pkt : Bytes) :
    (pkt.length < 20 →
      decodePacket D pkt = .error (.packetError "Packet header is corrupt")) ∧
    (¬ pkt.length < 20 → pkt.length ≠ pkt.getD 2 0 * 256 + pkt.getD 3 0 →
      decodePacket D pkt = .error (.packetError "Packet has invalid length")) ∧
    (¬ pkt.length < 20 → pkt.length = pkt.getD 2 0 * 256 + pkt.getD 3 0 →
      4096 < pkt.getD 2 0 * 256 + pkt.getD 3 0 →
      decodePacket D pkt = .error (.packetError "Packet length is too long")) ∧
    (¬ pkt.length < 20 → pkt.length = pkt.getD 2 0 * 256 + pkt.getD 3 0 →
      ¬ 4096 < pkt.getD 2 0 * 256 + pkt.getD 3 0 →
      scanRegion D pkt.length (pkt.drop 20) = ScanR.short →
      decodePacket D pkt = .error (.packetError "Attribute length is too small")) ∧
    (¬ pkt.length < 20 → pkt.length = pkt.getD 2 0 * 256 + pkt.getD 3 0 →
      ¬ 4096 < pkt.getD 2 0 * 256 + pkt.getD 3 0 →
      scanRegion D pkt.length (pkt.drop 20) = ScanR.ok →
      ∃ d, decodePacket D pkt = .ok d) := by
  have hinvT : TlvInv D [] := fun c _ _ _ => by simp [getTlvSub]
  have hinvV : VsaInv D [] :=
    ⟨fun m h => by simp [storeFind] at h, fun v c m h => by simp [storeFind] at h⟩
  refine ⟨fun h1 => by simp [decodePacket, h1], fun h1 h2 => ?_, fun h1 h2 h3 => ?_,
    fun h1 h2 h3 h4 => ?_, fun h1 h2 h3 h4 => ?_⟩
  · simp only [decodePacket, if_neg h1]
    rw [if_pos h2]
  · simp only [decodePacket, if_neg h1]
    rw [if_neg (fun hc => hc h2), if_pos h3]
  · have hd := (decodeAttrsLoop_scan D pkt.length [] false (pkt.drop 20) hinvT hinvV).1 h4
    simp only [decodePacket, if_neg h1]
    rw [if_neg (fun hc => hc h2), if_neg h3, hd]
  · obtain ⟨st2, ma2, hd⟩ :=
      (decodeAttrsLoop_scan D pkt.length [] false (pkt.drop 20) hinvT hinvV).2 h4
    refine ⟨⟨pkt.getD 0 0, pkt.getD 1 0, sl pkt 4 20, st2, ma2⟩, ?_⟩
    simp only [decodePacket, if_neg h1]
    rw [if_neg (fun hc => hc h2), if_neg h3, hd]

/-- Witness: C5 instantiated over the test dictionary at a 19-octet datagram,
a 21-octet datagram declaring length 0, a 4097-octet datagram declaring its
own length, a datagram with an attribute of length byte 1, and a valid
datagram carrying User-Name. -/
theorem c5_decode_errors_witness :
    decodePacket Dtest (List.replicate 19 0) =
      .error (.packetError "Packet header is corrupt") ∧
    decodePacket Dtest (List.replicate 21 0) =
      .error (.packetError "Packet has invalid length") ∧
    decodePacket Dtest ([0, 0, 16, 1] ++ List.replicate 4093 0) =
      .error (.packetError "Packet length is too long") ∧
    decodePacket Dtest ([0, 0, 0, 22] ++ List.replicate 16 0 ++ [1, 1]) =
      .error (.packetError "Attribute length is too small") ∧
    ∃ d, decodePacket Dtest ([0, 0, 0, 23] ++ List.replicate 16 0 ++ [1, 3, 120]) =
      .ok d := by
  refine ⟨(c5_decode_errors Dtest _).1 (by decide),
    (c5_decode_errors Dtest _).2.1 (by decide) (by decide),
    (c5_decode_errors Dtest _).2.2.1
      (by
        rw [List.length_append, List.length_replicate,
          show ([0, 0, 16, 1] : List Nat).length = 4 from rfl]
        decide)
      (by
        rw [List.length_append, List.length_replicate,
          show ([0, 0, 16, 1] : List Nat).length = 4 from rfl]
        rfl)
      (by decide),
    (c5_decode_errors Dtest _).2.2.2.1 (by decide) (by decide) (by decide) (by decide),
    (c5_decode_errors Dtest _).2.2.2.2 (by decide) (by decide) (by decide) (by decide)⟩

/-! ## Round trip (encode then decode).

The encoded attribute stream is a concatenation of `Type | Length | Value`
records; the decode loop consumes exactly one record (and one unit of fuel)
per iteration.  The step lemmas below evaluate one iteration on one encoded
record, the entry lemmas chain them over one store entry, and the main
theorem chains entries over a well-formed store. -/

theorem drop_cons2 (a b : Nat) (l : Bytes) (n : Nat) :
    (a :: b :: l).drop (n + 2) = l.drop n := rfl

theorem take_rec (v tail : Bytes) : (v ++ tail).take (v.length + 2 - 2) = v := by
  rw [Nat.add_sub_cancel]
  exact List.take_left v tail

theorem drop_rec (a b : Nat) (v tail : Bytes) :
    (a :: b :: (v ++ tail)).drop (v.length + 2) = tail := by
  rw [drop_cons2, List.drop_left]

/-- The byte stream of a list of tlv sub-records. -/
def subRecsEnc : List (Nat × Bytes) → Bytes
  | [] => []
  | (c, d) :: rs => c :: (d.length + 2) :: (d ++ subRecsEnc rs)

/-- The sub-records of instance `i` of a tlv map. -/
def instRecs (m : List (Nat × List Bytes)) (i : Nat) : List (Nat × Bytes) :=
  m.filterMap (fun p => (p.2[i]?).map (fun d => (p.1, d)))

/-- The fold `_pkt_decode_tlv_attribute` performs over a record list. -/
def subAppendRecs (sub : List (Nat × List Bytes)) (rs : List (Nat × Bytes)) :
    List (Nat × List Bytes) :=
  rs.foldl (fun s p => subAppend s p.1 p.2) sub

theorem subRecsEnc_append (rs1 rs2 : List (Nat × Bytes)) :
    subRecsEnc (rs1 ++ rs2) = subRecsEnc rs1 ++ subRecsEnc rs2 := by
  induction rs1 with
  | nil => rfl
  | cons p rest ih =>
    obtain ⟨c, d⟩ := p
    simp [subRecsEnc, ih]

/-- The tlv sub-attribute loop on an encoded record list: clean end, one
`subAppend` per record. -/
theorem pktDecodeTlvAttr_recs :
    ∀ (rs : List (Nat × Bytes)) (sub : List (Nat × List Bytes)) (fuel : Nat),
    (subRecsEnc rs).length < fuel →
    pktDecodeTlvAttr fuel sub (subRecsEnc rs) = (subAppendRecs sub rs, none) := by
  intro rs
  induction rs with
  | nil =>
    intro sub fuel h
    match fuel, h with
    | f + 1, _ => rfl
  | cons p rest ih =>
    obtain ⟨c, d⟩ := p
    intro sub fuel h
    match fuel, h with
    | f + 1, h =>
      simp only [subRecsEnc] at h ⊢
      simp only [pktDecodeTlvAttr]
      rw [take_rec, drop_rec]
      rw [ih (subAppend sub c d) f (by
        simp only [subRecsEnc, List.length_cons, List.length_append] at h
        omega)]
      simp [subAppendRecs]

/-- One plain-attribute record. -/
theorem step_plain (D : RDict) (fuel : Nat) (c : Nat) (v tail : Bytes) (acc : Store)
    (ma : Bool) (h26 : c ≠ 26) (h80 : c ≠ 80) (htlv : ¬ D.isTlvKey (.num c) = true) :
    decodeAttrsLoop D (fuel + 1) acc ma (c :: (v.length + 2) :: (v ++ tail)) =
      decodeAttrsLoop D fuel (storeAppend acc (.num c) v) ma tail := by
  simp only [decodeAttrsLoop]
  rw [if_neg (show ¬ v.length + 2 < 2 from by omega), if_neg h26, if_neg h80,
    if_neg htlv, take_rec, drop_rec]

/-- One Message-Authenticator record. -/
theorem step_ma (D : RDict) (fuel : Nat) (v tail : Bytes) (acc : Store) (ma : Bool) :
    decodeAttrsLoop D (fuel + 1) acc ma (80 :: (v.length + 2) :: (v ++ tail)) =
      decodeAttrsLoop D fuel (storeAppend acc (.num 80) v) true tail := by
  simp only [decodeAttrsLoop]
  rw [if_neg (show ¬ v.length + 2 < 2 from by omega),
    if_neg (show (80 : Nat) ≠ 26 from by decide), if_pos trivial, take_rec, drop_rec]

theorem vsaBlob_length (vend c : Nat) (v : Bytes) :
    (pack32 vend ++ c :: (v.length + 2) :: v).length = v.length + 6 := by
  rw [List.length_append, pack32_length]
  simp only [List.length_cons]
  omega

/-- The vendor decoder on one encoded non-tlv VSA. -/
theorem pktDecodeVendorAttr_one (D : RDict) (acc : Store) (vend c : Nat) (v : Bytes)
    (hv : vend < 4294967296)
    (htlv : ¬ D.isTlvKey (.vsa vend c) = true) :
    pktDecodeVendorAttr D ((pack32 vend ++ c :: (v.length + 2) :: v).length + 1) acc
      (pack32 vend ++ c :: (v.length + 2) :: v) = (acc, [(.vsa vend c, v)], none) := by
  have hlen := vsaBlob_length vend c v
  have htake4 : (pack32 vend ++ c :: (v.length + 2) :: v).take 4 = pack32 vend :=
    List.take_left' (pack32_length vend)
  have hg4 : (pack32 vend ++ c :: (v.length + 2) :: v).getD 4 0 = c := rfl
  have hg5 : (pack32 vend ++ c :: (v.length + 2) :: v).getD 5 0 = v.length + 2 := rfl
  have hsl : sl (pack32 vend ++ c :: (v.length + 2) :: v) 6 (v.length + 2 + 4) = v := by
    simp only [sl]
    rw [show (pack32 vend ++ c :: (v.length + 2) :: v).drop 6 = v from rfl]
    rw [show v.length + 2 + 4 - 6 = v.length from by omega]
    exact List.take_length _
  simp only [pktDecodeVendorAttr]
  rw [if_neg (show ¬ (pack32 vend ++ c :: (v.length + 2) :: v).length < 6 from by
    rw [hlen]; omega)]
  rw [htake4, unpack32_pack32 vend hv, hg4, hg5, if_neg htlv, hsl]
  rw [show (4 : Nat) + (v.length + 2) = v.length + 6 from by omega]
  simp only [vsaLoop]
  rw [if_pos (show (pack32 vend ++ c :: (v.length + 2) :: v).length ≤ v.length + 6 from by
    rw [hlen])]

/-- The vendor decoder on one encoded tlv-typed VSA. -/
theorem pktDecodeVendorAttr_oneTlv (D : RDict) (acc : Store) (vend c : Nat) (avp : Bytes)
    (sub sub2 : List (Nat × List Bytes))
    (hv : vend < 4294967296)
    (htlv : D.isTlvKey (.vsa vend c) = true)
    (hgts : getTlvSub acc (.vsa vend c) = some sub)
    (hdec : pktDecodeTlvAttr ((pack32 vend ++ c :: (avp.length + 2) :: avp).length + 1)
      sub avp = (sub2, none)) :
    pktDecodeVendorAttr D ((pack32 vend ++ c :: (avp.length + 2) :: avp).length + 1) acc
      (pack32 vend ++ c :: (avp.length + 2) :: avp) =
      (setTlvSub acc (.vsa vend c) sub2, [], none) := by
  have hlen := vsaBlob_length vend c avp
  have htake4 : (pack32 vend ++ c :: (avp.length + 2) :: avp).take 4 = pack32 vend :=
    List.take_left' (pack32_length vend)
  have hg4 : (pack32 vend ++ c :: (avp.length + 2) :: avp).getD 4 0 = c := rfl
  have hg5 : (pack32 vend ++ c :: (avp.length + 2) :: avp).getD 5 0 = avp.length + 2 := rfl
  have hsl : sl (pack32 vend ++ c :: (avp.length + 2) :: avp) 6 (avp.length + 2 + 4) = avp := by
    simp only [sl]
    rw [show (pack32 vend ++ c :: (avp.length + 2) :: avp).drop 6 = avp from rfl]
    rw [show avp.length + 2 + 4 - 6 = avp.length from by omega]
    exact List.take_length _
  simp only [pktDecodeVendorAttr]
  rw [if_neg (show ¬ (pack32 vend ++ c :: (avp.length + 2) :: avp).length < 6 from by
    rw [hlen]; omega)]
  rw [htake4, unpack32_pack32 vend hv, hg4, hg5, if_pos htlv, hgts]
  simp only [hsl, hdec]
  rw [show (4 : Nat) + (avp.length + 2) = avp.length + 6 from by omega]
  simp only [vsaLoop]
  rw [if_pos (show (pack32 vend ++ c :: (avp.length + 2) :: avp).length ≤ avp.length + 6 from by
    rw [hlen])]

theorem appendPairsChk_single (acc : Store) (k : AttrKey) (v : Bytes)
    (hfind : ∀ mm, storeFind acc k ≠ some (.tlvm mm)) :
    appendPairsChk acc [(k, v)] = .ok (storeAppend acc k v) := by
  simp only [appendPairsChk]
  match hf : storeFind acc k with
  | none => rfl
  | some (.vals l) => rfl
  | some (.tlvm mm) => exact absurd hf (hfind mm)

/-- One encoded non-tlv VSA record at the top level. -/
theorem step_vsa (D : RDict) (fuel : Nat) (vend c : Nat) (v tail : Bytes) (acc : Store)
    (ma : Bool)
    (hv : vend < 4294967296)
    (htlv : ¬ D.isTlvKey (.vsa vend c) = true)
    (hfind : ∀ mm, storeFind acc (.vsa vend c) ≠ some (.tlvm mm)) :
    decodeAttrsLoop D (fuel + 1) acc ma
      (26 :: (v.length + 8) :: ((pack32 vend ++ c :: (v.length + 2) :: v) ++ tail)) =
      decodeAttrsLoop D fuel (storeAppend acc (.vsa vend c) v) ma tail := by
  have hlen := vsaBlob_length vend c v
  simp only [decodeAttrsLoop]
  rw [if_neg (show ¬ v.length + 8 < 2 from by omega), if_pos trivial]
  rw [show v.length + 8 - 2 = (pack32 vend ++ c :: (v.length + 2) :: v).length from by
    rw [hlen]; try omega]
  rw [List.take_left]
  simp only [pktDecodeVendorAttr_one D acc vend c v hv htlv,
    appendPairsChk_single acc (AttrKey.vsa vend c) v hfind]
  rw [show v.length + 8 = (pack32 vend ++ c :: (v.length + 2) :: v).length + 2 from by
    rw [hlen]; try omega, drop_rec]

/-- One encoded tlv parent AVP record at a plain key. -/
theorem step_tlv_num (D : RDict) (fuel : Nat) (c : Nat) (avp tail : Bytes) (acc : Store)
    (ma : Bool) (sub sub2 : List (Nat × List Bytes))
    (h26 : c ≠ 26) (h80 : c ≠ 80) (htlv : D.isTlvKey (.num c) = true)
    (hgts : getTlvSub acc (.num c) = some sub)
    (hdec : pktDecodeTlvAttr (avp.length + 1) sub avp = (sub2, none)) :
    decodeAttrsLoop D (fuel + 1) acc ma (c :: (avp.length + 2) :: (avp ++ tail)) =
      decodeAttrsLoop D fuel (setTlvSub acc (.num c) sub2) ma tail := by
  simp only [decodeAttrsLoop]
  rw [if_neg (show ¬ avp.length + 2 < 2 from by omega), if_neg h26, if_neg h80,
    if_pos htlv, take_rec, drop_rec, hgts]
  simp only [hdec]

/-- One encoded tlv parent AVP record at a vendor key (26-wrapped). -/
theorem step_tlv_vsa (D : RDict) (fuel : Nat) (vend c : Nat) (avp tail : Bytes)
    (acc : Store) (ma : Bool) (sub sub2 : List (Nat × List Bytes))
    (hv : vend < 4294967296)
    (htlv : D.isTlvKey (.vsa vend c) = true)
    (hgts : getTlvSub acc (.vsa vend c) = some sub)
    (hdec : pktDecodeTlvAttr ((pack32 vend ++ c :: (avp.length + 2) :: avp).length + 1)
      sub avp = (sub2, none)) :
    decodeAttrsLoop D (fuel + 1) acc ma
      (26 :: (avp.length + 8) :: ((pack32 vend ++ c :: (avp.length + 2) :: avp) ++ tail)) =
      decodeAttrsLoop D fuel (setTlvSub acc (.vsa vend c) sub2) ma tail := by
  have hlen := vsaBlob_length vend c avp
  simp only [decodeAttrsLoop]
  rw [if_neg (show ¬ avp.length + 8 < 2 from by omega), if_pos trivial]
  rw [show avp.length + 8 - 2 = (pack32 vend ++ c :: (avp.length + 2) :: avp).length from by
    rw [hlen]; try omega]
  rw [List.take_left]
  simp only [pktDecodeVendorAttr_oneTlv D acc vend c avp sub sub2 hv htlv hgts hdec]
  simp only [appendPairsChk]
  rw [show avp.length + 8 = (pack32 vend ++ c :: (avp.length + 2) :: avp).length + 2 from by
    rw [hlen]; try omega, drop_rec]

theorem storeFind_append_ne (st : Store) (k k2 : AttrKey) (w : AttrVal) (h : k2 ≠ k) :
    storeFind (st ++ [(k, w)]) k2 = storeFind st k2 := by
  induction st with
  | nil =>
    simp only [List.nil_append, storeFind]
    rw [if_neg (fun hh => h hh.symm)]
  | cons e rest ih =>
    obtain ⟨k', w'⟩ := e
    simp only [List.cons_append, storeFind, List.append_eq]
    by_cases he : k' = k2
    · rw [if_pos he, if_pos he]
    · rw [if_neg he, if_neg he, ih]

theorem storeAppend_fresh (st : Store) (k : AttrKey) (v : Bytes)
    (h : storeFind st k = none) : storeAppend st k v = st ++ [(k, .vals [v])] := by
  induction st with
  | nil => rfl
  | cons e rest ih =>
    obtain ⟨k', w'⟩ := e
    simp only [storeFind] at h
    by_cases he : k' = k
    · rw [if_pos he] at h
      cases h
    · rw [if_neg he] at h
      simp only [storeAppend, if_neg he, List.cons_append]
      rw [ih h]

theorem storeAppend_last_vals (st : Store) (k : AttrKey) (l : List Bytes) (v : Bytes)
    (h : storeFind st k = none) :
    storeAppend (st ++ [(k, .vals l)]) k v = st ++ [(k, .vals (l ++ [v]))] := by
  induction st with
  | nil => simp [storeAppend]
  | cons e rest ih =>
    obtain ⟨k', w'⟩ := e
    simp only [storeFind] at h
    by_cases he : k' = k
    · rw [if_pos he] at h
      cases h
    · rw [if_neg he] at h
      simp only [List.cons_append, storeAppend, if_neg he, List.append_eq]
      rw [ih h]

theorem getTlvSub_fresh (st : Store) (k : AttrKey) (h : storeFind st k = none) :
    getTlvSub st k = some [] := by
  induction st with
  | nil => rfl
  | cons e rest ih =>
    obtain ⟨k', w'⟩ := e
    simp only [storeFind] at h
    by_cases he : k' = k
    · rw [if_pos he] at h
      cases h
    · rw [if_neg he] at h
      simp only [getTlvSub, if_neg he]
      exact ih h

theorem getTlvSub_last_tlvm (st : Store) (k : AttrKey) (s : List (Nat × List Bytes))
    (h : storeFind st k = none) :
    getTlvSub (st ++ [(k, .tlvm s)]) k = some s := by
  induction st with
  | nil => simp [getTlvSub]
  | cons e rest ih =>
    obtain ⟨k', w'⟩ := e
    simp only [storeFind] at h
    by_cases he : k' = k
    · rw [if_pos he] at h
      cases h
    · rw [if_neg he] at h
      simp only [List.cons_append, getTlvSub, if_neg he, List.append_eq]
      exact ih h

theorem setTlvSub_fresh (st : Store) (k : AttrKey) (s : List (Nat × List Bytes))
    (h : storeFind st k = none) :
    setTlvSub st k s = st ++ [(k, .tlvm s)] := by
  induction st with
  | nil => rfl
  | cons e rest ih =>
    obtain ⟨k', w'⟩ := e
    simp only [storeFind] at h
    by_cases he : k' = k
    · rw [if_pos he] at h
      cases h
    · rw [if_neg he] at h
      simp only [setTlvSub, if_neg he, List.cons_append]
      rw [ih h]

theorem setTlvSub_last (st : Store) (k : AttrKey) (s s2 : List (Nat × List Bytes))
    (h : storeFind st k = none) :
    setTlvSub (st ++ [(k, .tlvm s)]) k s2 = st ++ [(k, .tlvm s2)] := by
  induction st with
  | nil => simp [setTlvSub]
  | cons e rest ih =>
    obtain ⟨k', w'⟩ := e
    simp only [storeFind] at h
    by_cases he : k' = k
    · rw [if_pos he] at h
      cases h
    · rw [if_neg he] at h
      simp only [List.cons_append, setTlvSub, if_neg he, List.append_eq]
      rw [ih h]

theorem subAppend_fresh (s : List (Nat × List Bytes)) (c : Nat) (v : Bytes)
    (h : ∀ q ∈ s, q.1 ≠ c) : subAppend s c v = s ++ [(c, [v])] := by
  induction s with
  | nil => rfl
  | cons q rest ih =>
    obtain ⟨c', l⟩ := q
    have hc : c' ≠ c := h (c', l) (by simp)
    simp only [subAppend, if_neg hc, List.cons_append]
    rw [ih (fun q hq => h q (by simp [hq]))]

theorem subAppend_mid (s1 s2 : List (Nat × List Bytes)) (c : Nat) (L : List Bytes)
    (v : Bytes) (h : ∀ q ∈ s1, q.1 ≠ c) :
    subAppend (s1 ++ (c, L) :: s2) c v = s1 ++ (c, L ++ [v]) :: s2 := by
  induction s1 with
  | nil => simp [subAppend]
  | cons q rest ih =>
    obtain ⟨c', l⟩ := q
    have hc : c' ≠ c := h (c', l) (by simp)
    simp only [List.cons_append, subAppend, if_neg hc, List.append_eq]
    rw [ih (fun q hq => h q (by simp [hq]))]

theorem subAppendRecs_append (sub : List (Nat × List Bytes)) (rs1 rs2 : List (Nat × Bytes)) :
    subAppendRecs sub (rs1 ++ rs2) = subAppendRecs (subAppendRecs sub rs1) rs2 := by
  simp [subAppendRecs, List.foldl_append]

/-- The greedy packing loop groups whole instance record lists and preserves
their concatenation. -/
theorem tlvSplit_structure :
    ∀ (rss gacc : List (List (Nat × Bytes))) (curr : List (Nat × Bytes)),
    ∃ groups : List (List (Nat × Bytes)),
      tlvSplit (rss.map subRecsEnc) (gacc.map subRecsEnc) (subRecsEnc curr) =
        groups.map subRecsEnc ∧
      groups.flatten = gacc.flatten ++ curr ++ rss.flatten := by
  intro rss
  induction rss with
  | nil =>
    intro gacc curr
    refine ⟨gacc ++ [curr], ?_, ?_⟩
    · simp [tlvSplit]
    · simp
  | cons rs rss ih =>
    intro gacc curr
    simp only [List.map_cons, tlvSplit]
    by_cases hlen : (subRecsEnc rs).length + (subRecsEnc curr).length < 245
    · rw [if_pos hlen]
      obtain ⟨groups, h1, h2⟩ := ih gacc (curr ++ rs)
      rw [subRecsEnc_append] at h1
      refine ⟨groups, h1, ?_⟩
      rw [h2]
      simp
    · rw [if_neg hlen]
      obtain ⟨groups, h1, h2⟩ := ih (gacc ++ [curr]) rs
      refine ⟨groups, ?_, ?_⟩
      · rw [show gacc.map subRecsEnc ++ [subRecsEnc curr] =
          (gacc ++ [curr]).map subRecsEnc from by simp]
        exact h1
      · rw [h2]
        simp

/-- `m` truncated to the first `i` values of every sub-code. -/
def mTake (m : List (Nat × List Bytes)) (i : Nat) : List (Nat × List Bytes) :=
  m.map (fun p => (p.1, p.2.take i))

theorem instStep (i : Nat) :
    ∀ (m2 acc : List (Nat × List Bytes)),
    (∀ p ∈ m2, ∀ q ∈ acc, q.1 ≠ p.1) →
    nodupSubKeys m2 = true →
    subAppendRecs (acc ++ mTake m2 i) (instRecs m2 i) = acc ++ mTake m2 (i + 1) := by
  intro m2
  induction m2 with
  | nil =>
    intro acc _ _
    simp [mTake, instRecs, subAppendRecs]
  | cons p rest ih =>
    obtain ⟨c, l⟩ := p
    intro acc hfresh hnodup
    simp only [nodupSubKeys, Bool.and_eq_true] at hnodup
    have hany := hnodup.1
    rw [Bool.not_eq_true'] at hany
    rw [List.any_eq_false] at hany
    have hrest : ∀ q ∈ rest, q.1 ≠ c := by
      intro q hq hqc
      exact hany q hq (by simp [hqc])
    have haccc : ∀ q ∈ acc, q.1 ≠ c := fun q hq => hfresh (c, l) (by simp) q hq
    simp only [instRecs, List.filterMap_cons]
    cases hl : l[i]? with
    | some d =>
      simp only [Option.map_some']
      simp only [mTake, List.map_cons, subAppendRecs, List.foldl_cons]
      rw [show subAppend (acc ++ (c, l.take i) :: List.map (fun p => (p.1, p.2.take i)) rest)
          c d = acc ++ (c, l.take i ++ [d]) :: List.map (fun p => (p.1, p.2.take i)) rest from
        subAppend_mid acc _ c (l.take i) d haccc]
      rw [show l.take i ++ [d] = l.take (i + 1) from by rw [List.take_succ, hl]; rfl]
      rw [show acc ++ (c, l.take (i + 1)) :: List.map (fun p => (p.1, p.2.take i)) rest =
        (acc ++ [(c, l.take (i + 1))]) ++ mTake rest i from by simp [mTake]]
      have hfresh2 : ∀ p ∈ rest, ∀ q ∈ acc ++ [(c, l.take (i + 1))], q.1 ≠ p.1 := by
        intro p hp q hq
        rcases List.mem_append.mp hq with hq | hq
        · exact hfresh p (by simp [hp]) q hq
        · rw [List.mem_singleton] at hq
          subst hq
          exact fun hc => hrest p hp hc.symm
      have hstep := ih (acc ++ [(c, l.take (i + 1))]) hfresh2 hnodup.2
      simp only [subAppendRecs, instRecs] at hstep
      rw [hstep]
      simp [mTake]
    | none =>
      have hle : l.length ≤ i := List.getElem?_eq_none_iff.mp hl
      simp only [Option.map_none']
      simp only [mTake, List.map_cons]
      rw [show l.take i = l.take (i + 1) from by
        rw [List.take_of_length_le hle, List.take_of_length_le (by omega)]]
      rw [show acc ++ (c, l.take (i + 1)) :: List.map (fun p => (p.1, p.2.take i)) rest =
        (acc ++ [(c, l.take (i + 1))]) ++ mTake rest i from by simp [mTake]]
      have hfresh2 : ∀ p ∈ rest, ∀ q ∈ acc ++ [(c, l.take (i + 1))], q.1 ≠ p.1 := by
        intro p hp q hq
        rcases List.mem_append.mp hq with hq | hq
        · exact hfresh p (by simp [hp]) q hq
        · rw [List.mem_singleton] at hq
          subst hq
          exact fun hc => hrest p hp hc.symm
      have hstep := ih (acc ++ [(c, l.take (i + 1))]) hfresh2 hnodup.2
      simp only [instRecs] at hstep
      rw [hstep]
      simp [mTake]

theorem instFold0 :
    ∀ (m acc : List (Nat × List Bytes)),
    (∀ p ∈ m, ∀ q ∈ acc, q.1 ≠ p.1) →
    nodupSubKeys m = true →
    (∀ p ∈ m, p.2 ≠ []) →
    subAppendRecs acc (instRecs m 0) = acc ++ mTake m 1 := by
  intro m
  induction m with
  | nil =>
    intro acc _ _ _
    simp [instRecs, subAppendRecs, mTake]
  | cons p rest ih =>
    obtain ⟨c, l⟩ := p
    intro acc hfresh hnodup hne
    simp only [nodupSubKeys, Bool.and_eq_true] at hnodup
    have hany := hnodup.1
    rw [Bool.not_eq_true'] at hany
    rw [List.any_eq_false] at hany
    have hrest : ∀ q ∈ rest, q.1 ≠ c := by
      intro q hq hqc
      exact hany q hq (by simp [hqc])
    have haccc : ∀ q ∈ acc, q.1 ≠ c := fun q hq => hfresh (c, l) (by simp) q hq
    cases l with
    | nil => exact absurd rfl (hne (c, []) (by simp))
    | cons d t =>
      simp only [instRecs, List.filterMap_cons]
      rw [show (d :: t)[0]? = some d from by simp]
      simp only [Option.map_some']
      simp only [subAppendRecs, List.foldl_cons]
      rw [show subAppend acc c d = acc ++ [(c, [d])] from subAppend_fresh acc c d haccc]
      have hfresh2 : ∀ p ∈ rest, ∀ q ∈ acc ++ [(c, [d])], q.1 ≠ p.1 := by
        intro p hp q hq
        rcases List.mem_append.mp hq with hq | hq
        · exact hfresh p (by simp [hp]) q hq
        · rw [List.mem_singleton] at hq
          subst hq
          exact fun hc => hrest p hp hc.symm
      have hstep := ih (acc ++ [(c, [d])]) hfresh2 hnodup.2
        (fun q hq => hne q (by simp [hq]))
      simp only [subAppendRecs, instRecs] at hstep
      rw [hstep]
      simp [mTake]

theorem rangeFold (m : List (Nat × List Bytes))
    (hnodup : nodupSubKeys m = true) (hne : ∀ p ∈ m, p.2 ≠ []) :
    ∀ j, 1 ≤ j →
    subAppendRecs [] (((List.range j).map (instRecs m)).flatten) = mTake m j := by
  intro j
  induction j with
  | zero =>
    intro h
    exact absurd h (by omega)
  | succ j ih =>
    intro _
    by_cases hj : j = 0
    · subst hj
      rw [show List.range 1 = [0] from rfl]
      simp only [List.map_cons, List.map_nil, List.flatten_cons, List.flatten_nil,
        List.append_nil]
      have h0 := instFold0 m [] (by intro p _ q hq; cases hq) hnodup hne
      simpa using h0
    · have hj1 : 1 ≤ j := by omega
      rw [List.range_succ, List.map_append, List.flatten_append, subAppendRecs_append,
        ih hj1]
      simp only [List.map_cons, List.map_nil, List.flatten_cons, List.flatten_nil,
        List.append_nil]
      have hstep := instStep j m [] (by intro p _ q hq; cases hq) hnodup
      simpa using hstep

theorem le_foldl_max_acc (l : List Nat) : ∀ a, a ≤ l.foldl max a := by
  induction l with
  | nil =>
    intro a
    exact le_rfl
  | cons b rest ih =>
    intro a
    simp only [List.foldl_cons]
    exact le_trans (le_max_left a b) (ih (max a b))

theorem mem_le_foldl_max (l : List Nat) : ∀ a x, x ∈ l → x ≤ l.foldl max a := by
  induction l with
  | nil =>
    intro a x h
    cases h
  | cons b rest ih =>
    intro a x h
    simp only [List.foldl_cons]
    rcases List.mem_cons.mp h with rfl | h
    · exact le_trans (le_max_right a x) (le_foldl_max_acc rest (max a x))
    · exact ih (max a b) x h

theorem le_tlvMaxLen (m : List (Nat × List Bytes)) (p : Nat × List Bytes) (hp : p ∈ m) :
    p.2.length ≤ tlvMaxLen m :=
  mem_le_foldl_max _ 0 _ (List.mem_map_of_mem _ hp)

theorem mTake_full (m : List (Nat × List Bytes)) (j : Nat)
    (h : ∀ p ∈ m, p.2.length ≤ j) : mTake m j = m := by
  induction m with
  | nil => rfl
  | cons p rest ih =>
    obtain ⟨c, l⟩ := p
    simp only [mTake, List.map_cons]
    rw [List.take_of_length_le (h (c, l) (by simp))]
    have h2 := ih (fun q hq => h q (by simp [hq]))
    simp only [mTake] at h2
    rw [h2]

/-- The interleaved instance records rebuild the sub-map exactly. -/
theorem subAppendRecs_rebuild (m : List (Nat × List Bytes))
    (hnodup : nodupSubKeys m = true) (hne : ∀ p ∈ m, p.2 ≠ []) (hm : m ≠ []) :
    subAppendRecs [] (((List.range (tlvMaxLen m)).map (instRecs m)).flatten) = m := by
  have h1 : 1 ≤ tlvMaxLen m := by
    match m, hm, hne with
    | p :: rest, _, hne =>
      have hp := hne p (by simp)
      have h2 : 1 ≤ p.2.length := by
        cases hp2 : p.2 with
        | nil => exact absurd hp2 hp
        | cons a t => simp
      exact le_trans h2 (le_tlvMaxLen _ p (by simp))
  rw [rangeFold m hnodup hne (tlvMaxLen m) h1]
  exact mTake_full m (tlvMaxLen m) (fun p hp => le_tlvMaxLen m p hp)

theorem instEnc_eq (m : List (Nat × List Bytes)) (i : Nat) :
    instEnc m i = subRecsEnc (instRecs m i) := by
  induction m with
  | nil => rfl
  | cons p rest ih =>
    obtain ⟨c, l⟩ := p
    simp only [instEnc, instRecs, List.map_cons, List.filterMap_cons]
    cases hl : l[i]? with
    | some d =>
      simp only [Option.map_some', List.flatten_cons]
      simp only [instEnc, instRecs] at ih
      rw [ih]
      simp [pktEncodeAttribute, subRecsEnc]
    | none =>
      simp only [Option.map_none', List.flatten_cons]
      simp only [instEnc, instRecs] at ih
      simp [ih]

/-- The AVPs of `_pkt_encode_tlv` are encodings of grouped instance records
whose concatenation is the full instance-ordered record sequence. -/
theorem pktEncodeTlv_avps (m : List (Nat × List Bytes)) :
    ∃ groups : List (List (Nat × Bytes)),
      tlvSplit ((List.range (tlvMaxLen m)).map (instEnc m)) [] [] =
        groups.map subRecsEnc ∧
      groups.flatten = (((List.range (tlvMaxLen m)).map (instRecs m))).flatten := by
  have hmap : (List.range (tlvMaxLen m)).map (instEnc m) =
      ((List.range (tlvMaxLen m)).map (instRecs m)).map subRecsEnc := by
    rw [List.map_map]
    exact List.map_congr_left (fun i _ => instEnc_eq m i)
  rw [hmap]
  obtain ⟨groups, h1, h2⟩ :=
    tlvSplit_structure ((List.range (tlvMaxLen m)).map (instRecs m)) [] []
  exact ⟨groups, h1, by simpa using h2⟩

/-- The per-entry byte stream of `_pkt_encode_attributes` (the mapped body,
restated; `pktEncodeAttributes_cons` below checks it definitionally). -/
def entryEnc (D : RDict) (e : AttrKey × AttrVal) : Bytes :=
  if D.isTlvKey e.1 then
    match e.2 with
    | .tlvm m => pktEncodeTlv e.1 m
    | .vals _ => []
  else
    match e.2 with
    | .vals l => (l.map (pktEncodeAttribute e.1)).flatten
    | .tlvm _ => []

theorem pktEncodeAttributes_cons (D : RDict) (e : AttrKey × AttrVal) (rest : Store) :
    pktEncodeAttributes D (e :: rest) = entryEnc D e ++ pktEncodeAttributes D rest := by
  show ((e :: rest).map (entryEnc D)).flatten = _
  rw [List.map_cons, List.flatten_cons]
  rfl

theorem decode_vals_num_aux (D : RDict) (c : Nat)
    (h26 : c ≠ 26) (h80 : c ≠ 80) (htlv : ¬ D.isTlvKey (.num c) = true) :
    ∀ (vs l : List Bytes) (acc : Store) (ma : Bool) (tail : Bytes),
    storeFind acc (.num c) = none →
    ∀ fuel, decodeAttrsLoop D (fuel + vs.length) (acc ++ [(.num c, .vals l)]) ma
        ((vs.map (pktEncodeAttribute (.num c))).flatten ++ tail) =
      decodeAttrsLoop D fuel (acc ++ [(.num c, .vals (l ++ vs))]) ma tail := by
  intro vs
  induction vs with
  | nil =>
    intro l acc ma tail hfresh fuel
    simp
  | cons v rest ih =>
    intro l acc ma tail hfresh fuel
    rw [show fuel + (v :: rest).length = (fuel + rest.length) + 1 from by
      simp only [List.length_cons]; omega]
    rw [show ((v :: rest).map (pktEncodeAttribute (.num c))).flatten ++ tail =
      c :: (v.length + 2) :: (v ++ ((rest.map (pktEncodeAttribute (.num c))).flatten ++ tail))
      from by simp [pktEncodeAttribute]]
    rw [step_plain D (fuel + rest.length) c v _ _ ma h26 h80 htlv]
    rw [storeAppend_last_vals acc (.num c) l v hfresh]
    rw [ih (l ++ [v]) acc ma tail hfresh fuel]
    simp

theorem decode_vals_ma_aux (D : RDict) :
    ∀ (vs l : List Bytes) (acc : Store) (tail : Bytes),
    storeFind acc (.num 80) = none →
    ∀ fuel, decodeAttrsLoop D (fuel + vs.length) (acc ++ [(.num 80, .vals l)]) true
        ((vs.map (pktEncodeAttribute (.num 80))).flatten ++ tail) =
      decodeAttrsLoop D fuel (acc ++ [(.num 80, .vals (l ++ vs))]) true tail := by
  intro vs
  induction vs with
  | nil =>
    intro l acc tail hfresh fuel
    simp
  | cons v rest ih =>
    intro l acc tail hfresh fuel
    rw [show fuel + (v :: rest).length = (fuel + rest.length) + 1 from by
      simp only [List.length_cons]; omega]
    rw [show ((v :: rest).map (pktEncodeAttribute (.num 80))).flatten ++ tail =
      80 :: (v.length + 2) :: (v ++ ((rest.map (pktEncodeAttribute (.num 80))).flatten ++ tail))
      from by simp [pktEncodeAttribute]]
    rw [step_ma D (fuel + rest.length) v _ _ true]
    rw [storeAppend_last_vals acc (.num 80) l v hfresh]
    rw [ih (l ++ [v]) acc tail hfresh fuel]
    simp

theorem decode_vals_vsa_aux (D : RDict) (vend c : Nat)
    (hv : vend < 4294967296) (htlv : ¬ D.isTlvKey (.vsa vend c) = true) :
    ∀ (vs l : List Bytes) (acc : Store) (ma : Bool) (tail : Bytes),
    storeFind acc (.vsa vend c) = none →
    ∀ fuel, decodeAttrsLoop D (fuel + vs.length) (acc ++ [(.vsa vend c, .vals l)]) ma
        ((vs.map (pktEncodeAttribute (.vsa vend c))).flatten ++ tail) =
      decodeAttrsLoop D fuel (acc ++ [(.vsa vend c, .vals (l ++ vs))]) ma tail := by
  intro vs
  induction vs with
  | nil =>
    intro l acc ma tail hfresh fuel
    simp
  | cons v rest ih =>
    intro l acc ma tail hfresh fuel
    rw [show fuel + (v :: rest).length = (fuel + rest.length) + 1 from by
      simp only [List.length_cons]; omega]
    rw [show ((v :: rest).map (pktEncodeAttribute (.vsa vend c))).flatten ++ tail =
      26 :: (v.length + 8) :: ((pack32 vend ++ c :: (v.length + 2) :: v) ++
        ((rest.map (pktEncodeAttribute (.vsa vend c))).flatten ++ tail))
      from by simp [pktEncodeAttribute]]
    have hfind : ∀ mm, storeFind (acc ++ [(AttrKey.vsa vend c, AttrVal.vals l)])
        (AttrKey.vsa vend c) ≠ some (.tlvm mm) := by
      intro mm h
      rw [storeFind_append_last acc _ _ hfresh] at h
      cases h
    rw [step_vsa D (fuel + rest.length) vend c v _ _ ma hv htlv hfind]
    rw [storeAppend_last_vals acc (.vsa vend c) l v hfresh]
    rw [ih (l ++ [v]) acc ma tail hfresh fuel]
    simp

theorem decode_tlv_num_aux (D : RDict) (c : Nat)
    (h26 : c ≠ 26) (h80 : c ≠ 80) (htlv : D.isTlvKey (.num c) = true) :
    ∀ (groups : List (List (Nat × Bytes))) (sub : List (Nat × List Bytes))
      (acc : Store) (ma : Bool) (tail : Bytes),
    storeFind acc (.num c) = none →
    ∀ fuel, decodeAttrsLoop D (fuel + groups.length) (acc ++ [(.num c, .tlvm sub)]) ma
        ((groups.map (fun g => c :: ((subRecsEnc g).length + 2) :: subRecsEnc g)).flatten
          ++ tail) =
      decodeAttrsLoop D fuel
        (acc ++ [(.num c, .tlvm (subAppendRecs sub groups.flatten))]) ma tail := by
  intro groups
  induction groups with
  | nil =>
    intro sub acc ma tail hfresh fuel
    simp [subAppendRecs]
  | cons g gs ih =>
    intro sub acc ma tail hfresh fuel
    rw [show fuel + (g :: gs).length = (fuel + gs.length) + 1 from by
      simp only [List.length_cons]; omega]
    rw [show ((g :: gs).map (fun g => c :: ((subRecsEnc g).length + 2) :: subRecsEnc g)).flatten
        ++ tail =
      c :: ((subRecsEnc g).length + 2) :: (subRecsEnc g ++
        ((gs.map (fun g => c :: ((subRecsEnc g).length + 2) :: subRecsEnc g)).flatten ++ tail))
      from by simp]
    rw [step_tlv_num D (fuel + gs.length) c (subRecsEnc g) _ _ ma sub
      (subAppendRecs sub g) h26 h80 htlv
      (getTlvSub_last_tlvm acc _ sub hfresh)
      (pktDecodeTlvAttr_recs g sub ((subRecsEnc g).length + 1) (by omega))]
    rw [setTlvSub_last acc _ sub _ hfresh]
    rw [ih (subAppendRecs sub g) acc ma tail hfresh fuel]
    rw [show subAppendRecs sub ((g :: gs).flatten) =
      subAppendRecs (subAppendRecs sub g) gs.flatten from by
      rw [List.flatten_cons, subAppendRecs_append]]

theorem decode_tlv_vsa_aux (D : RDict) (vend c : Nat)
    (hv : vend < 4294967296) (htlv : D.isTlvKey (.vsa vend c) = true) :
    ∀ (groups : List (List (Nat × Bytes))) (sub : List (Nat × List Bytes))
      (acc : Store) (ma : Bool) (tail : Bytes),
    storeFind acc (.vsa vend c) = none →
    ∀ fuel, decodeAttrsLoop D (fuel + groups.length) (acc ++ [(.vsa vend c, .tlvm sub)]) ma
        ((groups.map (fun g => 26 :: ((subRecsEnc g).length + 8) ::
          (pack32 vend ++ c :: ((subRecsEnc g).length + 2) :: subRecsEnc g))).flatten
          ++ tail) =
      decodeAttrsLoop D fuel
        (acc ++ [(.vsa vend c, .tlvm (subAppendRecs sub groups.flatten))]) ma tail := by
  intro groups
  induction groups with
  | nil =>
    intro sub acc ma tail hfresh fuel
    simp [subAppendRecs]
  | cons g gs ih =>
    intro sub acc ma tail hfresh fuel
    rw [show fuel + (g :: gs).length = (fuel + gs.length) + 1 from by
      simp only [List.length_cons]; omega]
    rw [show ((g :: gs).map (fun g => 26 :: ((subRecsEnc g).length + 8) ::
        (pack32 vend ++ c :: ((subRecsEnc g).length + 2) :: subRecsEnc g))).flatten ++ tail =
      26 :: ((subRecsEnc g).length + 8) ::
        ((pack32 vend ++ c :: ((subRecsEnc g).length + 2) :: subRecsEnc g) ++
        ((gs.map (fun g => 26 :: ((subRecsEnc g).length + 8) ::
          (pack32 vend ++ c :: ((subRecsEnc g).length + 2) :: subRecsEnc g))).flatten ++ tail))
      from by simp]
    rw [step_tlv_vsa D (fuel + gs.length) vend c (subRecsEnc g) _ _ ma sub
      (subAppendRecs sub g) hv htlv
      (getTlvSub_last_tlvm acc _ sub hfresh)
      (pktDecodeTlvAttr_recs g sub
        ((pack32 vend ++ c :: ((subRecsEnc g).length + 2) :: subRecsEnc g).length + 1)
        (by rw [vsaBlob_length]; omega))]
    rw [setTlvSub_last acc _ sub _ hfresh]
    rw [ih (subAppendRecs sub g) acc ma tail hfresh fuel]
    rw [show subAppendRecs sub ((g :: gs).flatten) =
      subAppendRecs (subAppendRecs sub g) gs.flatten from by
      rw [List.flatten_cons, subAppendRecs_append]]

theorem decode_entry_vals_num (D : RDict) (c : Nat) (vs : List Bytes) (acc : Store)
    (ma : Bool) (tail : Bytes)
    (h26 : c ≠ 26) (h80 : c ≠ 80) (htlv : ¬ D.isTlvKey (.num c) = true)
    (hfresh : storeFind acc (.num c) = none) (hne : vs ≠ []) :
    ∀ fuel, decodeAttrsLoop D (fuel + vs.length) acc ma
        ((vs.map (pktEncodeAttribute (.num c))).flatten ++ tail) =
      decodeAttrsLoop D fuel (acc ++ [(.num c, .vals vs)]) ma tail := by
  match vs, hne with
  | v :: rest, _ =>
    intro fuel
    rw [show fuel + (v :: rest).length = (fuel + rest.length) + 1 from by
      simp only [List.length_cons]; omega]
    rw [show ((v :: rest).map (pktEncodeAttribute (.num c))).flatten ++ tail =
      c :: (v.length + 2) :: (v ++ ((rest.map (pktEncodeAttribute (.num c))).flatten ++ tail))
      from by simp [pktEncodeAttribute]]
    rw [step_plain D (fuel + rest.length) c v _ acc ma h26 h80 htlv]
    rw [storeAppend_fresh acc (.num c) v hfresh]
    rw [decode_vals_num_aux D c h26 h80 htlv rest [v] acc ma tail hfresh fuel]
    rfl

theorem decode_entry_vals_ma (D : RDict) (vs : List Bytes) (acc : Store)
    (ma : Bool) (tail : Bytes)
    (hfresh : storeFind acc (.num 80) = none) (hne : vs ≠ []) :
    ∀ fuel, decodeAttrsLoop D (fuel + vs.length) acc ma
        ((vs.map (pktEncodeAttribute (.num 80))).flatten ++ tail) =
      decodeAttrsLoop D fuel (acc ++ [(.num 80, .vals vs)]) true tail := by
  match vs, hne with
  | v :: rest, _ =>
    intro fuel
    rw [show fuel + (v :: rest).length = (fuel + rest.length) + 1 from by
      simp only [List.length_cons]; omega]
    rw [show ((v :: rest).map (pktEncodeAttribute (.num 80))).flatten ++ tail =
      80 :: (v.length + 2) :: (v ++ ((rest.map (pktEncodeAttribute (.num 80))).flatten ++ tail))
      from by simp [pktEncodeAttribute]]
    rw [step_ma D (fuel + rest.length) v _ acc ma]
    rw [storeAppend_fresh acc (.num 80) v hfresh]
    rw [decode_vals_ma_aux D rest [v] acc tail hfresh fuel]
    rfl

theorem decode_entry_vals_vsa (D : RDict) (vend c : Nat) (vs : List Bytes) (acc : Store)
    (ma : Bool) (tail : Bytes)
    (hv : vend < 4294967296) (htlv : ¬ D.isTlvKey (.vsa vend c) = true)
    (hfresh : storeFind acc (.vsa vend c) = none) (hne : vs ≠ []) :
    ∀ fuel, decodeAttrsLoop D (fuel + vs.length) acc ma
        ((vs.map (pktEncodeAttribute (.vsa vend c))).flatten ++ tail) =
      decodeAttrsLoop D fuel (acc ++ [(.vsa vend c, .vals vs)]) ma tail := by
  match vs, hne with
  | v :: rest, _ =>
    intro fuel
    rw [show fuel + (v :: rest).length = (fuel + rest.length) + 1 from by
      simp only [List.length_cons]; omega]
    rw [show ((v :: rest).map (pktEncodeAttribute (.vsa vend c))).flatten ++ tail =
      26 :: (v.length + 8) :: ((pack32 vend ++ c :: (v.length + 2) :: v) ++
        ((rest.map (pktEncodeAttribute (.vsa vend c))).flatten ++ tail))
      from by simp [pktEncodeAttribute]]
    have hfind : ∀ mm, storeFind acc (AttrKey.vsa vend c) ≠ some (.tlvm mm) := by
      intro mm h
      rw [hfresh] at h
      cases h
    rw [step_vsa D (fuel + rest.length) vend c v _ acc ma hv htlv hfind]
    rw [storeAppend_fresh acc (.vsa vend c) v hfresh]
    rw [decode_vals_vsa_aux D vend c hv htlv rest [v] acc ma tail hfresh fuel]
    rfl

theorem decode_entry_tlv_num (D : RDict) (c : Nat) (m : List (Nat × List Bytes))
    (acc : Store) (ma : Bool) (tail : Bytes)
    (h26 : c ≠ 26) (h80 : c ≠ 80) (htlv : D.isTlvKey (.num c) = true)
    (hfresh : storeFind acc (.num c) = none)
    (hnodup : nodupSubKeys m = true) (hne : ∀ p ∈ m, p.2 ≠ []) (hm : m ≠ []) :
    ∃ k, k ≤ (pktEncodeTlv (.num c) m).length ∧
    ∀ fuel, decodeAttrsLoop D (fuel + k) acc ma (pktEncodeTlv (.num c) m ++ tail) =
      decodeAttrsLoop D fuel (acc ++ [(.num c, .tlvm m)]) ma tail := by
  obtain ⟨groups, h1, h2⟩ := pktEncodeTlv_avps m
  have henc : pktEncodeTlv (.num c) m =
      (groups.map (fun g => c :: ((subRecsEnc g).length + 2) :: subRecsEnc g)).flatten := by
    simp only [pktEncodeTlv]
    rw [show (m.map (fun p => p.2.length)).foldl max 0 = tlvMaxLen m from rfl]
    rw [h1, List.map_map]
    rfl
  have hbound : groups.length ≤ (pktEncodeTlv (.num c) m).length := by
    rw [henc]
    clear henc h1 h2
    induction groups with
    | nil => simp
    | cons g gs ih =>
      simp only [List.map_cons, List.flatten_cons, List.length_cons, List.length_append,
        List.length_cons]
      omega
  refine ⟨groups.length, hbound, fun fuel => ?_⟩
  rw [henc]
  cases groups with
  | nil =>
    exfalso
    have hr := subAppendRecs_rebuild m hnodup hne hm
    rw [← h2] at hr
    simp [subAppendRecs] at hr
    exact hm hr
  | cons g gs =>
    rw [show ((g :: gs).map (fun g => c :: ((subRecsEnc g).length + 2) :: subRecsEnc g)).flatten
        ++ tail =
      c :: ((subRecsEnc g).length + 2) :: (subRecsEnc g ++
        ((gs.map (fun g => c :: ((subRecsEnc g).length + 2) :: subRecsEnc g)).flatten ++ tail))
      from by simp]
    rw [show fuel + (g :: gs).length = (fuel + gs.length) + 1 from by
      simp only [List.length_cons]; omega]
    rw [step_tlv_num D (fuel + gs.length) c (subRecsEnc g) _ acc ma []
      (subAppendRecs [] g) h26 h80 htlv (getTlvSub_fresh acc _ hfresh)
      (pktDecodeTlvAttr_recs g [] ((subRecsEnc g).length + 1) (by omega))]
    rw [setTlvSub_fresh acc _ _ hfresh]
    rw [decode_tlv_num_aux D c h26 h80 htlv gs (subAppendRecs [] g) acc ma tail hfresh fuel]
    rw [show subAppendRecs (subAppendRecs [] g) gs.flatten = m from by
      rw [← subAppendRecs_append, ← List.flatten_cons, h2]
      exact subAppendRecs_rebuild m hnodup hne hm]

theorem decode_entry_tlv_vsa (D : RDict) (vend c : Nat) (m : List (Nat × List Bytes))
    (acc : Store) (ma : Bool) (tail : Bytes)
    (hv : vend < 4294967296) (htlv : D.isTlvKey (.vsa vend c) = true)
    (hfresh : storeFind acc (.vsa vend c) = none)
    (hnodup : nodupSubKeys m = true) (hne : ∀ p ∈ m, p.2 ≠ []) (hm : m ≠ []) :
    ∃ k, k ≤ (pktEncodeTlv (.vsa vend c) m).length ∧
    ∀ fuel, decodeAttrsLoop D (fuel + k) acc ma (pktEncodeTlv (.vsa vend c) m ++ tail) =
      decodeAttrsLoop D fuel (acc ++ [(.vsa vend c, .tlvm m)]) ma tail := by
  obtain ⟨groups, h1, h2⟩ := pktEncodeTlv_avps m
  have henc : pktEncodeTlv (.vsa vend c) m =
      (groups.map (fun g => 26 :: ((subRecsEnc g).length + 8) ::
        (pack32 vend ++ c :: ((subRecsEnc g).length + 2) :: subRecsEnc g))).flatten := by
    simp only [pktEncodeTlv]
    rw [show (m.map (fun p => p.2.length)).foldl max 0 = tlvMaxLen m from rfl]
    rw [h1, List.map_map]
    rfl
  have hbound : groups.length ≤ (pktEncodeTlv (.vsa vend c) m).length := by
    rw [henc]
    clear henc h1 h2
    induction groups with
    | nil => simp
    | cons g gs ih =>
      simp only [List.map_cons, List.flatten_cons, List.length_cons, List.length_append,
        List.length_cons]
      omega
  refine ⟨groups.length, hbound, fun fuel => ?_⟩
  rw [henc]
  cases groups with
  | nil =>
    exfalso
    have hr := subAppendRecs_rebuild m hnodup hne hm
    rw [← h2] at hr
    simp [subAppendRecs] at hr
    exact hm hr
  | cons g gs =>
    rw [show ((g :: gs).map (fun g => 26 :: ((subRecsEnc g).length + 8) ::
        (pack32 vend ++ c :: ((subRecsEnc g).length + 2) :: subRecsEnc g))).flatten ++ tail =
      26 :: ((subRecsEnc g).length + 8) ::
        ((pack32 vend ++ c :: ((subRecsEnc g).length + 2) :: subRecsEnc g) ++
        ((gs.map (fun g => 26 :: ((subRecsEnc g).length + 8) ::
          (pack32 vend ++ c :: ((subRecsEnc g).length + 2) :: subRecsEnc g))).flatten ++ tail))
      from by simp]
    rw [show fuel + (g :: gs).length = (fuel + gs.length) + 1 from by
      simp only [List.length_cons]; omega]
    rw [step_tlv_vsa D (fuel + gs.length) vend c (subRecsEnc g) _ acc ma []
      (subAppendRecs [] g) hv htlv (getTlvSub_fresh acc _ hfresh)
      (pktDecodeTlvAttr_recs g []
        ((pack32 vend ++ c :: ((subRecsEnc g).length + 2) :: subRecsEnc g).length + 1)
        (by rw [vsaBlob_length]; omega))]
    rw [setTlvSub_fresh acc _ _ hfresh]
    rw [decode_tlv_vsa_aux D vend c hv htlv gs (subAppendRecs [] g) acc ma tail hfresh fuel]
    rw [show subAppendRecs (subAppendRecs [] g) gs.flatten = m from by
      rw [← subAppendRecs_append, ← List.flatten_cons, h2]
      exact subAppendRecs_rebuild m hnodup hne hm]

theorem decodeAttrsLoop_nil (D : RDict) (fuel : Nat) (st : Store) (ma : Bool) :
    decodeAttrsLoop D fuel st ma [] = .ok (st, ma) := by
  cases fuel <;> rfl

theorem vals_enc_length (key : AttrKey) (l : List Bytes) :
    l.length ≤ ((l.map (pktEncodeAttribute key)).flatten).length := by
  induction l with
  | nil => simp
  | cons v rest ih =>
    simp only [List.map_cons, List.flatten_cons, List.length_append, List.length_cons]
    have h2 : 2 ≤ (pktEncodeAttribute key v).length := by
      cases key <;> simp [pktEncodeAttribute]
    omega

/-- Chaining entries over a well-formed store suffix: the encoded stream
decodes to the entries appended in order, flipping the MA flag iff key 80
occurs. -/
theorem decode_entries (D : RDict) :
    ∀ (st2 acc : Store) (ma : Bool) (tail : Bytes),
    (∀ e ∈ st2, storeFind acc e.1 = none) →
    nodupKeys st2 = true →
    st2.all (wfEntry D) = true →
    ∃ k, k ≤ (pktEncodeAttributes D st2).length ∧
    ∀ fuel,
      decodeAttrsLoop D (fuel + k) acc ma (pktEncodeAttributes D st2 ++ tail) =
        decodeAttrsLoop D fuel (acc ++ st2)
          (ma || st2.any (fun e => e.1 == AttrKey.num 80)) tail := by
  intro st2
  induction st2 with
  | nil =>
    intro acc ma tail _ _ _
    refine ⟨0, by simp, fun fuel => ?_⟩
    simp [pktEncodeAttributes]
  | cons e rest ih =>
    intro acc ma tail hfresh hnodup hwf
    obtain ⟨ke, we⟩ := e
    simp only [nodupKeys, Bool.and_eq_true] at hnodup
    have hany := hnodup.1
    rw [Bool.not_eq_true'] at hany
    rw [List.any_eq_false] at hany
    have hrestne : ∀ q ∈ rest, q.1 ≠ ke := fun q hq hqc => hany q hq (by simp [hqc])
    simp only [List.all_cons, Bool.and_eq_true] at hwf
    have hwf1 := hwf.1
    have hfreshe : storeFind acc ke = none := hfresh (ke, we) (by simp)
    have hfresh2 : ∀ q ∈ rest, storeFind (acc ++ [(ke, we)]) q.1 = none := by
      intro q hq
      rw [storeFind_append_ne acc ke q.1 we (hrestne q hq)]
      exact hfresh q (by simp [hq])
    cases ke with
    | num c =>
      cases we with
      | vals l =>
        simp only [wfEntry, Bool.and_eq_true, decide_eq_true_eq, bne_iff_ne,
          Bool.not_eq_true'] at hwf1
        obtain ⟨⟨⟨hc256, hc26⟩, hctlv⟩, hvals⟩ := hwf1
        have hctlv2 : ¬ D.isTlvKey (.num c) = true := by simp [hctlv]
        simp only [wfVals, Bool.and_eq_true, Bool.not_eq_true'] at hvals
        have hlne : l ≠ [] := by
          intro h
          rw [h] at hvals
          simp at hvals
        by_cases hc80 : c = 80
        · subst hc80
          obtain ⟨k2, hk2, hrun2⟩ := ih (acc ++ [(.num 80, .vals l)]) true tail hfresh2
            hnodup.2 hwf.2
          refine ⟨l.length + k2, ?_, fun fuel => ?_⟩
          · rw [pktEncodeAttributes_cons]
            rw [show entryEnc D (.num 80, .vals l) =
              (l.map (pktEncodeAttribute (.num 80))).flatten from by
              simp [entryEnc, hctlv]]
            have hb := vals_enc_length (AttrKey.num 80) l
            simp only [List.length_append]
            omega
          · rw [pktEncodeAttributes_cons]
            rw [show entryEnc D (.num 80, .vals l) =
              (l.map (pktEncodeAttribute (.num 80))).flatten from by
              simp [entryEnc, hctlv]]
            rw [List.append_assoc]
            rw [show fuel + (l.length + k2) = (fuel + k2) + l.length from by omega]
            rw [decode_entry_vals_ma D l acc ma _ hfreshe hlne (fuel + k2)]
            rw [hrun2 fuel]
            rw [show (acc ++ [(AttrKey.num 80, AttrVal.vals l)]) ++ rest =
              acc ++ ((AttrKey.num 80, AttrVal.vals l) :: rest) from by simp]
            rw [show (true || rest.any fun e => e.1 == AttrKey.num 80) =
              (ma || ((AttrKey.num 80, AttrVal.vals l) :: rest).any
                fun e => e.1 == AttrKey.num 80) from by simp [List.any_cons]]
        · obtain ⟨k2, hk2, hrun2⟩ := ih (acc ++ [(.num c, .vals l)]) ma tail hfresh2
            hnodup.2 hwf.2
          refine ⟨l.length + k2, ?_, fun fuel => ?_⟩
          · rw [pktEncodeAttributes_cons]
            rw [show entryEnc D (.num c, .vals l) =
              (l.map (pktEncodeAttribute (.num c))).flatten from by
              simp [entryEnc, hctlv]]
            have hb := vals_enc_length (AttrKey.num c) l
            simp only [List.length_append]
            omega
          · rw [pktEncodeAttributes_cons]
            rw [show entryEnc D (.num c, .vals l) =
              (l.map (pktEncodeAttribute (.num c))).flatten from by
              simp [entryEnc, hctlv]]
            rw [List.append_assoc]
            rw [show fuel + (l.length + k2) = (fuel + k2) + l.length from by omega]
            rw [decode_entry_vals_num D c l acc ma _ hc26 hc80 hctlv2 hfreshe hlne
              (fuel + k2)]
            rw [hrun2 fuel]
            rw [show (acc ++ [(AttrKey.num c, AttrVal.vals l)]) ++ rest =
              acc ++ ((AttrKey.num c, AttrVal.vals l) :: rest) from by simp]
            have hbeq : (AttrKey.num c == AttrKey.num 80) = false :=
              beq_eq_false_iff_ne.mpr (fun h => hc80 (by injection h))
            rw [show (ma || rest.any fun e => e.1 == AttrKey.num 80) =
              (ma || ((AttrKey.num c, AttrVal.vals l) :: rest).any
                fun e => e.1 == AttrKey.num 80) from by simp [List.any_cons, hbeq]]
      | tlvm m =>
        simp only [wfEntry, Bool.and_eq_true, decide_eq_true_eq, bne_iff_ne] at hwf1
        obtain ⟨⟨⟨⟨hc256, hc26⟩, hc80⟩, hctlv⟩, hsub⟩ := hwf1
        simp only [wfSub, Bool.and_eq_true, Bool.not_eq_true'] at hsub
        obtain ⟨⟨⟨hmne, hnodupm⟩, hallm⟩, hinst⟩ := hsub
        have hm : m ≠ [] := fun h => by rw [h] at hmne; cases hmne
        rw [List.all_eq_true] at hallm
        have hnem : ∀ p ∈ m, p.2 ≠ [] := by
          intro p hp h
          have hq := hallm p hp
          simp only [Bool.and_eq_true, Bool.not_eq_true'] at hq
          rw [h] at hq
          exact absurd hq.1.2 (by simp)
        obtain ⟨k1, hk1, hrun1⟩ := decode_entry_tlv_num D c m acc ma
          (pktEncodeAttributes D rest ++ tail) hc26 hc80 hctlv hfreshe hnodupm hnem hm
        obtain ⟨k2, hk2, hrun2⟩ := ih (acc ++ [(.num c, .tlvm m)]) ma tail hfresh2
          hnodup.2 hwf.2
        refine ⟨k1 + k2, ?_, fun fuel => ?_⟩
        · rw [pktEncodeAttributes_cons]
          rw [show entryEnc D (.num c, .tlvm m) = pktEncodeTlv (.num c) m from by
            simp [entryEnc, hctlv]]
          simp only [List.length_append]
          omega
        · rw [pktEncodeAttributes_cons]
          rw [show entryEnc D (.num c, .tlvm m) = pktEncodeTlv (.num c) m from by
            simp [entryEnc, hctlv]]
          rw [List.append_assoc]
          rw [show fuel + (k1 + k2) = (fuel + k2) + k1 from by omega]
          rw [hrun1 (fuel + k2)]
          rw [hrun2 fuel]
          rw [show (acc ++ [(AttrKey.num c, AttrVal.tlvm m)]) ++ rest =
            acc ++ ((AttrKey.num c, AttrVal.tlvm m) :: rest) from by simp]
          have hbeq : (AttrKey.num c == AttrKey.num 80) = false :=
            beq_eq_false_iff_ne.mpr (fun h => hc80 (by injection h))
          rw [show (ma || rest.any fun e => e.1 == AttrKey.num 80) =
            (ma || ((AttrKey.num c, AttrVal.tlvm m) :: rest).any
              fun e => e.1 == AttrKey.num 80) from by simp [List.any_cons, hbeq]]
    | vsa vend c =>
      have hbeq : (AttrKey.vsa vend c == AttrKey.num 80) = false :=
        beq_eq_false_iff_ne.mpr (fun h => AttrKey.noConfusion h)
      cases we with
      | vals l =>
        simp only [wfEntry, Bool.and_eq_true, decide_eq_true_eq,
          Bool.not_eq_true'] at hwf1
        obtain ⟨⟨⟨hv, hc256⟩, hctlv⟩, hvals⟩ := hwf1
        have hctlv2 : ¬ D.isTlvKey (.vsa vend c) = true := by simp [hctlv]
        simp only [wfVals, Bool.and_eq_true, Bool.not_eq_true'] at hvals
        have hlne : l ≠ [] := by
          intro h
          rw [h] at hvals
          simp at hvals
        obtain ⟨k2, hk2, hrun2⟩ := ih (acc ++ [(.vsa vend c, .vals l)]) ma tail hfresh2
          hnodup.2 hwf.2
        refine ⟨l.length + k2, ?_, fun fuel => ?_⟩
        · rw [pktEncodeAttributes_cons]
          rw [show entryEnc D (.vsa vend c, .vals l) =
            (l.map (pktEncodeAttribute (.vsa vend c))).flatten from by
            simp [entryEnc, hctlv]]
          have hb := vals_enc_length (AttrKey.vsa vend c) l
          simp only [List.length_append]
          omega
        · rw [pktEncodeAttributes_cons]
          rw [show entryEnc D (.vsa vend c, .vals l) =
            (l.map (pktEncodeAttribute (.vsa vend c))).flatten from by
            simp [entryEnc, hctlv]]
          rw [List.append_assoc]
          rw [show fuel + (l.length + k2) = (fuel + k2) + l.length from by omega]
          rw [decode_entry_vals_vsa D vend c l acc ma _ hv hctlv2 hfreshe hlne
            (fuel + k2)]
          rw [hrun2 fuel]
          rw [show (acc ++ [(AttrKey.vsa vend c, AttrVal.vals l)]) ++ rest =
            acc ++ ((AttrKey.vsa vend c, AttrVal.vals l) :: rest) from by simp]
          rw [show (ma || rest.any fun e => e.1 == AttrKey.num 80) =
            (ma || ((AttrKey.vsa vend c, AttrVal.vals l) :: rest).any
              fun e => e.1 == AttrKey.num 80) from by simp [List.any_cons, hbeq]]
      | tlvm m =>
        simp only [wfEntry, Bool.and_eq_true, decide_eq_true_eq] at hwf1
        obtain ⟨⟨⟨hv, hc256⟩, hctlv⟩, hsub⟩ := hwf1
        simp only [wfSub, Bool.and_eq_true, Bool.not_eq_true'] at hsub
        obtain ⟨⟨⟨hmne, hnodupm⟩, hallm⟩, hinst⟩ := hsub
        have hm : m ≠ [] := fun h => by rw [h] at hmne; cases hmne
        rw [List.all_eq_true] at hallm
        have hnem : ∀ p ∈ m, p.2 ≠ [] := by
          intro p hp h
          have hq := hallm p hp
          simp only [Bool.and_eq_true, Bool.not_eq_true'] at hq
          rw [h] at hq
          exact absurd hq.1.2 (by simp)
        obtain ⟨k1, hk1, hrun1⟩ := decode_entry_tlv_vsa D vend c m acc ma
          (pktEncodeAttributes D rest ++ tail) hv hctlv hfreshe hnodupm hnem hm
        obtain ⟨k2, hk2, hrun2⟩ := ih (acc ++ [(.vsa vend c, .tlvm m)]) ma tail hfresh2
          hnodup.2 hwf.2
        refine ⟨k1 + k2, ?_, fun fuel => ?_⟩
        · rw [pktEncodeAttributes_cons]
          rw [show entryEnc D (.vsa vend c, .tlvm m) = pktEncodeTlv (.vsa vend c) m from by
            simp [entryEnc, hctlv]]
          simp only [List.length_append]
          omega
        · rw [pktEncodeAttributes_cons]
          rw [show entryEnc D (.vsa vend c, .tlvm m) = pktEncodeTlv (.vsa vend c) m from by
            simp [entryEnc, hctlv]]
          rw [List.append_assoc]
          rw [show fuel + (k1 + k2) = (fuel + k2) + k1 from by omega]
          rw [hrun1 (fuel + k2)]
          rw [hrun2 fuel]
          rw [show (acc ++ [(AttrKey.vsa vend c, AttrVal.tlvm m)]) ++ rest =
            acc ++ ((AttrKey.vsa vend c, AttrVal.tlvm m) :: rest) from by simp]
          rw [show (ma || rest.any fun e => e.1 == AttrKey.num 80) =
            (ma || ((AttrKey.vsa vend c, AttrVal.tlvm m) :: rest).any
              fun e => e.1 == AttrKey.num 80) from by simp [List.any_cons, hbeq]]

/-- C1: serializing a packet whose attribute store is well formed for the
dictionary and decoding the resulting octets with the same dictionary
returns the original code, id, authenticator and the identical attribute
store (per-code value lists in order, repeated values preserved);
Message-Authenticator presence sets the decoded flag. -/
theorem c1_round_trip (D : RDict) (code id : Nat) (auth : Bytes) (st : Store)
    (hcode : code < 256) (hid : id < 256) (hauth : auth.length = 16)
    (hwf : wfStore D st = true)
    (hlen : 20 + (pktEncodeAttributes D st).length ≤ 4096) :
    decodePacket D (encodeRawPacket D code id auth st) =
      .ok ⟨code, id, auth, st, st.any (fun e => e.1 == AttrKey.num 80)⟩ := by
  have hwf2 := hwf
  simp only [wfStore, Bool.and_eq_true] at hwf2
  obtain ⟨k, hk, hrun⟩ := decode_entries D st [] false []
    (fun e he => rfl) hwf2.1 hwf2.2
  have hrun2 : ∀ fuel,
      decodeAttrsLoop D (fuel + k) [] false (pktEncodeAttributes D st) =
        decodeAttrsLoop D fuel st
          (st.any (fun e => e.1 == AttrKey.num 80)) [] := by
    intro fuel
    have h := hrun fuel
    rw [List.append_nil] at h
    simpa using h
  have hpkt : encodeRawPacket D code id auth st =
      (code :: id :: pack16 (20 + (pktEncodeAttributes D st).length)) ++ auth ++
        pktEncodeAttributes D st := rfl
  have hplen : (encodeRawPacket D code id auth st).length =
      20 + (pktEncodeAttributes D st).length := by
    rw [hpkt]
    simp only [List.length_append, List.length_cons, pack16, List.length_nil, hauth]
    try omega
  have hg2 : (encodeRawPacket D code id auth st).getD 2 0 =
      (20 + (pktEncodeAttributes D st).length) / 256 % 256 := by
    rw [hpkt]
    rfl
  have hg3 : (encodeRawPacket D code id auth st).getD 3 0 =
      (20 + (pktEncodeAttributes D st).length) % 256 := by
    rw [hpkt]
    rfl
  have hdecl : (encodeRawPacket D code id auth st).getD 2 0 * 256 +
      (encodeRawPacket D code id auth st).getD 3 0 =
      20 + (pktEncodeAttributes D st).length := by
    rw [hg2, hg3]
    omega
  have hg0 : (encodeRawPacket D code id auth st).getD 0 0 = code := by
    rw [hpkt]
    rfl
  have hg1 : (encodeRawPacket D code id auth st).getD 1 0 = id := by
    rw [hpkt]
    rfl
  have hauthsl : sl (encodeRawPacket D code id auth st) 4 20 = auth := by
    rw [hpkt]
    exact sl_mid _ auth _ (by simp [pack16]) hauth
  have hdrop : (encodeRawPacket D code id auth st).drop 20 = pktEncodeAttributes D st := by
    rw [hpkt]
    exact List.drop_left' (by simp [pack16, hauth])
  simp only [decodePacket]
  rw [if_neg (show ¬ (encodeRawPacket D code id auth st).length < 20 from by
    rw [hplen]; omega)]
  rw [if_neg (show ¬ (encodeRawPacket D code id auth st).length ≠
      (encodeRawPacket D code id auth st).getD 2 0 * 256 +
        (encodeRawPacket D code id auth st).getD 3 0 from
    fun hne => hne (by rw [hplen, hdecl]))]
  rw [if_neg (show ¬ 4096 < (encodeRawPacket D code id auth st).getD 2 0 * 256 +
      (encodeRawPacket D code id auth st).getD 3 0 from by rw [hdecl]; omega)]
  rw [hdrop, hplen]
  rw [show 20 + (pktEncodeAttributes D st).length =
    (20 + (pktEncodeAttributes D st).length - k) + k from by omega]
  rw [hrun2 (20 + (pktEncodeAttributes D st).length - k)]
  rw [decodeAttrsLoop_nil]
  rw [hg0, hg1, hauthsl]

/-- Witness: a well-formed store over the test dictionary with a repeated
User-Name, a Message-Authenticator, a vendor attribute, a tlv attribute and
a vendor tlv attribute survives the encode/decode round trip unchanged. -/
theorem c1_round_trip_witness :
    decodePacket Dtest (encodeRawPacket Dtest 1 5 (List.replicate 16 7)
      [(.num 1, .vals [[104, 105], [121, 111]]),
       (.num 80, .vals [List.replicate 16 0]),
       (.vsa 9 1, .vals [[120]]),
       (.num 200, .tlvm [(1, [[97], [98]]), (2, [[99]])]),
       (.vsa 311 5, .tlvm [(3, [[100]])])]) =
      .ok ⟨1, 5, List.replicate 16 7,
        [(.num 1, .vals [[104, 105], [121, 111]]),
         (.num 80, .vals [List.replicate 16 0]),
         (.vsa 9 1, .vals [[120]]),
         (.num 200, .tlvm [(1, [[97], [98]]), (2, [[99]])]),
         (.vsa 311 5, .tlvm [(3, [[100]])])], true⟩ := by
  have h := c1_round_trip Dtest 1 5 (List.replicate 16 7)
    [(.num 1, .vals [[104, 105], [121, 111]]),
     (.num 80, .vals [List.replicate 16 0]),
     (.vsa 9 1, .vals [[120]]),
     (.num 200, .tlvm [(1, [[97], [98]]), (2, [[99]])]),
     (.vsa 311 5, .tlvm [(3, [[100]])])]
    (by decide) (by decide) (by decide) (by decide) (by decide)
  rw [show ([(.num 1, .vals [[104, 105], [121, 111]]),
       (.num 80, .vals [List.replicate 16 0]),
       (.vsa 9 1, .vals [[120]]),
       (.num 200, .tlvm [(1, [[97], [98]]), (2, [[99]])]),
       (.vsa 311 5, .tlvm [(3, [[100]])])] : Store).any
      (fun e => e.1 == AttrKey.num 80) = true from by decide] at h
  exact h

/-! ## C9 — string encoding limit -/

/-- C9 counterexample: the claim says encoding fails with EncodingError for
every value whose UTF-8 encoding exceeds 253 octets, but a str of 85 `€`
characters (255 UTF-8 octets) encodes successfully: the source checks
`len(string)`, the number of characters. -/
theorem c9_counterexample :
    253 < (strUtf8 euroStr).length ∧
    encode_string (.pystr euroStr) = .ok (strUtf8 euroStr) := by
  constructor
  · decide
  · decide

/-- C9 (amended): encoding a str value of the string attribute type fails
(with the EncodingError kind, here ValueError) exactly when the value has
more than 253 *characters*, and succeeds for every value of at most 253
characters, returning its UTF-8 encoding (which may exceed 253 octets for
multibyte characters). -/
theorem c9_string_limit (s : String) :
    (encode_string (.pystr s) = .error .valueError ↔ 253 < s.length) ∧
    (s.length ≤ 253 → encode_string (.pystr s) = .ok (strUtf8 s)) := by
  by_cases h : 253 < s.length <;> simp [encode_string, h]

/-- Witness for `c9_string_limit` at a concrete 3-character string. -/
theorem c9_string_limit_witness :
    "abc".length ≤ 253 ∧ encode_string (.pystr "abc") = .ok (strUtf8 "abc") :=
  ⟨by decide, (c9_string_limit "abc").2 (by decide)⟩

/-! ## C10 — constructor type checks -/

/-- C10: constructing any of the four packet classes with a non-bytes secret,
or with an authenticator that is neither None nor bytes, raises TypeError —
regardless of the keyword attributes, which are only processed after the
checks; with a bytes secret and a None-or-bytes authenticator the
constructor raises neither error (and succeeds outright without keyword
attributes). -/
theorem c10_constructor_type_checks (kind : PKind) (D : RDict) (id : Option Nat)
    (nextId : Nat) (secret authenticator : PyVal) (attrs : List (String × PyVal))
    (saltRand : Nat) :
    ((∀ b, secret ≠ .pybytes b) →
      packetInitK kind D id nextId secret authenticator attrs saltRand = .error .typeError) ∧
    ((∃ b, secret = .pybytes b) →
      authenticator ≠ .pynone → (∀ b, authenticator ≠ .pybytes b) →
      packetInitK kind D id nextId secret authenticator attrs saltRand = .error .typeError) ∧
    ((∃ b, secret = .pybytes b) →
      (authenticator = .pynone ∨ ∃ b, authenticator = .pybytes b) →
      ∃ p, packetInitK kind D id nextId secret authenticator [] saltRand = .ok p) := by
  refine ⟨fun hs => ?_, fun hs ha1 ha2 => ?_, fun hs ha => ?_⟩
  · cases secret with
    | pybytes b => exact absurd rfl (hs b)
    | pystr s => simp [packetInitK, packetInit]
    | pyint n => simp [packetInitK, packetInit]
    | pynone => simp [packetInitK, packetInit]
  · obtain ⟨b, rfl⟩ := hs
    cases authenticator with
    | pynone => exact absurd rfl ha1
    | pybytes a => exact absurd rfl (ha2 a)
    | pystr s => simp [packetInitK, packetInit]
    | pyint n => simp [packetInitK, packetInit]
  · obtain ⟨b, rfl⟩ := hs
    rcases ha with rfl | ⟨a, rfl⟩
    · exact ⟨⟨defaultCode kind, (match id with | some i => i | none => nextId), b, none, [], false⟩,
        by simp [packetInitK, packetInit, pure, Except.pure, Except.map]⟩
    · exact ⟨⟨defaultCode kind, (match id with | some i => i | none => nextId), b, some a, [], false⟩,
        by simp [packetInitK, packetInit, pure, Except.pure, Except.map]⟩

/-- Witness for `c10_constructor_type_checks`: an int secret is rejected, a
str authenticator is rejected, and bytes secret with None authenticator
succeeds. -/
theorem c10_constructor_type_checks_witness :
    (packetInitK .auth Dtest none 7 (.pyint 3) .pynone [] 0 = .error .typeError) ∧
    (packetInitK .acct Dtest none 7 (.pybytes [1]) (.pystr "x") [] 0 = .error .typeError) ∧
    (∃ p, packetInitK .coa Dtest none 7 (.pybytes [1]) .pynone [] 0 = .ok p) :=
  ⟨(c10_constructor_type_checks .auth Dtest none 7 (.pyint 3) .pynone [] 0).1
      (fun b => by simp),
   (c10_constructor_type_checks .acct Dtest none 7 (.pybytes [1]) (.pystr "x") [] 0).2.1
      ⟨[1], rfl⟩ (by simp) (fun b => by simp),
   (c10_constructor_type_checks .coa Dtest none 7 (.pybytes [1]) .pynone [] 0).2.2
      ⟨[1], rfl⟩ (Or.inl rfl)⟩

end Pyrad
